import Mathlib

/-!
# Verification of sevenz-rust2 spec claims

Shallow embedding of the parts of the `sevenz-rust2` repository named by the
claims: the SEE estimator update and `rescale` of the PPMd7 model
(`ppmd-rust/src/internal/ppmd7.rs`), the PPMd7 range coder
(`ppmd-rust/src/internal/ppmd7/range_coding.rs`), the delta filter
(`src/delta.rs`), the block parser and start-header handling of the reader
(`src/reader.rs`), the error re-tagging (`src/error.rs`), and the start-header
field written by the writer (`src/writer.rs`).

Machine integers are modelled as `Nat` with explicit `% 2^w` where the source
wraps; fallible code returns `Option` or an explicit error sum.
-/

namespace SevenZ

/-! ## `src/error.rs` — the `Error` enum and `maybe_bad_password` (claim C9)

Payloads irrelevant to the claims are reduced: an `std::io::Error` is an
opaque token (`Nat`), a `Cow<str>` context is a `String`. Constructors not
involved in the claim are kept as representative distinct variants so that
"propagated unchanged" is meaningful. -/

/-- The `Error` enum of `src/error.rs`, with payloads reduced to tokens. -/
inductive SzError where
  | badSignature (sig : List Nat)
  | unsupportedVersion (major minor : Nat)
  | checksumVerificationFailed
  | nextHeaderCrcMismatch
  | io (e : Nat) (ctx : String)
  | fileOpen (e : Nat) (name : String)
  | other (msg : String)
  | badTerminatedStreamsInfo (nid : Nat)
  | badTerminatedUnpackInfo
  | badTerminatedPackInfo (nid : Nat)
  | badTerminatedSubStreamsInfo
  | badTerminatedHeader (nid : Nat)
  | externalUnsupported
  | unsupportedCompressionMethod (m : String)
  | maxMemLimited (maxKb actualKb : Nat)
  | passwordRequired
  | unsupported (msg : String)
  | maybeBadPassword (e : Nat)
  | fileNotFound
  deriving DecidableEq, Repr

namespace SzError

/-- `Error::maybe_bad_password` (src/error.rs lines 97–105): when `encryped`
is false return `self` unchanged; otherwise re-tag `Io(e, s)` into
`MaybeBadPassword(e)` only when the context string `s` is empty. -/
def maybe_bad_password (self : SzError) (encryped : Bool) : SzError :=
  if !encryped then self
  else
    match self with
    | .io e s => if s.isEmpty then .maybeBadPassword e else .io e s
    | e => e

/-- The error map applied by `BlockDecoder::for_each_entries`
(src/reader.rs line 1675): `|e| e.maybe_bad_password(!password.is_empty())`. -/
def forEachEntriesErrMap (passwordNonEmpty : Bool) (e : SzError) : SzError :=
  e.maybe_bad_password passwordNonEmpty

end SzError

/-! ## `ppmd-rust/src/internal/ppmd7.rs` — the SEE estimator (claim C5) -/

/-- A SEE slot (ppmd7.rs lines 29–33): `summ: u16`, `shift: u8`, `count: u8`. -/
structure See where
  summ : Nat
  shift : Nat
  count : Nat
  deriving DecidableEq, Repr

namespace See

/-- `See::update` (ppmd7.rs lines 36–46). The decrement of `count` sits inside
the short-circuited `shift < 7 &&` condition, so nothing at all happens when
`shift ≥ 7`. `count -= 1` is u8 wrapping (release build), `summ <<= 1` wraps
at 2^16, and the reset `(3 << fresh) as u8` truncates to 8 bits with `fresh`
being the shift value before the increment. -/
def update (s : See) : See :=
  if s.shift < 7 then
    let count := (s.count + 255) % 256
    if count = 0 then
      { summ := s.summ * 2 % 65536, shift := s.shift + 1, count := 3 * 2 ^ s.shift % 256 }
    else
      { s with count := count }
  else s

end See

/-! ## `ppmd-rust/src/internal/ppmd7.rs` — `rescale` (claim C4)

`PPmd7::rescale` (ppmd7.rs lines 899–1007) is modelled on the context's
state array as a list of `State` records. All freq arithmetic is u32 with the
stores truncated to u8 (`freq as u8`); since every incoming freq is a u8 and
the halvings only shrink values (the head becomes at most `(255+4+1)>>1 =
130`), the truncations are the identity on reachable values, but they are
kept in the model. -/

/-- A PPMd7 `State` as `rescale` moves it (symbol, freq, successor words). -/
structure RState where
  symbol : Nat
  freq : Nat
  successor : Nat
  deriving DecidableEq, Repr

/-- The found-state rotation at the top of `rescale` (ppmd7.rs lines
905–912): `tmp = *s; while s != stats { *s = *(s-1); s -= 1 }; *s = tmp`
moves the found state (at index `k`) to the front, shifting the prefix right
by one. -/
def moveFoundToFront (l : List RState) (k : Nat) : List RState :=
  match l.get? k with
  | some x => x :: (l.take k ++ l.drop (k + 1))
  | none => l

/-- The backward insertion walk of `rescale` (ppmd7.rs lines 933–944) seen
from the right end of the already-processed prefix (the list here is the
prefix *reversed*): the freshly halved state `x` moves left past every
neighbour with strictly smaller freq. -/
def bubAux (x : RState) : List RState → List RState
  | [] => [x]
  | a :: ra => if a.freq < x.freq then a :: bubAux x ra else x :: a :: ra

/-- Appending the halved state at the end of the prefix and bubbling it left
(ppmd7.rs lines 933–944). -/
def insertSortedDesc (pre : List RState) (x : RState) : List RState :=
  (bubAux x pre.reverse).reverse

/-- The main halving loop of `rescale` (ppmd7.rs lines 926–945), threading
the processed prefix, `sum_freq` and `esc_freq` (u32, with the wrapping
subtraction of each original freq). -/
def rescaleLoop (adder : Nat) : List RState → List RState × Nat × Nat →
    List RState × Nat × Nat
  | [], st => st
  | s :: rest, (acc, sumFreq, escFreq) =>
      let escFreq1 := (escFreq + 2 ^ 32 - s.freq % 2 ^ 32) % 2 ^ 32
      let freq := (s.freq + adder) / 2
      let sumFreq1 := (sumFreq + freq) % 2 ^ 32
      rescaleLoop adder rest
        (insertSortedDesc acc { s with freq := freq % 256 }, sumFreq1, escFreq1)

/-- The trailing-zero removal of `rescale` (ppmd7.rs lines 947–963): walk
back from the last state while `freq == 0`, dropping those states. -/
def trimTrailingZeroFreq (l : List RState) : List RState :=
  (l.reverse.dropWhile (fun s => s.freq == 0)).reverse

/-- The single-symbol-context loop of `rescale` (ppmd7.rs lines 968–975):
`loop { esc_freq >>= 1; freq += 1 >> 1; if esc_freq <= 1 { break } }` — note
the source adds `1 >> 1 = 0` to `freq` each round. -/
def rescaleSingleLoop (escFreq freq : Nat) : Nat :=
  let e := escFreq / 2
  let f := freq + 1 / 2
  if e ≤ 1 then f else rescaleSingleLoop e f
  termination_by escFreq
  decreasing_by omega

/-- `PPmd7::rescale` (ppmd7.rs lines 899–1007) on the state list of
`min_context`: `adder = (order_fall != 0)`, `foundIdx` the index of
`found_state` in the array, `summFreq` the context's `summ_freq`. Returns
the rescaled state list and, for the multi-symbol outcome, the new
`summ_freq` (u16); the single-symbol outcome stores its lone state in the
context itself and is tagged `none`. The block re-allocation when the size
class shrinks (lines 985–999) copies the surviving states unchanged and does
not affect either result. -/
def rescale (adder foundIdx summFreq : Nat) (states : List RState) :
    List RState × Option Nat :=
  match moveFoundToFront states foundIdx with
  | [] => ([], none)
  | s0 :: rest =>
      let escFreq0 := (summFreq + 2 ^ 32 - s0.freq % 2 ^ 32) % 2 ^ 32
      let sumFreq1 := (s0.freq + 4 + adder) / 2
      match rescaleLoop adder rest
          ([{ s0 with freq := sumFreq1 % 256 }], sumFreq1, escFreq0) with
      | (sorted, sumFreqF, escFreqF) =>
          match sorted.getLast? with
          | none => (sorted, none)
          | some last =>
              if last.freq = 0 then
                let kept := trimTrailingZeroFreq sorted
                let removed := sorted.length - kept.length
                let escFreq1 := (escFreqF + removed) % 2 ^ 32
                if kept.length = 1 then
                  match kept with
                  | [h] =>
                      ([{ h with freq := rescaleSingleLoop escFreq1 h.freq % 256 }],
                        none)
                  | _ => (kept, none)
                else
                  (kept, some ((sumFreqF + escFreq1 - escFreq1 / 2) % 2 ^ 16))
              else
                (sorted, some ((sumFreqF + escFreqF - escFreqF / 2) % 2 ^ 16))

/-! ## `src/delta.rs` — the delta filter (claim C8)

`MAX_DISTANCE = 256`, `DIS_MASK = 255`. The history array `[u8; 256]` is
modelled as a function `Nat → Nat`; `pos: u8` wraps at 256. Indexing
`(distance.wrapping_add(pos)) & DIS_MASK` is usize addition mod 2^64 masked
with 255, i.e. `(distance + pos) % 256`. -/

/-- The `Delta` filter state (src/delta.rs lines 9–13). -/
structure DeltaState where
  distance : Nat
  history : Nat → Nat
  pos : Nat

namespace Delta

/-- `Delta::new` (src/delta.rs lines 16–22): zeroed history, `pos = 0`. -/
def new (distance : Nat) : DeltaState :=
  { distance := distance, history := fun _ => 0, pos := 0 }

/-- One iteration of the `Delta::decode` loop (src/delta.rs lines 25–31):
`h := history[(distance + pos) & 255]`, output `(b + h) mod 256`
(`wrapping_add`), store the output at `history[pos & 255]`, decrement `pos`
(u8-wrapping). -/
def decodeByte (s : DeltaState) (b : Nat) : Nat × DeltaState :=
  let h := s.history ((s.distance + s.pos) % 2 ^ 64 % 256)
  let item := (b + h) % 256
  (item,
    { s with
      history := fun j => if j = s.pos % 256 then item else s.history j
      pos := (s.pos + 255) % 256 })

/-- One iteration of the `Delta::encode` loop (src/delta.rs lines 35–43):
`h := history[(distance + pos) & 255]`, output `(b - h) mod 256`
(`wrapping_sub`), store the *original* byte at `history[pos & 255]`,
decrement `pos` (u8-wrapping). -/
def encodeByte (s : DeltaState) (b : Nat) : Nat × DeltaState :=
  let h := s.history ((s.distance + s.pos) % 2 ^ 64 % 256)
  let item := (b + (256 - h % 256)) % 256
  (item,
    { s with
      history := fun j => if j = s.pos % 256 then b else s.history j
      pos := (s.pos + 255) % 256 })

/-- `Delta::decode` over a whole buffer, returning the decoded bytes and the
final filter state. -/
def decodeList (s : DeltaState) : List Nat → List Nat × DeltaState
  | [] => ([], s)
  | b :: bs =>
      let (o, s') := decodeByte s b
      let (os, s'') := decodeList s' bs
      (o :: os, s'')

/-- `Delta::encode` over a whole buffer, returning the encoded bytes and the
final filter state. -/
def encodeList (s : DeltaState) : List Nat → List Nat × DeltaState
  | [] => ([], s)
  | b :: bs =>
      let (o, s') := encodeByte s b
      let (os, s'') := encodeList s' bs
      (o :: os, s'')

end Delta

/-! ## `src/block.rs` and `src/reader.rs` — the block parser (claims C6, C7)

The byte stream a parser consumes is a `List Nat` of u8 values; reading past
the end is the `read_exact` I/O error. `read_u64` is the 7z variable-length
integer (reader.rs lines 1011–1024); `read_usize` additionally checks the
value against `usize::MAX`, which on a 64-bit target never fails for a u64. -/

/-- `Coder` (src/block.rs lines 82–88). The fixed 15-byte id array is
represented by the `id_size` bytes actually addressed. -/
structure Coder where
  encoderMethodId : List Nat
  idSize : Nat
  numInStreams : Nat
  numOutStreams : Nat
  properties : List Nat
  deriving DecidableEq, Repr

/-- `BindPair` (src/block.rs lines 104–108). -/
structure BindPair where
  inIndex : Nat
  outIndex : Nat
  deriving DecidableEq, Repr

/-- `Block` (src/block.rs lines 5–19). -/
structure Block where
  coders : List Coder
  hasCrc : Bool
  crc : Nat
  totalInputStreams : Nat
  totalOutputStreams : Nat
  bindPairs : List BindPair
  packedStreams : List Nat
  unpackSizes : List Nat
  numUnpackSubStreams : Nat
  deriving DecidableEq, Repr

namespace Block

/-- `Block::find_bind_pair_for_in_stream` (src/block.rs lines 22–26). -/
def find_bind_pair_for_in_stream (b : Block) (index : Nat) : Option BindPair :=
  b.bindPairs.find? (fun bp => bp.inIndex = index)

/-- `Block::find_bind_pair_for_out_stream` (src/block.rs lines 28–32). -/
def find_bind_pair_for_out_stream (b : Block) (index : Nat) : Option BindPair :=
  b.bindPairs.find? (fun bp => bp.outIndex = index)

/-- The descending loop of `Block::get_unpack_size` (src/block.rs lines
39–43): scan `i` from `total_output_streams - 1` down to 0, returning
`unpack_sizes[i]` for the first `i` with no outgoing bind pair. Rust's
`self.unpack_sizes[i]` panics out of bounds; the model totalises it with
`getD` (the theorems assume `unpack_sizes` covers every output stream, as
`read_unpack_info` guarantees). -/
def get_unpack_size_loop (b : Block) : Nat → Nat
  | 0 => 0
  | i + 1 =>
      if (b.find_bind_pair_for_out_stream i).isNone then b.unpackSizes.getD i 0
      else get_unpack_size_loop b i

/-- `Block::get_unpack_size` (src/block.rs lines 34–45). -/
def get_unpack_size (b : Block) : Nat :=
  if b.totalOutputStreams = 0 then 0
  else get_unpack_size_loop b b.totalOutputStreams

end Block

/-- `read_u8` (reader.rs): one byte or an I/O error at end of stream. -/
def readU8 : List Nat → Except SzError (Nat × List Nat)
  | [] => .error (.io 0 "")
  | b :: bs => .ok (b, bs)

/-- The 8-round loop of `read_u64` (reader.rs lines 1013–1022): `mask` starts
at `0x80` and halves; round `i` either terminates with the low bits of the
first byte shifted into place or consumes one more little-endian byte.
`i` is the source's loop counter; the structural parameter `rounds = 8 - i`
counts the remaining rounds, after which the accumulated value is returned. -/
def readU64Loop (first : Nat) : Nat → Nat → Nat → Nat → List Nat →
    Except SzError (Nat × List Nat)
  | 0, _mask, value, _i, bs => .ok (value, bs)
  | _rounds + 1, mask, value, i, bs =>
      if Nat.land first mask = 0 then
        .ok (Nat.lor value (Nat.land first (mask - 1) * 2 ^ (8 * i)), bs)
      else
        match bs with
        | [] => .error (.io 0 "")
        | b :: bs' =>
            readU64Loop first _rounds (mask / 2) (Nat.lor value (b * 2 ^ (8 * i)))
              (i + 1) bs'

/-- `read_u64` (reader.rs lines 1011–1024): the 7z variable-length integer. -/
def read_u64 (bs : List Nat) : Except SzError (Nat × List Nat) := do
  let (first, bs) ← readU8 bs
  readU64Loop first 8 0x80 0 0 bs

/-- `read_usize` (reader.rs lines 991–994): `read_u64` plus `assert_usize`,
which cannot fail on a 64-bit target (`usize::MAX = u64::MAX`). -/
def read_usize (bs : List Nat) : Except SzError (Nat × List Nat) :=
  read_u64 bs

/-- `header.read(buf)` on a `size`-byte zero-initialised buffer: copies
`min size bs.length` bytes, leaving the zero tail in place, and never fails
(reader.rs uses bare `read`, not `read_exact`, for coder ids and
properties). -/
def readUpTo (size : Nat) (bs : List Nat) : List Nat × List Nat :=
  (bs.take size ++ List.replicate (size - (bs.take size).length) 0, bs.drop size)

/-- The coder loop of `Archive::read_block` (reader.rs lines 904–939):
reads `n` coder records, accumulating `total_in_streams` and
`total_out_streams` as wrapping u64 sums. -/
def readCoders : Nat → List Nat → Except SzError (List Coder × Nat × Nat × List Nat)
  | 0, bs => .ok ([], 0, 0, bs)
  | n + 1, bs => do
      let (bits, bs) ← readU8 bs
      let idSize := Nat.land bits 0xF
      let isSimple := Nat.land bits 0x10 = 0
      let hasAttributes := Nat.land bits 0x20 ≠ 0
      let moreAlternativeMethods := Nat.land bits 0x80 ≠ 0
      let (idBytes, bs) := readUpTo idSize bs
      let (numIn, numOut, bs) ←
        if isSimple then pure (1, 1, bs)
        else do
          let (numIn, bs) ← read_u64 bs
          let (numOut, bs) ← read_u64 bs
          pure (numIn, numOut, bs)
      let (props, bs) ←
        if hasAttributes then do
          let (propertiesSize, bs) ← read_usize bs
          let (props, bs) := readUpTo propertiesSize bs
          pure (props, bs)
        else pure ([], bs)
      if moreAlternativeMethods then
        throw (.other "Alternative methods are unsupported, please report. The reference implementation doesn't support them either.")
      else do
        let (coders, totalIn, totalOut, bs) ← readCoders n bs
        .ok ({ encoderMethodId := idBytes, idSize := idSize, numInStreams := numIn,
               numOutStreams := numOut, properties := props } :: coders,
             (numIn + totalIn) % 2 ^ 64, (numOut + totalOut) % 2 ^ 64, bs)

/-- The bind-pair loop of `read_block` (reader.rs lines 951–957): reads `n`
pairs of variable-length integers. -/
def readBindPairs : Nat → List Nat → Except SzError (List BindPair × List Nat)
  | 0, bs => .ok ([], bs)
  | n + 1, bs => do
      let (inIndex, bs) ← read_u64 bs
      let (outIndex, bs) ← read_u64 bs
      let (rest, bs) ← readBindPairs n bs
      .ok ({ inIndex := inIndex, outIndex := outIndex } :: rest, bs)

/-- The packed-stream loop of `read_block` (reader.rs lines 980–982): reads
`n` variable-length integers. -/
def readPackedStreams : Nat → List Nat → Except SzError (List Nat × List Nat)
  | 0, bs => .ok ([], bs)
  | n + 1, bs => do
      let (v, bs) ← read_u64 bs
      let (rest, bs) ← readPackedStreams n bs
      .ok (v :: rest, bs)

/-- `Archive::read_block` (reader.rs lines 897–987). Fields not set here
(`has_crc`, `crc`, `unpack_sizes`, `num_unpack_sub_streams`) keep their
`Block::default()` values and are filled by `read_unpack_info` /
`read_sub_streams_info`. -/
def read_block (bs : List Nat) : Except SzError (Block × List Nat) := do
  let (numCoders, bs) ← read_usize bs
  let (coders, totalIn, totalOut, bs) ← readCoders numCoders bs
  if totalOut = 0 then
    throw (.other "Total output streams can't be 0")
  else
    let numBindPairs := totalOut - 1
    let (bindPairs, bs) ← readBindPairs numBindPairs bs
    if totalIn < numBindPairs then
      throw (.other "Total input streams can't be less than the number of bind pairs")
    else
      let numPackedStreams := totalIn - numBindPairs
      let base : Block :=
        { coders := coders, hasCrc := false, crc := 0, totalInputStreams := totalIn,
          totalOutputStreams := totalOut, bindPairs := bindPairs, packedStreams := [],
          unpackSizes := [], numUnpackSubStreams := 0 }
      if numPackedStreams = 1 then
        match (List.range totalIn).find?
            (fun i => (base.find_bind_pair_for_in_stream i).isNone) with
        | none => throw (.other "Couldn't find stream's bind pair index")
        | some index => .ok ({ base with packedStreams := [index] }, bs)
      else do
        let (packed, bs) ← readPackedStreams numPackedStreams bs
        .ok ({ base with packedStreams := packed }, bs)

/-- The per-block segment of the `kCodersUnpackSize` loop in
`read_unpack_info` (reader.rs lines 770–776): pushes exactly
`total_output_streams` u64 sizes onto the block. -/
def readUnpackSizesFor (b : Block) (bs : List Nat) :
    Except SzError (Block × List Nat) := do
  let (sizes, bs) ← readPackedStreams b.totalOutputStreams bs
  .ok ({ b with unpackSizes := sizes }, bs)

/-! ## `src/reader.rs` — start-header handling and end-of-file scan (claim C3) -/

/-- `SEVEN_Z_SIGNATURE` (src/archive.rs line 6): `b'7', b'z', 0xBC, 0xAF,
0x27, 0x1C`. -/
def signature7z : List Nat := [0x37, 0x7A, 0xBC, 0xAF, 0x27, 0x1C]

/-- One bit-round of the standard reflected CRC-32 (polynomial
`0xEDB88320`). -/
def crc32Step (c : Nat) : Nat :=
  if c % 2 = 1 then Nat.xor (c / 2) 0xEDB88320 else c / 2

/-- Folding one byte into a CRC-32 accumulator: xor the byte in, then eight
bit-rounds. -/
def crc32Byte (crc b : Nat) : Nat :=
  crc32Step^[8] (Nat.xor crc b)

/-- Modelled from the spec: `crc32fast::hash`, the external dependency used
by the reader/writer, computes the standard reflected CRC-32
(init `0xFFFFFFFF`, polynomial `0xEDB88320`, final xor `0xFFFFFFFF`) — spec
§2 "Binary primitives … CRC32" and §6.1's little-endian CRC32 fields; the
crate body is not part of this repository. -/
def crc32 (bytes : List Nat) : Nat :=
  Nat.xor (bytes.foldl crc32Byte 0xFFFFFFFF) 0xFFFFFFFF

/-- `read_exact` on a byte list: `n` bytes or the I/O error. -/
def readExact (n : Nat) (bs : List Nat) : Except SzError (List Nat × List Nat) :=
  if bs.length < n then .error (.io 0 "") else .ok (bs.take n, bs.drop n)

/-- Little-endian value of a byte list (`u32::from_le_bytes` /
`u64::from_le_bytes` composed with the fixed-width `read_exact`). -/
def leValue (l : List Nat) : Nat :=
  l.foldr (fun b acc => b + 256 * acc) 0

/-- `read_u32` (reader.rs lines 1027–1031): four little-endian bytes. -/
def readU32 (bs : List Nat) : Except SzError (Nat × List Nat) := do
  let (buf, bs) ← readExact 4 bs
  .ok (leValue buf, bs)

/-- `StartHeader` (reader.rs). -/
structure StartHeader where
  nextHeaderOffset : Nat
  nextHeaderSize : Nat
  nextHeaderCrc : Nat
  deriving DecidableEq, Repr

/-- `Archive::read_start_header` (reader.rs lines 230–250): read the 20-byte
slot, verify its CRC-32 against the CRC field, split it into offset (u64 LE),
size (u64 LE) and CRC (u32 LE). -/
def read_start_header (bs : List Nat) (startHeaderCrc : Nat) :
    Except SzError (StartHeader × List Nat) := do
  let (buf, bs) ← readExact 20 bs
  if crc32 buf ≠ startHeaderCrc then
    throw .checksumVerificationFailed
  else
    .ok ({ nextHeaderOffset := leValue (buf.take 8),
           nextHeaderSize := leValue ((buf.drop 8).take 8),
           nextHeaderCrc := leValue ((buf.drop 16).take 4) }, bs)

/-- Which continuation `Archive::read` (reader.rs lines 189–228) selects
after the signature / version / start-header-CRC prologue: `start sh` stands
for "`read_start_header` succeeded with `sh`, proceed to `init_archive` with
CRC verification", `scan` stands for "enter `try_to_locale_end_header`" and
records the reader length, the scan floor `min_pos` and `prev_data_size`. -/
inductive ReadFront where
  | scan (readerLen minPos prevDataSize : Nat)
  | start (sh : StartHeader)
  deriving DecidableEq, Repr

/-- `min_pos` as computed by `try_to_locale_end_header` (reader.rs lines
295–302) when called from `Archive::read` (stream position 12,
`search_limit = 1 MiB`). -/
def scanMinPos (readerLen : Nat) : Nat :=
  if 12 + 1048576 > readerLen then 12 else readerLen - 1048576

/-- The prologue of `Archive::read` (reader.rs lines 189–228): signature and
version checks, the start-header CRC field, the all-zero peek of the 20-byte
slot when the CRC field is zero (`header_valid`), and the dispatch between
`read_start_header` and the end-of-file scan. -/
def read_front (file : List Nat) : Except SzError ReadFront := do
  let readerLen := file.length
  let (signature, bs) ← readExact 6 file
  if signature ≠ signature7z then
    throw (.badSignature signature)
  else do
    let (versions, bs) ← readExact 2 bs
    let versionMajor := versions.getD 0 0
    let versionMinor := versions.getD 1 0
    if versionMajor ≠ 0 then
      throw (.unsupportedVersion versionMajor versionMinor)
    else do
      let (startHeaderCrc, bs) ← readU32 bs
      let (headerValid, bs) ←
        if startHeaderCrc = 0 then do
          let (buf, _) ← readExact 20 bs
          pure (buf.any (fun a => a ≠ 0), bs)
        else pure (true, bs)
      if headerValid then do
        let (sh, _) ← read_start_header bs startHeaderCrc
        .ok (.start sh)
      else
        .ok (.scan readerLen (scanMinPos readerLen) 32)

/-- The archive value as far as the scan loop inspects it: only
`files.is_empty()` is consulted (reader.rs line 318). -/
structure MArchive where
  files : List Nat
  deriving DecidableEq, Repr

/-- The loop of `Archive::try_to_locale_end_header` (reader.rs lines
303–322), with `init_archive` abstracted as `parse` (it receives the
candidate tag position; the source builds the corresponding `StartHeader`
with `next_header_offset = pos - prev_data_size` and
`next_header_size = reader_len - pos` and calls `init_archive` without CRC
verification). The source decrements `pos` and then reads the tag byte at
the decremented position, so the argument here is the pre-decrement `pos`:
positions `pos - 1` down to `min_pos` are examined; `?` on a parse error
aborts the whole scan; a parse with an empty file list is skipped. -/
def scanLoop (file : List Nat) (parse : Nat → Except SzError MArchive)
    (minPos : Nat) : Nat → Except SzError MArchive
  | 0 => .error (.other "Start header corrupt and unable to guess end header")
  | pos + 1 =>
      if pos + 1 > minPos then
        match file.get? pos with
        | none => .error (.io 0 "")
        | some nid =>
            if nid = 0x17 ∨ nid = 0x01 then
              match parse pos with
              | .error e => .error e
              | .ok result =>
                  if result.files ≠ [] then .ok result
                  else scanLoop file parse minPos pos
            else scanLoop file parse minPos pos
      else .error (.other "Start header corrupt and unable to guess end header")

/-- `Archive::try_to_locale_end_header` (reader.rs lines 289–326) as entered
from `Archive::read`: the loop starts at `pos = reader_len - 1`. -/
def try_to_locale_end_header (file : List Nat)
    (parse : Nat → Except SzError MArchive) : Except SzError MArchive :=
  scanLoop file parse (scanMinPos file.length) (file.length - 1)

/-- The number of output stream indices of a block with no outgoing bind
pair (the quantity claim C7 asserts to be 1). -/
def countUnboundOutputs (b : Block) : Nat :=
  ((Finset.range b.totalOutputStreams).filter
    (fun i => (b.find_bind_pair_for_out_stream i).isNone = true)).card

/-! ## `src/writer.rs` — `ArchiveWriter::finish` start-header size field (C10) -/

/-- The `next_header_size` start-header field written by
`ArchiveWriter::finish` (src/writer.rs line 372):
`0xFFFFFFFF & header.len() as u64`. The `as u64` cast of the `usize` length
is `% 2^64`. -/
def nextHeaderSizeField (len : Nat) : Nat :=
  Nat.land 0xFFFFFFFF (len % 2 ^ 64)

/-! ## `ppmd-rust/src/internal/ppmd7/range_coding.rs` — PPMd7 range coder (C2)

`RangeEncoder` / `RangeDecoder` embedded with `u32` arithmetic as `Nat` with
explicit `% 2 ^ 32` (the encoder's `u64` `low` with `% 2 ^ 64`); the byte
stream is a `List Nat`.  One symbol-coding step at the ppmd7
encoder.rs/decoder.rs call sites is one of

* `fin start freq total` — multi-symbol context: the caller runs
  `range /= total` (encoder side before `encode_final`; inside
  `get_threshold` on the decoder side) and then
  `encode_final(start, freq)` / `decode_final(start, freq)`;
* `bit0 pr` / `bit1 pr` — binary context: `bound = (range >> 14) * pr`,
  then `encode_bit_0(bound)` or `encode_bit_1(bound)`; the decoder picks
  the branch by `code < bound`.  The `bit_1` paths are followed by
  `normalize_remote` at the top of the escape loop; the `bit_0` paths call
  `normalize_1` inside. -/

inductive RcOp where
  | fin (start freq total : Nat)
  | bit0 (pr : Nat)
  | bit1 (pr : Nat)

/-- Encoder state (`RangeEncoder` minus the writer; `out` is what has been
written so far). -/
structure EncSt where
  out : List Nat
  cache : Nat
  cacheSize : Nat
  low : Nat
  range : Nat

/-- The byte-emitting do-while loop of `shift_low`: first byte
`(cache + carry) % 256`, then `temp = 0xFF` for the remaining
`cache_size - 1` rounds.  (`cache_size >= 1` always holds on entry.) -/
def emitRun (temp carry : Nat) : Nat → List Nat
  | 0 => []
  | n + 1 => (temp + carry) % 256 :: emitRun 255 carry n

/-- `RangeEncoder::shift_low` (range_coding.rs:120-137).  The carry byte is
`(low >> 32) as u8`; after an emitting pass `cache_size` ends at 1. -/
def shiftLow (e : EncSt) : EncSt :=
  if e.low < 0xFF000000 ∨ e.low / 2 ^ 32 ≠ 0 then
    { out := e.out ++ emitRun e.cache (e.low / 2 ^ 32 % 256) e.cacheSize
      cache := e.low % 2 ^ 32 / 2 ^ 24
      cacheSize := 1
      low := e.low % 2 ^ 32 * 256 % 2 ^ 32
      range := e.range }
  else
    { e with
      cacheSize := e.cacheSize + 1
      low := e.low % 2 ^ 32 * 256 % 2 ^ 32 }

/-- `RangeEncoder::normalize_1`: one conditional `range <<= 8; shift_low`. -/
def encNorm1 (e : EncSt) : EncSt :=
  if e.range < 2 ^ 24 then shiftLow { e with range := e.range * 256 % 2 ^ 32 }
  else e

/-- `RangeEncoder::normalize_remote`: up to two `range <<= 8; shift_low`. -/
def encNormR (e : EncSt) : EncSt :=
  if e.range < 2 ^ 24 then
    let e1 := shiftLow { e with range := e.range * 256 % 2 ^ 32 }
    if e1.range < 2 ^ 24 then
      shiftLow { e1 with range := e1.range * 256 % 2 ^ 32 }
    else e1
  else e

/-- One encoder symbol step, following the call-site protocol above. -/
def encStep (e : EncSt) : RcOp → EncSt
  | .fin start freq total =>
      let r := e.range / total
      encNormR
        { e with
          low := (e.low + start * r % 2 ^ 32) % 2 ^ 64
          range := r * freq % 2 ^ 32 }
  | .bit0 pr =>
      encNorm1 { e with range := e.range / 2 ^ 14 * pr % 2 ^ 32 }
  | .bit1 pr =>
      let bound := e.range / 2 ^ 14 * pr % 2 ^ 32
      encNormR
        { e with
          low := (e.low + bound) % 2 ^ 64
          range := (e.range + 2 ^ 32 - bound) % 2 ^ 32 }

/-- `RangeEncoder::new`. -/
def encInit : EncSt :=
  { out := [], cache := 0, cacheSize := 1, low := 0, range := 0xFFFFFFFF }

/-- `RangeEncoder::flush` is `flushLoop 5`. -/
def flushLoop : Nat → EncSt → EncSt
  | 0, e => e
  | n + 1, e => flushLoop n (shiftLow e)

def encodeOps (ops : List RcOp) (e : EncSt) : EncSt :=
  ops.foldl encStep e

/-- Encode a symbol sequence from a fresh encoder and flush. -/
def encodeAll (ops : List RcOp) : List Nat :=
  (flushLoop 5 (encodeOps ops encInit)).out

/-- Decoder state (`RangeDecoder` minus the reader; `input` is the unread
rest of the stream; the unused `low` field is omitted). -/
structure DecSt where
  range : Nat
  code : Nat
  input : List Nat

/-- `RangeDecoder::normalize_1`. -/
def decNorm1 (d : DecSt) : Option DecSt :=
  if d.range < 2 ^ 24 then
    match d.input with
    | [] => none
    | b :: t =>
        some
          { range := d.range * 256 % 2 ^ 32
            code := Nat.lor (d.code * 256 % 2 ^ 32) b
            input := t }
  else some d

/-- `RangeDecoder::normalize_remote`. -/
def decNormR (d : DecSt) : Option DecSt :=
  if d.range < 2 ^ 24 then
    match d.input with
    | [] => none
    | b :: t =>
        let d1 : DecSt :=
          { range := d.range * 256 % 2 ^ 32
            code := Nat.lor (d.code * 256 % 2 ^ 32) b
            input := t }
        if d1.range < 2 ^ 24 then
          match d1.input with
          | [] => none
          | b2 :: t2 =>
              some
                { range := d1.range * 256 % 2 ^ 32
                  code := Nat.lor (d1.code * 256 % 2 ^ 32) b2
                  input := t2 }
        else some d1
  else some d

/-- Decoder multi-symbol step: `get_threshold(total)` (which also sets
`range /= total`) returning the scaled `count`, then — once the caller has
located the symbol interval — `decode_final(start, freq)`. -/
def decStepFin (start freq total : Nat) (d : DecSt) : Option (Nat × DecSt) :=
  let r := d.range / total
  let count := d.code / r
  let d1 : DecSt :=
    { range := r * freq % 2 ^ 32
      code := (d.code + 2 ^ 32 - start * r % 2 ^ 32) % 2 ^ 32
      input := d.input }
  (decNormR d1).map fun d2 => (count, d2)

/-- Decoder binary step: the branch is chosen by `code < size0`
(`decode_bit_0` then `normalize_1`, or `decode_bit_1` then the escape
loop's `normalize_remote`); the chosen bit is returned. -/
def decStepBit (pr : Nat) (d : DecSt) : Option (Bool × DecSt) :=
  let size0 := d.range / 2 ^ 14 * pr % 2 ^ 32
  if d.code < size0 then
    (decNorm1 { d with range := size0 }).map fun d1 => (false, d1)
  else
    (decNormR
        { range := (d.range + 2 ^ 32 - size0) % 2 ^ 32
          code := (d.code + 2 ^ 32 - size0) % 2 ^ 32
          input := d.input }).map
      fun d1 => (true, d1)

/-- Run the decoder over the ops' frequency intervals and check it
reproduces every encoded symbol: for `fin` the threshold must fall in the
symbol's cumulative window, for the bit ops the decoder's branch must equal
the encoded bit. -/
def decodeMatches : List RcOp → DecSt → Bool
  | [], _ => true
  | .fin start freq total :: rest, d =>
      match decStepFin start freq total d with
      | none => false
      | some (count, d1) =>
          decide (start ≤ count ∧ count < start + freq) && decodeMatches rest d1
  | .bit0 pr :: rest, d =>
      match decStepBit pr d with
      | none => false
      | some (b, d1) => !b && decodeMatches rest d1
  | .bit1 pr :: rest, d =>
      match decStepBit pr d with
      | none => false
      | some (b, d1) => b && decodeMatches rest d1

/-- The `for _ in 0..4 { code = code << 8 | read_byte()? }` loop of
`RangeDecoder::new`. -/
def readCodeLoop : Nat → Nat → List Nat → Option (Nat × List Nat)
  | 0, code, input => some (code, input)
  | n + 1, code, input =>
      match input with
      | [] => none
      | b :: t => readCodeLoop n (Nat.lor (code * 256 % 2 ^ 32) b) t

/-- `RangeDecoder::new` (range_coding.rs:16-37): the first byte must be 0,
then four code bytes, and `code == 0xFFFFFFFF` is rejected. -/
def decInit (input : List Nat) : Option DecSt :=
  match input with
  | [] => none
  | b0 :: rest =>
      if b0 ≠ 0 then none
      else
        match readCodeLoop 4 0 rest with
        | none => none
        | some (code, rest4) =>
            if code = 0xFFFFFFFF then none
            else some { range := 0xFFFFFFFF, code := code, input := rest4 }

/-- Validity of one symbol step: nonempty interval inside a total of at
most `1 << 14` for multi-symbol contexts; for binary contexts a probability
within the `PPMD_BIN_SCALE = 1 << 14` scale (a `bit0` needs
`pr >= 1 << (PPMD_INT_BITS - 1) = 64`, as the model's bin probabilities
provide, so that the single `normalize_1` restores `range >= 1 << 24`). -/
def validOp : RcOp → Bool
  | .fin start freq total =>
      decide (1 ≤ freq ∧ start + freq ≤ total ∧ total ≤ 2 ^ 14)
  | .bit0 pr => decide (2 ^ 6 ≤ pr ∧ pr ≤ 2 ^ 14)
  | .bit1 pr => decide (1 ≤ pr ∧ pr < 2 ^ 14)

def validOps (ops : List RcOp) : Bool := ops.all validOp

/-- Encode, then decode the produced stream and check every symbol is
recovered. -/
def roundTrip (ops : List RcOp) : Bool :=
  match decInit (encodeAll ops) with
  | none => false
  | some d => decodeMatches ops d

/-- Number of `shift_low`s done by `normalize_1` at a given `range`. -/
def norm1Shifts (r : Nat) : Nat := if r < 2 ^ 24 then 1 else 0

/-- Number of `shift_low`s done by `normalize_remote` at a given `range`. -/
def normRShifts (r : Nat) : Nat :=
  if r < 2 ^ 24 then (if r * 256 < 2 ^ 24 then 2 else 1) else 0

/-- `shift_low` count of one encoder step. -/
def opShifts (e : EncSt) : RcOp → Nat
  | .fin _ freq total => normRShifts (e.range / total * freq % 2 ^ 32)
  | .bit0 pr => norm1Shifts (e.range / 2 ^ 14 * pr % 2 ^ 32)
  | .bit1 pr =>
      normRShifts ((e.range + 2 ^ 32 - e.range / 2 ^ 14 * pr % 2 ^ 32) % 2 ^ 32)

/-- Amount added to `low` by one encoder step. -/
def opAdd (e : EncSt) : RcOp → Nat
  | .fin start _ total => start * (e.range / total) % 2 ^ 32
  | .bit0 _ => 0
  | .bit1 pr => e.range / 2 ^ 14 * pr % 2 ^ 32

/-- Total number of future `shift_low`s when encoding `ops` from `e` and
flushing (the flush contributes 5). -/
def traceM : List RcOp → EncSt → Nat
  | [], _ => 5
  | op :: rest, e => opShifts e op + traceM rest (encStep e op)

/-- Total future contribution to the emitted stream value: every `low`
addition weighted by `256 ^ (shift_lows after it)`. -/
def traceF : List RcOp → EncSt → Nat
  | [], _ => 0
  | op :: rest, e =>
      opAdd e op * 256 ^ traceM (op :: rest) e + traceF rest (encStep e op)

/-- Big-endian base-256 value of a byte list. -/
def numL : List Nat → Nat
  | [] => 0
  | b :: t => b * 256 ^ t.length + numL t

/-- Value of the pending byte run held in `cache`/`cache_size`:
`(cache + 1) * 256 ^ (cache_size - 1) - 1`. -/
def pending (e : EncSt) : Nat := (e.cache + 1) * 256 ^ (e.cacheSize - 1) - 1

/-- Pending-run value together with the 32-bit `low` window. -/
def pendV (e : EncSt) : Nat := pending e * 2 ^ 32 + e.low

/-- Encoder/decoder synchronization invariant.  `tb` is the part of the
final stream not yet written by the encoder (everything after `e.out`),
`m` the number of future `shift_low`s (flush included), `G` the future
`low`-additions weighted by `256 ^ (shifts after them)`.  The decoder runs
`cacheSize + 4` bytes ahead of the encoder's written prefix, and its code
is the top window of `G`. -/
structure SyncInv (e : EncSt) (d : DecSt) (tb : List Nat) (m G : Nat) :
    Prop where
  hcs : 1 ≤ e.cacheSize
  hcache : e.cache < 256
  hJ : e.low + e.range ≤ 2 ^ 33
  hr32 : e.range < 2 ^ 32
  hK : pendV e + e.range ≤ 256 ^ e.cacheSize * 2 ^ 32
  htb : ∀ b ∈ tb, b < 256
  hlen : tb.length + 1 = m + e.cacheSize
  hval : numL tb * 2 ^ 40 = pendV e * 256 ^ m + G
  hG : G < e.range * 256 ^ m
  hdr : d.range = e.range
  hdc : d.code = G / 256 ^ m
  hdi : d.input = tb.drop (e.cacheSize + 4)

end SevenZ

/-! # Theorems -/

namespace SevenZ

/-- C10: `ArchiveWriter::finish` writes the start-header `next_header_size`
field as the serialized header's byte length ANDed with `0xFFFFFFFF`: for
every header length below `2^32` the recorded field equals the true length,
and in general it equals the length modulo `2^32`. -/
theorem finish_next_header_size (len : Nat) :
    nextHeaderSizeField len = len % 2 ^ 32 ∧
      (len < 2 ^ 32 → nextHeaderSizeField len = len) := by
  have h : nextHeaderSizeField len = len % 2 ^ 32 := by
    show (0xFFFFFFFF : Nat) &&& (len % 2 ^ 64) = len % 2 ^ 32
    have hmask : (0xFFFFFFFF : Nat) = 2 ^ 32 - 1 := by norm_num
    apply Nat.eq_of_testBit_eq
    intro i
    rw [Nat.testBit_land, hmask, Nat.testBit_two_pow_sub_one,
      Nat.testBit_mod_two_pow, Nat.testBit_mod_two_pow]
    by_cases h32 : i < 32
    · have h64 : i < 64 := by omega
      simp [h32, h64]
    · simp [h32]
  exact ⟨h, fun hlt => by rw [h, Nat.mod_eq_of_lt hlt]⟩

/-- Witness for `finish_next_header_size`: a header of length `2^32 + 4`
records `4`, a header of length `100` records `100`. -/
theorem finish_next_header_size_witness :
    nextHeaderSizeField 4294967300 = 4 ∧ nextHeaderSizeField 100 = 100 :=
  ⟨(finish_next_header_size 4294967300).1.trans (by norm_num),
    (finish_next_header_size 100).2 (by norm_num)⟩

namespace Delta

/-- Decoding one encoded byte from the same filter state recovers the original
byte and leaves both filters in identical states: the encoder stores the
original byte in its history and the decoder stores its (equal) decoded
output. -/
theorem decodeByte_encodeByte (s : DeltaState) (b : Nat) (hb : b < 256)
    (hh : ∀ j, s.history j < 256) :
    decodeByte s (encodeByte s b).1 = (b, (encodeByte s b).2) := by
  have h := hh ((s.distance + s.pos) % 2 ^ 64 % 256)
  have key : ((b + (256 - s.history ((s.distance + s.pos) % 2 ^ 64 % 256) % 256)) % 256
      + s.history ((s.distance + s.pos) % 2 ^ 64 % 256)) % 256 = b := by omega
  simp only [decodeByte, encodeByte, key]

/-- Unfolding equation for `encodeList` on a cons cell. -/
theorem encodeList_cons (s : DeltaState) (b : Nat) (bs : List Nat) :
    encodeList s (b :: bs) =
      ((encodeByte s b).1 :: (encodeList (encodeByte s b).2 bs).1,
        (encodeList (encodeByte s b).2 bs).2) := rfl

/-- Unfolding equation for `decodeList` on a cons cell. -/
theorem decodeList_cons (s : DeltaState) (b : Nat) (bs : List Nat) :
    decodeList s (b :: bs) =
      ((decodeByte s b).1 :: (decodeList (decodeByte s b).2 bs).1,
        (decodeList (decodeByte s b).2 bs).2) := rfl

/-- Round trip over a byte list from any pair of equal states with in-range
history. -/
theorem decodeList_encodeList (bs : List Nat) :
    ∀ s : DeltaState, (∀ b ∈ bs, b < 256) → (∀ j, s.history j < 256) →
      decodeList s (encodeList s bs).1 = (bs, (encodeList s bs).2) := by
  induction bs with
  | nil => intro s _ _; rfl
  | cons b bs ih =>
      intro s hb hh
      have hb0 : b < 256 := hb b (List.mem_cons_self b bs)
      have hstep := decodeByte_encodeByte s b hb0 hh
      have hh' : ∀ j, (encodeByte s b).2.history j < 256 := by
        intro j
        simp only [encodeByte]
        split
        · exact hb0
        · exact hh j
      have ihs := ih (encodeByte s b).2 (fun x hx => hb x (List.mem_cons_of_mem b hx)) hh'
      rw [encodeList_cons, decodeList_cons, hstep]
      rw [Prod.mk.injEq] at ihs
      rw [ihs.1, ihs.2]

end Delta

/-- C8: for every delta distance `d ∈ [1, 256]` and every byte sequence `s`,
`Delta::encode` with distance `d` from a fresh zeroed history followed by
`Delta::decode` with distance `d` from a fresh zeroed history returns `s`. -/
theorem delta_roundtrip (d : Nat) (bs : List Nat) (_hd1 : 1 ≤ d) (_hd2 : d ≤ 256)
    (hb : ∀ b ∈ bs, b < 256) :
    (Delta.decodeList (Delta.new d) (Delta.encodeList (Delta.new d) bs).1).1 = bs := by
  rw [Delta.decodeList_encodeList bs (Delta.new d) hb (fun _ => by norm_num [Delta.new])]

/-- Witness for `delta_roundtrip`: distance 4 on the bytes
`[7, 200, 0, 255, 31]`. -/
theorem delta_roundtrip_witness :
    (1 ≤ 4 ∧ 4 ≤ 256 ∧ ∀ b ∈ [7, 200, 0, 255, 31], b < 256) ∧
      (Delta.decodeList (Delta.new 4)
        (Delta.encodeList (Delta.new 4) [7, 200, 0, 255, 31]).1).1 =
        [7, 200, 0, 255, 31] :=
  ⟨by decide, delta_roundtrip 4 _ (by decide) (by decide) (by decide)⟩

/-- Inverting a successful `Except` bind. -/
theorem except_bind_ok {α β : Type} {x : Except SzError α} {f : α → Except SzError β}
    {b : β} (h : (x >>= f) = .ok b) : ∃ a, x = .ok a ∧ f a = .ok b := by
  cases x with
  | error e => exact absurd h (by simp [Bind.bind, Except.bind])
  | ok a => exact ⟨a, rfl, by simpa [Bind.bind, Except.bind] using h⟩

/-- `readBindPairs n` returns exactly `n` bind pairs on success. -/
theorem readBindPairs_length :
    ∀ (n : Nat) (bs : List Nat) (ps : List BindPair) (rest : List Nat),
      readBindPairs n bs = .ok (ps, rest) → ps.length = n := by
  intro n
  induction n with
  | zero =>
      intro bs ps rest h
      simp only [readBindPairs] at h
      cases h
      rfl
  | succ n ih =>
      intro bs ps rest h
      simp only [readBindPairs] at h
      obtain ⟨⟨inIdx, bs1⟩, _h1, h⟩ := except_bind_ok h
      obtain ⟨⟨outIdx, bs2⟩, _h2, h⟩ := except_bind_ok h
      obtain ⟨⟨tail, bs3⟩, h3, h⟩ := except_bind_ok h
      cases h
      simp [ih bs2 tail bs3 h3]

/-- `readPackedStreams n` returns exactly `n` values on success. -/
theorem readPackedStreams_length :
    ∀ (n : Nat) (bs : List Nat) (vs : List Nat) (rest : List Nat),
      readPackedStreams n bs = .ok (vs, rest) → vs.length = n := by
  intro n
  induction n with
  | zero =>
      intro bs vs rest h
      simp only [readPackedStreams] at h
      cases h
      rfl
  | succ n ih =>
      intro bs vs rest h
      simp only [readPackedStreams] at h
      obtain ⟨⟨v, bs1⟩, _h1, h⟩ := except_bind_ok h
      obtain ⟨⟨tail, bs2⟩, h2, h⟩ := except_bind_ok h
      cases h
      simp [ih bs1 tail bs2 h2]

/-- Shape of a successful `read_block`: the bind-pair and packed-stream list
lengths in terms of the recorded totals. -/
theorem read_block_shape (bs : List Nat) (b : Block) (rest : List Nat)
    (h : read_block bs = .ok (b, rest)) :
    b.bindPairs.length = b.totalOutputStreams - 1 ∧
      1 ≤ b.totalOutputStreams ∧
      b.totalOutputStreams - 1 ≤ b.totalInputStreams ∧
      b.packedStreams.length = b.totalInputStreams - (b.totalOutputStreams - 1) := by
  simp only [read_block] at h
  obtain ⟨⟨numCoders, bs1⟩, _h1, h⟩ := except_bind_ok h
  dsimp only at h
  obtain ⟨⟨coders, totalIn, totalOut, bs2⟩, _h2, h⟩ := except_bind_ok h
  dsimp only at h
  by_cases hz : totalOut = 0
  · rw [if_pos hz] at h
    exact absurd h (by simp [throw, throwThe, MonadExceptOf.throw, Bind.bind, Except.bind])
  · rw [if_neg hz] at h
    obtain ⟨⟨bindPairs, bs3⟩, h3, h⟩ := except_bind_ok h
    dsimp only at h
    have hbplen := readBindPairs_length _ _ _ _ h3
    by_cases hlt : totalIn < totalOut - 1
    · rw [if_pos hlt] at h
      exact absurd h (by simp [throw, throwThe, MonadExceptOf.throw])
    · rw [if_neg hlt] at h
      by_cases hone : totalIn - (totalOut - 1) = 1
      · rw [if_pos hone] at h
        split at h
        · exact absurd h (by simp [throw, throwThe, MonadExceptOf.throw])
        · rename_i index _hfind
          cases h
          refine ⟨?_, ?_, ?_, ?_⟩
          all_goals (dsimp only; try simp only [List.length_singleton]); omega
      · rw [if_neg hone] at h
        obtain ⟨⟨packed, bs4⟩, h4, h⟩ := except_bind_ok h
        have hpklen := readPackedStreams_length _ _ _ _ h4
        cases h
        refine ⟨?_, ?_, ?_, ?_⟩ <;> dsimp only <;> omega

/-- C6: for every `Block` successfully produced by `Archive::read_block`,
`total_input_streams` minus the number of bind pairs equals the number of
packed streams, the parser having read exactly `total_output_streams - 1`
bind pairs. -/
theorem read_block_stream_counts (bs : List Nat) (b : Block) (rest : List Nat)
    (h : read_block bs = .ok (b, rest)) :
    b.totalInputStreams - b.bindPairs.length = b.packedStreams.length ∧
      b.bindPairs.length = b.totalOutputStreams - 1 ∧
      b.bindPairs.length ≤ b.totalInputStreams := by
  obtain ⟨h1, h2, h3, h4⟩ := read_block_shape bs b rest h
  omega

/-- Witness for `read_block_stream_counts`: the three-byte block record
`[1, 1, 0]` (one simple Copy coder) parses to a block with one input, one
output, no bind pairs and the single packed stream `0`. -/
theorem read_block_stream_counts_witness :
    ((⟨[⟨[0], 1, 1, 1, []⟩], false, 0, 1, 1, [], [0], [], 0⟩ :
        Block).totalInputStreams - 0 = 1) ∧
      ((0 : Nat) = 1 - 1) ∧ (0 : Nat) ≤ 1 := by
  have h := read_block_stream_counts [1, 1, 0]
    (⟨[⟨[0], 1, 1, 1, []⟩], false, 0, 1, 1, [], [0], [], 0⟩ : Block) [] (by rfl)
  simp at h
  simp [h]

/-- Bind of an `ok` value reduces. -/
theorem ok_bind {α β : Type} (a : α) (f : α → Except SzError β) :
    (Except.ok a >>= f) = f a := rfl

/-- Bind of an `error` value reduces. -/
theorem error_bind {α β : Type} (e : SzError) (f : α → Except SzError β) :
    ((Except.error e : Except SzError α) >>= f) = .error e := rfl

/-- `read_exact` on a stream with a known-length prefix returns that
prefix. -/
theorem readExact_append (l1 l2 : List Nat) (n : Nat) (h : l1.length = n) :
    readExact n (l1 ++ l2) = .ok (l1, l2) := by
  subst h
  have hlen : ¬((l1 ++ l2).length < l1.length) := by
    rw [List.length_append]; omega
  simp [readExact, hlen, List.take_left, List.drop_left]

/-- Evaluating the prologue of `Archive::read` on a well-formed file: 7z
signature, version major 0, a 4-byte CRC field, the 20-byte start-header
slot, and arbitrary remaining bytes. The scan fires exactly when the CRC
field is zero *and* the slot is all zero; otherwise `read_start_header` runs
on the slot. -/
theorem read_front_eval (minor : Nat) (crcBytes slot rest : List Nat)
    (hc : crcBytes.length = 4) (hs : slot.length = 20) :
    read_front (signature7z ++ [0, minor] ++ crcBytes ++ slot ++ rest) =
      if leValue crcBytes = 0 ∧ slot.any (fun a => a ≠ 0) = false then
        .ok (.scan (signature7z ++ [0, minor] ++ crcBytes ++ slot ++ rest).length
          (scanMinPos (signature7z ++ [0, minor] ++ crcBytes ++ slot ++ rest).length) 32)
      else
        (read_start_header (slot ++ rest) (leValue crcBytes) >>=
          fun p => .ok (.start p.1)) := by
  have h6 : readExact 6 (signature7z ++ ([0, minor] ++ (crcBytes ++ (slot ++ rest)))) =
      .ok (signature7z, [0, minor] ++ (crcBytes ++ (slot ++ rest))) :=
    readExact_append _ _ _ rfl
  have h2 : readExact 2 ([0, minor] ++ (crcBytes ++ (slot ++ rest))) =
      .ok ([0, minor], crcBytes ++ (slot ++ rest)) :=
    readExact_append _ _ _ rfl
  have h4 : readExact 4 (crcBytes ++ (slot ++ rest)) =
      .ok (crcBytes, slot ++ rest) := readExact_append _ _ _ hc
  have h20 : readExact 20 (slot ++ rest) = .ok (slot, rest) :=
    readExact_append _ _ _ hs
  simp only [List.append_assoc]
  simp only [read_front, readU32, h6, h2, h4, h20, ok_bind, pure_bind]
  rw [if_neg (fun h => h rfl)]
  simp only [List.getD_cons_zero]
  rw [if_neg (fun h => h rfl)]
  by_cases hz : leValue crcBytes = 0
  · simp only [hz, eq_self_iff_true, if_true, true_and, ite_true]
    by_cases hany : (slot.any fun a => decide (a ≠ 0)) = true
    · rw [if_pos hany,
        if_neg (fun hfalse => by rw [hany] at hfalse; exact Bool.noConfusion hfalse)]
    · rw [if_neg hany, if_pos (Bool.eq_false_iff.mpr hany)]
  · rw [if_neg hz, if_pos trivial, if_neg (fun hand => hz hand.1)]

/-- Soundness of the end-of-file scan loop: a successful scan returns a
nonempty parse obtained at some examined position carrying a `Header` or
`EncodedHeader` tag byte. -/
theorem scanLoop_ok (file : List Nat) (parse : Nat → Except SzError MArchive)
    (minPos : Nat) :
    ∀ pos a, scanLoop file parse minPos pos = .ok a →
      a.files ≠ [] ∧ ∃ p, minPos ≤ p ∧ p < pos ∧
        ∃ nid, file.get? p = some nid ∧ (nid = 0x17 ∨ nid = 0x01) ∧
          parse p = .ok a := by
  intro pos
  induction pos with
  | zero => intro a h; exact absurd h (by simp [scanLoop])
  | succ pos ih =>
      intro a h
      simp only [scanLoop] at h
      by_cases hgt : pos + 1 > minPos
      · rw [if_pos hgt] at h
        cases hget : file.get? pos with
        | none => rw [hget] at h; exact absurd h (by simp)
        | some nid =>
            rw [hget] at h
            dsimp only at h
            by_cases htag : nid = 0x17 ∨ nid = 0x01
            · rw [if_pos htag] at h
              cases hp : parse pos with
              | error e => rw [hp] at h; exact absurd h (by simp)
              | ok result =>
                  rw [hp] at h
                  dsimp only at h
                  by_cases hne : result.files ≠ []
                  · rw [if_pos hne] at h
                    cases h
                    exact ⟨hne, pos, by omega, by omega, nid, hget, htag, hp⟩
                  · rw [if_neg hne] at h
                    obtain ⟨hane, p, hp1, hp2, rest⟩ := ih a h
                    exact ⟨hane, p, hp1, by omega, rest⟩
            · rw [if_neg htag] at h
              obtain ⟨hane, p, hp1, hp2, rest⟩ := ih a h
              exact ⟨hane, p, hp1, by omega, rest⟩
      · rw [if_neg hgt] at h
        exact absurd h (by simp)

/-- Completeness of the end-of-file scan loop: if position `p` (within the
scanned range) carries a header tag and parses to a nonempty archive, and
every tagged position above `p` parses successfully to an *empty* archive,
the scan returns `p`'s parse. -/
theorem scanLoop_finds (file : List Nat) (parse : Nat → Except SzError MArchive)
    (minPos p : Nat) (a : MArchive) (ha : a.files ≠ [])
    (nid : Nat) (hget : file.get? p = some nid) (htag : nid = 0x17 ∨ nid = 0x01)
    (hp : parse p = .ok a) (hminp : minPos ≤ p) :
    ∀ pos, p < pos →
      (∀ q, p < q → q < pos →
        ∃ nid', file.get? q = some nid' ∧
          ((nid' = 0x17 ∨ nid' = 0x01) →
            ∃ a', parse q = .ok a' ∧ a'.files = [])) →
      scanLoop file parse minPos pos = .ok a := by
  intro pos
  induction pos with
  | zero => intro hlt; omega
  | succ pos ih =>
      intro hlt habove
      have hgt : pos + 1 > minPos := by omega
      simp only [scanLoop, if_pos hgt]
      by_cases hpe : p = pos
      · subst hpe
        rw [hget]
        dsimp only
        rw [if_pos htag, hp]
        dsimp only
        rw [if_pos ha]
      · have hppos : p < pos := by omega
        obtain ⟨nid', hget', himpl⟩ := habove pos (by omega) (by omega)
        rw [hget']
        dsimp only
        by_cases htag' : nid' = 0x17 ∨ nid' = 0x01
        · obtain ⟨a', hpa', hempty⟩ := himpl htag'
          rw [if_pos htag', hpa']
          dsimp only
          rw [if_neg (fun hcon => hcon hempty)]
          exact ih hppos (fun q hq1 hq2 => habove q hq1 (by omega))
        · rw [if_neg htag']
          exact ih hppos (fun q hq1 hq2 => habove q hq1 (by omega))

/-- C3 counterexample: a file satisfying the claim's trigger (start-header
CRC field zero *or* slot all zero — here the CRC field is zero but the slot
starts with a 1 byte) on which `Archive::read` does *not* scan backwards: it
goes to `read_start_header`, whose CRC check fails, and the read errors with
`ChecksumVerificationFailed` even though the file ends with a valid `Header`
tag in the scannable region. -/
theorem read_scan_counterexample :
    read_front (signature7z ++ [0, 2] ++ [0, 0, 0, 0] ++
        (1 :: List.replicate 19 0) ++ [0x01, 0x00]) =
      .error .checksumVerificationFailed := by
  set_option maxRecDepth 100000 in rfl

/-- C3 amended: (1) `Archive::read` enters the backward end-of-file scan iff
the start-header CRC field is zero *and* the 20-byte start-header slot is all
zero bytes; (2) a successful scan returns a nonempty parse found at a
scanned position (`min_pos ≤ p ≤ reader_len - 2`) carrying a `Header` (0x01)
or `EncodedHeader` (0x17) tag byte; (3) the scan succeeds at the highest
tagged position whose parse yields a nonempty file list, provided every
tagged position above it parses (to an empty archive) rather than erroring —
a parse error at any candidate aborts the whole scan. -/
theorem read_header_scan_behavior (minor : Nat) (crcBytes slot rest : List Nat)
    (hc : crcBytes.length = 4) (hs : slot.length = 20) :
    (read_front (signature7z ++ [0, minor] ++ crcBytes ++ slot ++ rest) =
        .ok (.scan (signature7z ++ [0, minor] ++ crcBytes ++ slot ++ rest).length
          (scanMinPos (signature7z ++ [0, minor] ++ crcBytes ++ slot ++ rest).length)
          32) ↔
      leValue crcBytes = 0 ∧ ∀ x ∈ slot, x = 0) ∧
      (∀ (file : List Nat) (parse : Nat → Except SzError MArchive)
          (minPos pos : Nat) (a : MArchive),
        scanLoop file parse minPos pos = .ok a →
          a.files ≠ [] ∧ ∃ p, minPos ≤ p ∧ p < pos ∧
            ∃ nid, file.get? p = some nid ∧ (nid = 0x17 ∨ nid = 0x01) ∧
              parse p = .ok a) ∧
      (∀ (file : List Nat) (parse : Nat → Except SzError MArchive)
          (minPos p pos : Nat) (a : MArchive) (nid : Nat),
        a.files ≠ [] → file.get? p = some nid → (nid = 0x17 ∨ nid = 0x01) →
        parse p = .ok a → minPos ≤ p → p < pos →
        (∀ q, p < q → q < pos →
          ∃ n2, file.get? q = some n2 ∧
            ((n2 = 0x17 ∨ n2 = 0x01) → ∃ a2, parse q = .ok a2 ∧ a2.files = [])) →
        scanLoop file parse minPos pos = .ok a) := by
  refine ⟨?_, ?_, ?_⟩
  · rw [read_front_eval minor crcBytes slot rest hc hs]
    constructor
    · intro h
      by_cases hcond : leValue crcBytes = 0 ∧ (slot.any fun a => decide (a ≠ 0)) = false
      · refine ⟨hcond.1, fun x hx => ?_⟩
        by_contra hne
        have hany : (slot.any fun a => decide (a ≠ 0)) = true :=
          List.any_eq_true.mpr ⟨x, hx, by simpa using hne⟩
        rw [hany] at hcond
        exact Bool.noConfusion hcond.2
      · rw [if_neg hcond] at h
        cases hsh : read_start_header (slot ++ rest) (leValue crcBytes) with
        | error e =>
            rw [hsh] at h
            simp only [error_bind] at h
            exact Except.noConfusion h
        | ok pr =>
            rw [hsh] at h
            simp only [ok_bind] at h
            exact absurd h (by simp)
    · rintro ⟨hz, hall⟩
      have hfalse : (slot.any fun a => decide (a ≠ 0)) = false := by
        apply Bool.eq_false_iff.mpr
        intro htrue
        obtain ⟨x, hx, hxne⟩ := List.any_eq_true.mp htrue
        exact (by simpa using hxne : x ≠ 0) (hall x hx)
      rw [if_pos ⟨hz, hfalse⟩]
  · intro file parse minPos pos a h
    exact scanLoop_ok file parse minPos pos a h
  · intro file parse minPos p pos a nid ha hget htag hp hminp hlt habove
    exact scanLoop_finds file parse minPos p a ha nid hget htag hp hminp pos hlt habove

/-- Witness for `read_header_scan_behavior`: a 34-byte file with zero CRC
field and all-zero slot enters the scan, whose floor is `min_pos = 12`. -/
theorem read_header_scan_behavior_witness :
    read_front (signature7z ++ [0, 2] ++ [0, 0, 0, 0] ++
        List.replicate 20 0 ++ [0x01, 0x00]) = .ok (.scan 34 12 32) := by
  have h := (read_header_scan_behavior 2 [0, 0, 0, 0] (List.replicate 20 0)
    [0x01, 0x00] (by decide) (by decide)).1
  exact h.mpr ⟨by decide, by decide⟩

/-- The descending loop of `get_unpack_size` returns the `unpack_sizes` entry
of the *greatest* output index below `k` with no outgoing bind pair, when one
exists. -/
theorem get_unpack_size_loop_spec (b : Block) :
    ∀ k, (∃ i, i < k ∧ (b.find_bind_pair_for_out_stream i).isNone) →
      ∃ i, i < k ∧ (b.find_bind_pair_for_out_stream i).isNone ∧
        (∀ j, i < j → j < k → (b.find_bind_pair_for_out_stream j).isSome) ∧
        Block.get_unpack_size_loop b k = b.unpackSizes.getD i 0 := by
  intro k
  induction k with
  | zero => rintro ⟨i, hi, _⟩; omega
  | succ k ih =>
      rintro ⟨i, hi, hunb⟩
      by_cases hk : (b.find_bind_pair_for_out_stream k).isNone = true
      · refine ⟨k, Nat.lt_succ_self k, hk, fun j hj hj' => absurd hj' (by omega), ?_⟩
        simp [Block.get_unpack_size_loop, hk]
      · have hksome : (b.find_bind_pair_for_out_stream k).isSome := by
          cases hopt : b.find_bind_pair_for_out_stream k
          · rw [hopt] at hk; exact absurd rfl hk
          · rfl
        have hi' : i < k := by
          rcases Nat.lt_succ_iff_lt_or_eq.mp hi with hlt | heq
          · exact hlt
          · subst heq; exact absurd hunb hk
        obtain ⟨j, hjk, hjunb, hjmax, hjeq⟩ := ih ⟨i, hi', hunb⟩
        refine ⟨j, by omega, hjunb, ?_, ?_⟩
        · intro m hm hm'
          rcases Nat.lt_succ_iff_lt_or_eq.mp hm' with hlt | heq
          · exact hjmax m hm hlt
          · subst heq; exact hksome
        · rw [← hjeq]
          simp [Block.get_unpack_size_loop, hk]

/-- Every output index with an outgoing bind pair contributes a bind pair
carrying that exact `out_index`, so the bound outputs inject into the bind
pairs: at most `bind_pairs.length` outputs are bound. -/
theorem boundOutputs_card_le (b : Block) :
    ((Finset.range b.totalOutputStreams).filter
        (fun i => ¬(b.find_bind_pair_for_out_stream i).isNone = true)).card ≤
      b.bindPairs.length := by
  have hsub : (Finset.range b.totalOutputStreams).filter
      (fun i => ¬(b.find_bind_pair_for_out_stream i).isNone = true) ⊆
      b.bindPairs.toFinset.image (fun bp => bp.outIndex) := by
    intro i hi
    rw [Finset.mem_filter] at hi
    obtain ⟨_, hbound⟩ := hi
    cases hopt : b.find_bind_pair_for_out_stream i with
    | none => rw [hopt] at hbound; exact absurd rfl hbound
    | some bp =>
        have hmem : bp ∈ b.bindPairs := List.mem_of_find?_eq_some hopt
        have hp : bp.outIndex = i := by
          have := List.find?_some hopt
          exact of_decide_eq_true this
        rw [Finset.mem_image]
        exact ⟨bp, List.mem_toFinset.mpr hmem, hp⟩
  calc ((Finset.range b.totalOutputStreams).filter
      (fun i => ¬(b.find_bind_pair_for_out_stream i).isNone = true)).card
      ≤ (b.bindPairs.toFinset.image (fun bp => bp.outIndex)).card :=
        Finset.card_le_card hsub
    _ ≤ b.bindPairs.toFinset.card := Finset.card_image_le
    _ ≤ b.bindPairs.length := b.bindPairs.toFinset_card_le

/-- With `total_output_streams - 1` bind pairs, at least one output stream is
unbound. -/
theorem countUnboundOutputs_pos (b : Block)
    (hlen : b.bindPairs.length = b.totalOutputStreams - 1)
    (hpos : 1 ≤ b.totalOutputStreams) : 1 ≤ countUnboundOutputs b := by
  have hsplit := Finset.filter_card_add_filter_neg_card_eq_card
    (s := Finset.range b.totalOutputStreams)
    (p := fun i => (b.find_bind_pair_for_out_stream i).isNone = true)
  have hbound := boundOutputs_card_le b
  have hr : (Finset.range b.totalOutputStreams).card = b.totalOutputStreams :=
    Finset.card_range _
  unfold countUnboundOutputs
  omega

/-- When the bind pairs' out indices are pairwise distinct and in range, the
bound outputs are exactly the out indices, so exactly one output is
unbound. -/
theorem countUnboundOutputs_eq_one (b : Block)
    (hlen : b.bindPairs.length = b.totalOutputStreams - 1)
    (hpos : 1 ≤ b.totalOutputStreams)
    (hnd : (b.bindPairs.map BindPair.outIndex).Nodup)
    (hrange : ∀ bp ∈ b.bindPairs, bp.outIndex < b.totalOutputStreams) :
    countUnboundOutputs b = 1 := by
  have hsplit := Finset.filter_card_add_filter_neg_card_eq_card
    (s := Finset.range b.totalOutputStreams)
    (p := fun i => (b.find_bind_pair_for_out_stream i).isNone = true)
  have hboundle := boundOutputs_card_le b
  have hr : (Finset.range b.totalOutputStreams).card = b.totalOutputStreams :=
    Finset.card_range _
  have hsub : b.bindPairs.toFinset.image (fun bp => bp.outIndex) ⊆
      (Finset.range b.totalOutputStreams).filter
        (fun i => ¬(b.find_bind_pair_for_out_stream i).isNone = true) := by
    intro i hi
    rw [Finset.mem_image] at hi
    obtain ⟨bp, hbp, hip⟩ := hi
    have hbp' : bp ∈ b.bindPairs := List.mem_toFinset.mp hbp
    rw [Finset.mem_filter, Finset.mem_range]
    refine ⟨hip ▸ hrange bp hbp', ?_⟩
    cases hopt : b.find_bind_pair_for_out_stream i with
    | none =>
        have : ∀ x ∈ b.bindPairs, ¬(decide (x.outIndex = i) = true) :=
          fun x hx => by
            have := List.find?_eq_none.mp hopt x hx
            simpa using this
        exact absurd (by simpa using hip) (by simpa using this bp hbp')
    | some _ => simp
  have hndl : b.bindPairs.Nodup := hnd.of_map _
  have hinj : ∀ x ∈ b.bindPairs.toFinset, ∀ y ∈ b.bindPairs.toFinset,
      x.outIndex = y.outIndex → x = y := by
    intro x hx y hy hxy
    exact List.inj_on_of_nodup_map hnd (List.mem_toFinset.mp hx)
      (List.mem_toFinset.mp hy) hxy
  have himgcard : (b.bindPairs.toFinset.image (fun bp => bp.outIndex)).card =
      b.bindPairs.length := by
    rw [Finset.card_image_of_injOn hinj, List.toFinset_card_of_nodup hndl]
  have hboundge := Finset.card_le_card hsub
  rw [himgcard] at hboundge
  unfold countUnboundOutputs
  omega

/-- Shape of a successful `readUnpackSizesFor`: only `unpack_sizes` changes,
and it gets exactly `total_output_streams` entries. -/
theorem readUnpackSizesFor_shape (b : Block) (bs : List Nat) (b2 : Block)
    (rest : List Nat) (h : readUnpackSizesFor b bs = .ok (b2, rest)) :
    b2 = { b with unpackSizes := b2.unpackSizes } ∧
      b2.unpackSizes.length = b.totalOutputStreams := by
  simp only [readUnpackSizesFor] at h
  obtain ⟨⟨sizes, bs1⟩, h1, h⟩ := except_bind_ok h
  dsimp only at h
  have hslen := readPackedStreams_length _ _ _ _ h1
  cases h
  exact ⟨rfl, hslen⟩

/-- C7 counterexample: the seven-byte block record `[2, 1, 0, 1, 0, 0, 7]`
(two simple coders, one bind pair with the out-of-range `out_index = 7`) is
accepted by `read_block`, yet *two* of its output streams have no outgoing
bind pair — the parser never validates bind-pair out indices, so "exactly one
output stream has no outgoing bind pair" fails. -/
theorem read_block_unique_output_counterexample :
    (read_block [2, 1, 0, 1, 0, 0, 7]).toOption.map
        (fun p => countUnboundOutputs p.1) = some 2 ∧
      (read_block [2, 1, 0, 1, 0, 0, 7]).toOption.map
        (fun p => countUnboundOutputs p.1) ≠ some 1 := by
  constructor <;> decide

/-- C7 amended: for every block accepted by `read_block` whose
`unpack_sizes` were then filled by the `kCodersUnpackSize` loop: at least one
output stream has no outgoing bind pair; `get_unpack_size` returns the
`unpack_sizes` entry of the *greatest* such output index; and when the bind
pairs' out indices are pairwise distinct and all within range — which the
parser does not enforce — that output stream is unique. -/
theorem read_block_main_output (bs bs2 : List Nat) (b b2 : Block)
    (rest rest2 : List Nat) (h : read_block bs = .ok (b, rest))
    (h2 : readUnpackSizesFor b bs2 = .ok (b2, rest2)) :
    1 ≤ countUnboundOutputs b2 ∧
      b2.unpackSizes.length = b2.totalOutputStreams ∧
      (∃ i, i < b2.totalOutputStreams ∧
        (b2.find_bind_pair_for_out_stream i).isNone ∧
        (∀ j, i < j → j < b2.totalOutputStreams →
          (b2.find_bind_pair_for_out_stream j).isSome) ∧
        Block.get_unpack_size b2 = b2.unpackSizes.getD i 0) ∧
      ((b2.bindPairs.map BindPair.outIndex).Nodup ∧
          (∀ bp ∈ b2.bindPairs, bp.outIndex < b2.totalOutputStreams) →
        countUnboundOutputs b2 = 1) := by
  obtain ⟨hshape, hulen⟩ := readUnpackSizesFor_shape b bs2 b2 rest2 h2
  obtain ⟨hbplen, hpos, _, _⟩ := read_block_shape bs b rest h
  have hfields : b2.bindPairs = b.bindPairs ∧
      b2.totalOutputStreams = b.totalOutputStreams := by
    rw [hshape]; exact ⟨rfl, rfl⟩
  have hbplen2 : b2.bindPairs.length = b2.totalOutputStreams - 1 := by
    rw [hfields.1, hfields.2]; exact hbplen
  have hpos2 : 1 ≤ b2.totalOutputStreams := by rw [hfields.2]; exact hpos
  have hcount := countUnboundOutputs_pos b2 hbplen2 hpos2
  refine ⟨hcount, by rw [hfields.2, hulen], ?_, ?_⟩
  · have hex : ∃ i, i < b2.totalOutputStreams ∧
        (b2.find_bind_pair_for_out_stream i).isNone := by
      have hpos' : 0 < countUnboundOutputs b2 := hcount
      unfold countUnboundOutputs at hpos'
      obtain ⟨i, hi⟩ := Finset.card_pos.mp hpos'
      rw [Finset.mem_filter, Finset.mem_range] at hi
      exact ⟨i, hi.1, hi.2⟩
    obtain ⟨i, hi, hiunb, himax, hieq⟩ :=
      get_unpack_size_loop_spec b2 b2.totalOutputStreams hex
    refine ⟨i, hi, hiunb, himax, ?_⟩
    rw [Block.get_unpack_size, if_neg (by omega), hieq]
  · intro ⟨hnd, hrange⟩
    exact countUnboundOutputs_eq_one b2 hbplen2 hpos2 hnd hrange

/-- Witness for `read_block_main_output`: the block `[1, 1, 0]` with the
single unpack size `5` read for it. -/
theorem read_block_main_output_witness :
    1 ≤ countUnboundOutputs ⟨[⟨[0], 1, 1, 1, []⟩], false, 0, 1, 1, [], [0], [5], 0⟩ ∧
      ([5] : List Nat).length = 1 ∧
      (∃ i, i < 1 ∧
        ((⟨[⟨[0], 1, 1, 1, []⟩], false, 0, 1, 1, [], [0], [5], 0⟩ :
          Block).find_bind_pair_for_out_stream i).isNone ∧
        (∀ j, i < j → j < 1 →
          ((⟨[⟨[0], 1, 1, 1, []⟩], false, 0, 1, 1, [], [0], [5], 0⟩ :
            Block).find_bind_pair_for_out_stream j).isSome) ∧
        Block.get_unpack_size ⟨[⟨[0], 1, 1, 1, []⟩], false, 0, 1, 1, [], [0], [5], 0⟩ =
          ([5] : List Nat).getD i 0) ∧
      ((([] : List BindPair).map BindPair.outIndex).Nodup ∧
          (∀ bp ∈ ([] : List BindPair), bp.outIndex < 1) →
        countUnboundOutputs ⟨[⟨[0], 1, 1, 1, []⟩], false, 0, 1, 1, [], [0], [5], 0⟩ = 1) := by
  have h := read_block_main_output [1, 1, 0] [5]
    (⟨[⟨[0], 1, 1, 1, []⟩], false, 0, 1, 1, [], [0], [], 0⟩ : Block)
    (⟨[⟨[0], 1, 1, 1, []⟩], false, 0, 1, 1, [], [0], [5], 0⟩ : Block)
    [] [] (by rfl) (by rfl)
  exact h

/-- Elements of `bubAux x l` are `x` or elements of `l`. -/
theorem mem_bubAux {x z : RState} :
    ∀ {l : List RState}, z ∈ bubAux x l → z = x ∨ z ∈ l := by
  intro l
  induction l with
  | nil => intro h; simp [bubAux] at h; exact Or.inl h
  | cons a ra ih =>
      intro h
      simp only [bubAux] at h
      split at h
      · rcases List.mem_cons.mp h with hz | hz
        · exact Or.inr (List.mem_cons.mpr (Or.inl hz))
        · rcases ih hz with hz' | hz'
          · exact Or.inl hz'
          · exact Or.inr (List.mem_cons.mpr (Or.inr hz'))
      · rcases List.mem_cons.mp h with hz | hz
        · exact Or.inl hz
        · exact Or.inr hz

/-- `bubAux` preserves ascending sortedness (by freq). -/
theorem bubAux_sorted {x : RState} :
    ∀ {l : List RState}, l.Pairwise (fun a b => a.freq ≤ b.freq) →
      (bubAux x l).Pairwise (fun a b => a.freq ≤ b.freq) := by
  intro l
  induction l with
  | nil => intro _; simp [bubAux]
  | cons a ra ih =>
      intro h
      rw [List.pairwise_cons] at h
      obtain ⟨ha, hra⟩ := h
      simp only [bubAux]
      split
      · rename_i hlt
        rw [List.pairwise_cons]
        refine ⟨?_, ih hra⟩
        intro z hz
        rcases mem_bubAux hz with hz' | hz'
        · subst hz'; omega
        · exact ha z hz'
      · rename_i hge
        rw [List.pairwise_cons]
        refine ⟨?_, List.pairwise_cons.mpr ⟨ha, hra⟩⟩
        intro z hz
        rcases List.mem_cons.mp hz with hz' | hz'
        · subst hz'; omega
        · have := ha z hz'
          omega

/-- `insertSortedDesc` preserves non-increasing sortedness. -/
theorem insertSortedDesc_sorted {pre : List RState} {x : RState}
    (h : pre.Pairwise (fun a b => b.freq ≤ a.freq)) :
    (insertSortedDesc pre x).Pairwise (fun a b => b.freq ≤ a.freq) := by
  unfold insertSortedDesc
  rw [List.pairwise_reverse]
  exact bubAux_sorted (List.pairwise_reverse.mpr h)

/-- Elements of `insertSortedDesc pre x` are `x` or elements of `pre`. -/
theorem mem_insertSortedDesc {pre : List RState} {x z : RState}
    (h : z ∈ insertSortedDesc pre x) : z = x ∨ z ∈ pre := by
  unfold insertSortedDesc at h
  rw [List.mem_reverse] at h
  rcases mem_bubAux h with h' | h'
  · exact Or.inl h'
  · exact Or.inr (List.mem_reverse.mp h')

/-- The halving loop keeps the prefix sorted non-increasing with all freqs
below 256. -/
theorem rescaleLoop_invariant (adder : Nat) :
    ∀ (rest acc : List RState) (sf ef : Nat),
      acc.Pairwise (fun a b => b.freq ≤ a.freq) → (∀ s ∈ acc, s.freq < 256) →
      (rescaleLoop adder rest (acc, sf, ef)).1.Pairwise
          (fun a b => b.freq ≤ a.freq) ∧
        ∀ s ∈ (rescaleLoop adder rest (acc, sf, ef)).1, s.freq < 256 := by
  intro rest
  induction rest with
  | nil => intro acc sf ef hsort hlt; exact ⟨hsort, hlt⟩
  | cons s rest ih =>
      intro acc sf ef hsort hlt
      simp only [rescaleLoop]
      apply ih
      · exact insertSortedDesc_sorted hsort
      · intro z hz
        rcases mem_insertSortedDesc hz with hz' | hz'
        · subst hz'
          exact Nat.mod_lt _ (by norm_num)
        · exact hlt z hz'

/-- In an ascending list, every element surviving the leading-zero drop has
positive freq. -/
theorem dropWhile_zero_pos :
    ∀ (l : List RState), l.Pairwise (fun a b => a.freq ≤ b.freq) →
      ∀ z ∈ l.dropWhile (fun s => s.freq == 0), 1 ≤ z.freq := by
  intro l
  induction l with
  | nil => intro _ z hz; simp [List.dropWhile] at hz
  | cons a ra ih =>
      intro h z hz
      rw [List.pairwise_cons] at h
      obtain ⟨ha, hra⟩ := h
      rw [List.dropWhile_cons] at hz
      by_cases haz : (a.freq == 0) = true
      · rw [if_pos haz] at hz
        exact ih hra z hz
      · rw [if_neg haz] at hz
        have ha0 : 1 ≤ a.freq := by
          have hne : a.freq ≠ 0 := by simpa using haz
          omega
        rcases List.mem_cons.mp hz with hz' | hz'
        · subst hz'; exact ha0
        · have := ha z hz'
          omega

/-- Trimming trailing zero-freq states keeps sortedness. -/
theorem trim_sorted {l : List RState}
    (h : l.Pairwise (fun a b => b.freq ≤ a.freq)) :
    (trimTrailingZeroFreq l).Pairwise (fun a b => b.freq ≤ a.freq) := by
  unfold trimTrailingZeroFreq
  rw [List.pairwise_reverse]
  exact (List.pairwise_reverse.mpr h).sublist (List.dropWhile_sublist _)

/-- After trimming trailing zero-freq states from a non-increasing list,
every remaining state has `freq ≥ 1`. -/
theorem trim_pos {l : List RState}
    (h : l.Pairwise (fun a b => b.freq ≤ a.freq)) :
    ∀ z ∈ trimTrailingZeroFreq l, 1 ≤ z.freq := by
  intro z hz
  unfold trimTrailingZeroFreq at hz
  rw [List.mem_reverse] at hz
  exact dropWhile_zero_pos l.reverse (List.pairwise_reverse.mpr h) z hz

/-- Trimmed states come from the original list. -/
theorem trim_mem {l : List RState} {z : RState}
    (hz : z ∈ trimTrailingZeroFreq l) : z ∈ l := by
  unfold trimTrailingZeroFreq at hz
  rw [List.mem_reverse] at hz
  exact List.mem_reverse.mp ((List.dropWhile_sublist _).mem hz)

/-- When the last state's freq is nonzero nothing is trimmed. -/
theorem trim_eq_self {l : List RState} {last : RState}
    (h : l.getLast? = some last) (hne : ¬last.freq = 0) :
    trimTrailingZeroFreq l = l := by
  unfold trimTrailingZeroFreq
  cases hrev : l.reverse with
  | nil =>
      have : l = [] := by simpa using congrArg List.reverse hrev
      subst this
      simp at h
  | cons a t =>
      have hhead : l.reverse.head? = some a := by rw [hrev]; rfl
      rw [← List.head?_reverse] at h
      rw [hhead] at h
      cases h
      rw [List.dropWhile_cons_of_neg (by simpa using hne), ← hrev,
        List.reverse_reverse]

/-- The `1 >> 1 = 0` quirk: the single-symbol loop of `rescale` leaves the
freq unchanged however often it runs. -/
theorem rescaleSingleLoop_eq : ∀ e f, rescaleSingleLoop e f = f := by
  intro e
  induction e using Nat.strong_induction_on with
  | _ e ih =>
      intro f
      rw [rescaleSingleLoop]
      by_cases h : e / 2 ≤ 1
      · simp [h]
      · simp only [if_neg h]
        rw [ih (e / 2) (by omega) (f + 1 / 2)]
        omega

/-- C4: for every state array on which `rescale` is invoked (u8 freqs), when
`rescale` returns, every state remaining in the rescaled context's state
array has `freq ≥ 1` and the array is sorted in non-strictly decreasing
order of freq. -/
theorem rescale_freqs (adder foundIdx summFreq : Nat) (states : List RState)
    (hfreq : ∀ s ∈ states, s.freq < 256) :
    (∀ s ∈ (rescale adder foundIdx summFreq states).1, 1 ≤ s.freq) ∧
      (rescale adder foundIdx summFreq states).1.Pairwise
        (fun a b => b.freq ≤ a.freq) := by
  unfold rescale
  cases hmv : moveFoundToFront states foundIdx with
  | nil => exact ⟨by intro s hs; simp at hs, by simp⟩
  | cons s0 rest =>
      have hmvmem : ∀ s ∈ s0 :: rest, s.freq < 256 := by
        intro s hs
        apply hfreq
        rw [← hmv] at hs
        unfold moveFoundToFront at hs
        cases hget : states.get? foundIdx with
        | none => rw [hget] at hs; exact hs
        | some x =>
            rw [hget] at hs
            rcases List.mem_cons.mp hs with h | h
            · subst h; exact List.get?_mem hget
            · rcases List.mem_append.mp h with h' | h'
              · exact (List.take_subset _ _) h'
              · exact (List.drop_subset _ _) h'
      dsimp only
      obtain ⟨hsort, hlt⟩ := rescaleLoop_invariant adder rest
        [{ s0 with freq := (s0.freq + 4 + adder) / 2 % 256 }]
        ((s0.freq + 4 + adder) / 2)
        ((summFreq + 2 ^ 32 - s0.freq % 2 ^ 32) % 2 ^ 32)
        (by simp) (by intro z hz; simp at hz; subst hz; exact Nat.mod_lt _ (by norm_num))
      rcases hlp : rescaleLoop adder rest
          ([{ s0 with freq := (s0.freq + 4 + adder) / 2 % 256 }],
            (s0.freq + 4 + adder) / 2,
            (summFreq + 2 ^ 32 - s0.freq % 2 ^ 32) % 2 ^ 32) with
        ⟨sorted, sumFreqF, escFreqF⟩
      rw [hlp] at hsort hlt
      dsimp only at hsort hlt ⊢
      have htrimsort := trim_sorted hsort
      have htrimpos := trim_pos hsort
      have htrimlt : ∀ z ∈ trimTrailingZeroFreq sorted, z.freq < 256 :=
        fun z hz => hlt z (trim_mem hz)
      cases hlast : sorted.getLast? with
      | none =>
          have hnil : sorted = [] := List.getLast?_eq_none_iff.mp hlast
          subst hnil
          exact ⟨by intro s hs; simp at hs, by simp⟩
      | some last =>
          dsimp only
          by_cases hzero : last.freq = 0
          · rw [if_pos hzero]
            by_cases hone : (trimTrailingZeroFreq sorted).length = 1
            · rw [if_pos hone]
              cases hkept : trimTrailingZeroFreq sorted with
              | nil => rw [hkept] at hone; simp at hone
              | cons h0 t =>
                  cases t with
                  | nil =>
                      have hmemh : h0 ∈ trimTrailingZeroFreq sorted := by
                        rw [hkept]; exact List.mem_cons_self _ _
                      have h0pos : 1 ≤ h0.freq := htrimpos h0 hmemh
                      have h0lt : h0.freq < 256 := htrimlt h0 hmemh
                      refine ⟨?_, by simp⟩
                      intro s hs
                      simp only [List.mem_singleton] at hs
                      subst hs
                      dsimp only
                      rw [rescaleSingleLoop_eq, Nat.mod_eq_of_lt h0lt]
                      exact h0pos
                  | cons h1 t2 => rw [hkept] at hone; simp at hone
            · rw [if_neg hone]
              exact ⟨htrimpos, htrimsort⟩
          · rw [if_neg hzero]
            rw [trim_eq_self hlast hzero] at htrimpos htrimsort
            exact ⟨htrimpos, htrimsort⟩

/-- Witness for `rescale_freqs` at a concrete three-state context. -/
theorem rescale_freqs_witness :
    (∀ s ∈ (rescale 1 1 500 [⟨10, 100, 0⟩, ⟨20, 3, 0⟩, ⟨30, 1, 0⟩]).1,
        1 ≤ s.freq) ∧
      (rescale 1 1 500 [⟨10, 100, 0⟩, ⟨20, 3, 0⟩, ⟨30, 1, 0⟩]).1.Pairwise
        (fun a b => b.freq ≤ a.freq) :=
  rescale_freqs 1 1 500 [⟨10, 100, 0⟩, ⟨20, 3, 0⟩, ⟨30, 1, 0⟩] (by decide)

/-- C5 counterexample: the claim says one call to `See::update` decrements
`count`, but at `shift = 7` the short-circuited condition skips the decrement
entirely: the slot `⟨summ := 100, shift := 7, count := 5⟩` is returned
unchanged, with `count` still `5` rather than the claimed `4`. -/
theorem see_update_shift7_counterexample :
    See.update ⟨100, 7, 5⟩ = ⟨100, 7, 5⟩ ∧ (See.update ⟨100, 7, 5⟩).count ≠ 4 := by
  constructor <;> decide

/-- C5 amended: for a SEE slot in the u8 range (`count < 256`): when
`shift < 7`, one call to `See::update` decrements `count` (u8-wrapping); when
the decremented count reaches 0 (i.e. `count = 1` on entry), `summ` is doubled
modulo 2^16, `shift` is incremented, and `count` is reset to `3 <<` the
pre-increment `shift`, truncated to 8 bits. When `shift ≥ 7` the slot is
unchanged — in particular `count` is not decremented. -/
theorem see_update_amended (s : See) (hcnt : s.count < 256) :
    (s.shift < 7 → s.count ≠ 1 →
        See.update s = { s with count := (s.count + 255) % 256 }) ∧
      (s.shift < 7 → s.count = 1 →
        See.update s =
          { summ := s.summ * 2 % 65536, shift := s.shift + 1,
            count := 3 * 2 ^ s.shift % 256 }) ∧
      (7 ≤ s.shift → See.update s = s) := by
  refine ⟨fun h7 hc => ?_, fun h7 hc => ?_, fun h7 => ?_⟩
  · have hcount : ¬((s.count + 255) % 256 = 0) := by omega
    simp [See.update, h7, hcount]
  · simp [See.update, h7, hc]
  · simp [See.update, Nat.not_lt.mpr h7]

/-- Witness for `see_update_amended` at the concrete slots `⟨10, 3, 5⟩`
(plain decrement), `⟨10, 3, 1⟩` (counter rollover) and `⟨10, 7, 5⟩`
(no-op at `shift = 7`). -/
theorem see_update_amended_witness :
    See.update ⟨10, 3, 5⟩ = ⟨10, 3, 4⟩ ∧
      See.update ⟨10, 3, 1⟩ = ⟨20, 4, 24⟩ ∧ See.update ⟨10, 7, 5⟩ = ⟨10, 7, 5⟩ := by
  refine ⟨?_, ?_, ?_⟩
  · exact ((see_update_amended ⟨10, 3, 5⟩ (by decide)).1 (by decide)
      (by decide)).trans (by decide)
  · exact ((see_update_amended ⟨10, 3, 1⟩ (by decide)).2.1 (by decide)
      (by decide)).trans (by decide)
  · exact (see_update_amended ⟨10, 7, 5⟩ (by decide)).2.2 (by decide)

/-- C9 counterexample: an `Io` error carrying a non-empty context message —
exactly the shape the library itself produces when it attaches the entry name
— reaches `for_each_entries`' `map_err` with a non-empty password and is *not*
re-tagged `MaybeBadPassword`, contradicting the claim that an I/O error with a
non-empty password is re-tagged. -/
theorem maybe_bad_password_counterexample :
    SzError.forEachEntriesErrMap true (.io 3 "Encode entry:a") = .io 3 "Encode entry:a" ∧
      SzError.forEachEntriesErrMap true (.io 3 "Encode entry:a") ≠ .maybeBadPassword 3 := by
  constructor <;> decide

/-- C9 amended: the error map applied by `BlockDecoder::for_each_entries`
re-tags an error to `MaybeBadPassword` only when a non-empty password was
supplied *and* the error is `Io` with an empty context string; an `Io` error
with a non-empty context and every non-`Io` error propagate unchanged, and
with an empty password every error propagates unchanged. -/
theorem maybe_bad_password_amended (e : SzError) (n : Nat) (ctx : String) :
    SzError.forEachEntriesErrMap false e = e ∧
      SzError.forEachEntriesErrMap true (.io n "") = .maybeBadPassword n ∧
      (ctx ≠ "" → SzError.forEachEntriesErrMap true (.io n ctx) = .io n ctx) ∧
      ((∀ m c, e ≠ .io m c) → SzError.forEachEntriesErrMap true e = e) := by
  refine ⟨rfl, rfl, fun hc => ?_, fun hni => ?_⟩
  · have : ctx.isEmpty = false := by
      cases hs : ctx.isEmpty
      · rfl
      · exact absurd ((String.isEmpty_iff ctx).mp hs) hc
    simp [SzError.forEachEntriesErrMap, SzError.maybe_bad_password, this]
  · cases e <;> first
      | rfl
      | exact absurd rfl (hni _ _)

/-- Witness for `maybe_bad_password_amended`: the empty-password identity, the
empty-context re-tag, the context-carrying pass-through and the non-`Io`
pass-through, each at concrete errors. -/
theorem maybe_bad_password_amended_witness :
    SzError.forEachEntriesErrMap false (.io 7 "x") = .io 7 "x" ∧
      SzError.forEachEntriesErrMap true (.io 7 "") = .maybeBadPassword 7 ∧
      SzError.forEachEntriesErrMap true (.io 7 "x") = .io 7 "x" ∧
      SzError.forEachEntriesErrMap true .passwordRequired = .passwordRequired := by
  have h := maybe_bad_password_amended .passwordRequired 7 "x"
  exact ⟨(maybe_bad_password_amended (.io 7 "x") 7 "x").1, h.2.1,
    h.2.2.1 (by decide), h.2.2.2 (by intro m c h; cases h)⟩

/-! ## C2: the PPMd7 range coder round trip -/

set_option maxHeartbeats 1000000

/-! ### Base numeric lemmas -/

theorem lor256_eq_add (a b : Nat) (hb : b < 256) :
    Nat.lor (a * 256) b = a * 256 + b := by
  have h := Nat.mul_add_lt_is_or (show b < 2 ^ 8 by omega) a
  have h2 : 2 ^ 8 * a = a * 256 := by ring
  rw [h2] at h
  exact h.symm

theorem digit_cancel {Q a b r1 r2 : Nat} (h : a * Q + r1 = b * Q + r2)
    (h1 : r1 < Q) (h2 : r2 < Q) : a = b ∧ r1 = r2 := by
  have hq : 0 < Q := lt_of_le_of_lt (Nat.zero_le r1) h1
  have ha : (a * Q + r1) / Q = a := by
    rw [Nat.mul_comm a Q, Nat.mul_add_div hq, Nat.div_eq_of_lt h1, Nat.add_zero]
  have hb2 : (b * Q + r2) / Q = b := by
    rw [Nat.mul_comm b Q, Nat.mul_add_div hq, Nat.div_eq_of_lt h2, Nat.add_zero]
  have hab : a = b := by rw [← ha, ← hb2, h]
  refine ⟨hab, ?_⟩
  have := h
  rw [hab] at this
  omega

theorem numL_append (a b : List Nat) :
    numL (a ++ b) = numL a * 256 ^ b.length + numL b := by
  induction a with
  | nil => simp [numL]
  | cons x t ih =>
      rw [List.cons_append, numL, ih, List.length_append, numL, pow_add]
      ring

theorem numL_lt (l : List Nat) (h : ∀ b ∈ l, b < 256) :
    numL l < 256 ^ l.length := by
  induction l with
  | nil => simp [numL]
  | cons x t ih =>
      have hx : x < 256 := h x (List.mem_cons_self _ _)
      have ht := ih (fun b hb => h b (List.mem_cons_of_mem _ hb))
      simp only [numL, List.length_cons, pow_succ]
      have h1 : (x + 1) * 256 ^ t.length ≤ 256 * 256 ^ t.length :=
        Nat.mul_le_mul_right _ hx
      have h2 : x * 256 ^ t.length + 256 ^ t.length = (x + 1) * 256 ^ t.length := by
        ring
      have h3 : 256 * 256 ^ t.length = 256 ^ t.length * 256 := by ring
      omega

theorem emitRun_length (c : Nat) : ∀ n t, (emitRun t c n).length = n := by
  intro n
  induction n with
  | zero => intro t; rfl
  | succ k ih => intro t; simp [emitRun, ih]

theorem emitRun_mem (c : Nat) : ∀ n t, ∀ b ∈ emitRun t c n, b < 256 := by
  intro n
  induction n with
  | zero => intro t b hb; cases hb
  | succ k ih =>
      intro t b hb
      rcases List.mem_cons.mp hb with h | h
      · subst h; exact Nat.mod_lt _ (by norm_num)
      · exact ih 255 b h

theorem numL_emitRun_ff : ∀ n, numL (emitRun 255 0 n) = 256 ^ n - 1 := by
  intro n
  induction n with
  | zero => rfl
  | succ k ih =>
      have hP : 1 ≤ (256 : Nat) ^ k := Nat.one_le_pow _ _ (by norm_num)
      have hpow : (256 : Nat) ^ (k + 1) = 256 * 256 ^ k := by ring
      simp only [emitRun, numL, ih, emitRun_length]
      norm_num
      omega

theorem numL_emitRun_tt : ∀ n, numL (emitRun 255 1 n) = 0 := by
  intro n
  induction n with
  | zero => rfl
  | succ k ih => simp [emitRun, numL, ih]

theorem mod32_mul256 (a : Nat) : a % 2 ^ 32 * 256 % 2 ^ 32 = a % 2 ^ 24 * 256 := by
  have h32 : (2 : Nat) ^ 32 = 4294967296 := by norm_num
  have h24 : (2 : Nat) ^ 24 = 16777216 := by norm_num
  rw [h32, h24]
  omega

/-! ### `shift_low` lemmas -/

theorem shiftLow_range (e : EncSt) : (shiftLow e).range = e.range := by
  unfold shiftLow
  split <;> rfl

theorem shiftLow_low (e : EncSt) : (shiftLow e).low = e.low % 2 ^ 24 * 256 := by
  unfold shiftLow
  split <;> exact mod32_mul256 e.low

theorem shiftLow_spec (e : EncSt) (hcs : 1 ≤ e.cacheSize) (hcache : e.cache < 256)
    (hlow : e.low < 2 ^ 33) (hcap : pendV e < 256 ^ e.cacheSize * 2 ^ 32) :
    ∃ bs, (shiftLow e).out = e.out ++ bs ∧
      bs.length + (shiftLow e).cacheSize = e.cacheSize + 1 ∧
      (∀ b ∈ bs, b < 256) ∧
      numL bs * (256 ^ (shiftLow e).cacheSize * 2 ^ 32) + pendV (shiftLow e) =
        256 * pendV e ∧
      1 ≤ (shiftLow e).cacheSize ∧ (shiftLow e).cache < 256 ∧
      pendV (shiftLow e) < 256 ^ (shiftLow e).cacheSize * 2 ^ 32 := by
  obtain ⟨k, hk⟩ : ∃ k, e.cacheSize = k + 1 := ⟨e.cacheSize - 1, by omega⟩
  have hP1 : 1 ≤ (256 : Nat) ^ k := Nat.one_le_pow _ _ (by norm_num)
  have hfact : (e.cache + 1) * 256 ^ k = e.cache * 256 ^ k + 256 ^ k := by ring
  have hcapL : (e.cache + 1) * 256 ^ k - 1 + 1 ≤ 256 ^ k * 256 := by
    have h2 := hcap
    unfold pendV pending at h2
    rw [hk, Nat.add_sub_cancel] at h2
    have h3 : ((e.cache + 1) * 256 ^ k - 1) * 2 ^ 32 < 256 ^ k * 256 * 2 ^ 32 := by
      have : (256 : Nat) ^ (k + 1) = 256 ^ k * 256 := by ring
      omega
    have h4 : (e.cache + 1) * 256 ^ k - 1 < 256 ^ k * 256 :=
      lt_of_mul_lt_mul_right h3 (Nat.zero_le _)
    omega
  unfold shiftLow
  by_cases hc : e.low < 0xFF000000 ∨ e.low / 2 ^ 32 ≠ 0
  · rw [if_pos hc]
    refine ⟨emitRun e.cache (e.low / 2 ^ 32 % 256) e.cacheSize, rfl, ?_, emitRun_mem _ _ _, ?_, le_refl 1, ?_, ?_⟩
    · rw [emitRun_length]
    · -- value identity
      simp only [pendV, pending, mod32_mul256, hk, Nat.add_sub_cancel, pow_zero,
        mul_one]
      by_cases hcar : e.low < 2 ^ 32
      · have hc0 : e.low / 2 ^ 32 % 256 = 0 := by
          rw [Nat.div_eq_of_lt hcar]
        rw [hc0]
        have hnum : numL (emitRun e.cache 0 (k + 1)) =
            e.cache * 256 ^ k + (256 ^ k - 1) := by
          simp only [emitRun, numL, emitRun_length, numL_emitRun_ff,
            Nat.add_zero, Nat.mod_eq_of_lt hcache]
        rw [hnum, hfact]
        have hsplit : e.low % 2 ^ 32 = e.low := Nat.mod_eq_of_lt hcar
        rw [hsplit]
        have hdm : 2 ^ 24 * (e.low / 2 ^ 24) + e.low % 2 ^ 24 = e.low :=
          Nat.div_add_mod _ _
        have htop : e.low / 2 ^ 24 < 256 := by omega
        omega
      · have hc1 : e.low / 2 ^ 32 % 256 = 1 := by omega
        rw [hc1]
        have hcache254 : e.cache + 1 < 256 := by
          have hge : 2 ^ 32 ≤ e.low := by omega
          have h5 : ((e.cache + 1) * 256 ^ k - 1 + 1) * 256 ^ 0 ≤ 256 ^ k * 256 := by
            simpa using hcapL
          have h6 : (e.cache + 1) * 256 ^ k ≤ 255 * 256 ^ k + (256 ^ k - 1) := by
            by_contra hcon
            push_neg at hcon
            have h7 : 2 ^ 32 ≤ e.low := hge
            have h8 := hcap
            unfold pendV pending at h8
            rw [hk, Nat.add_sub_cancel] at h8
            have h9 : (256 : Nat) ^ (k + 1) = 256 ^ k * 256 := by ring
            have h10 : 255 * 256 ^ k + (256 ^ k - 1) + 1 = 256 ^ k * 256 := by omega
            have h11 : 256 ^ k * 256 ≤ (e.cache + 1) * 256 ^ k - 1 := by omega
            have h12 : (256 ^ k * 256) * 2 ^ 32 ≤ ((e.cache + 1) * 256 ^ k - 1) * 2 ^ 32 :=
              Nat.mul_le_mul_right _ h11
            omega
          have h13 : 255 * 256 ^ k + (256 ^ k - 1) < 256 * 256 ^ k := by omega
          have h14 : (e.cache + 1) * 256 ^ k < 256 * 256 ^ k := by omega
          exact lt_of_mul_lt_mul_right h14 (Nat.zero_le _)
        have hnum : numL (emitRun e.cache 1 (k + 1)) =
            (e.cache + 1) * 256 ^ k := by
          simp only [emitRun, numL, emitRun_length, numL_emitRun_tt,
            Nat.add_zero, Nat.mod_eq_of_lt hcache254]
        rw [hnum, hfact]
        have hdm : 2 ^ 24 * (e.low % 2 ^ 32 / 2 ^ 24) + e.low % 2 ^ 32 % 2 ^ 24 =
            e.low % 2 ^ 32 := Nat.div_add_mod _ _
        have htop : e.low % 2 ^ 32 / 2 ^ 24 < 256 := by omega
        have hm24 : e.low % 2 ^ 32 % 2 ^ 24 = e.low % 2 ^ 24 := by omega
        have hm32 : e.low % 2 ^ 32 = e.low - 2 ^ 32 := by omega
        omega
    · -- new cache < 256
      show e.low % 2 ^ 32 / 2 ^ 24 < 256
      omega
    · -- capacity of the new state
      simp only [pendV, pending, mod32_mul256, pow_zero, mul_one]
      have htop : e.low % 2 ^ 32 / 2 ^ 24 < 256 := by omega
      have hrest : e.low % 2 ^ 24 < 2 ^ 24 := Nat.mod_lt _ (by norm_num)
      omega
  · rw [if_neg hc]
    push_neg at hc
    obtain ⟨hge, hdiv0⟩ := hc
    have hlt32 : e.low < 2 ^ 32 := by omega
    have htopff : e.low / 2 ^ 24 = 255 := by omega
    have hdm : 2 ^ 24 * (e.low / 2 ^ 24) + e.low % 2 ^ 24 = e.low :=
      Nat.div_add_mod _ _
    refine ⟨[], by simp, ?_, ?_, ?_, ?_, hcache, ?_⟩
    · simp [hk]
    · intro b hb
      cases hb
    · -- value identity
      simp only [pendV, pending, mod32_mul256, numL, hk, Nat.add_sub_cancel]
      have hpend2 : (e.cache + 1) * 256 ^ (k + 1) =
          (e.cache * 256 ^ k + 256 ^ k) * 256 := by
        rw [show (256 : Nat) ^ (k + 1) = 256 ^ k * 256 by ring]
        ring
      rw [hpend2]
      omega
    · simp [hk]
    · -- capacity
      simp only [pendV, pending, mod32_mul256, hk, Nat.add_sub_cancel]
      have hpend2 : (e.cache + 1) * 256 ^ (k + 1) =
          (e.cache * 256 ^ k + 256 ^ k) * 256 := by
        rw [show (256 : Nat) ^ (k + 1) = 256 ^ k * 256 by ring]
        ring
      rw [hpend2]
      have hpow2 : (256 : Nat) ^ (k + 1 + 1) = 256 ^ k * 65536 := by ring
      rw [hpow2]
      have h8 := hcap
      unfold pendV pending at h8
      rw [hk, Nat.add_sub_cancel] at h8
      have h9 : (256 : Nat) ^ (k + 1) = 256 ^ k * 256 := by ring
      rw [h9] at h8
      rw [hfact] at h8
      omega

theorem shiftLow_cap (e : EncSt) (R : Nat) (hR : R < 2 ^ 24) (hR1 : 1 ≤ R)
    (hcs : 1 ≤ e.cacheSize) (hJR : e.low + R ≤ 2 ^ 33)
    (hcapR : pendV e + R ≤ 256 ^ e.cacheSize * 2 ^ 32) :
    pendV (shiftLow e) + R * 256 ≤ 256 ^ (shiftLow e).cacheSize * 2 ^ 32 := by
  obtain ⟨k, hk⟩ : ∃ k, e.cacheSize = k + 1 := ⟨e.cacheSize - 1, by omega⟩
  have hP1 : 1 ≤ (256 : Nat) ^ k := Nat.one_le_pow _ _ (by norm_num)
  have hfact : (e.cache + 1) * 256 ^ k = e.cache * 256 ^ k + 256 ^ k := by ring
  unfold shiftLow
  by_cases hc : e.low < 0xFF000000 ∨ e.low / 2 ^ 32 ≠ 0
  · rw [if_pos hc]
    simp only [pendV, pending, mod32_mul256, pow_zero, mul_one]
    by_cases hcar : e.low < 2 ^ 32
    · have htople : e.low % 2 ^ 32 = e.low := Nat.mod_eq_of_lt hcar
      rw [htople]
      rcases hc with hlt | hne
      · have htop : e.low / 2 ^ 24 ≤ 254 := by omega
        have hdm : 2 ^ 24 * (e.low / 2 ^ 24) + e.low % 2 ^ 24 = e.low :=
          Nat.div_add_mod _ _
        omega
      · exact absurd (by rw [Nat.div_eq_of_lt hcar]) hne
    · have hdm : 2 ^ 24 * (e.low % 2 ^ 32 / 2 ^ 24) + e.low % 2 ^ 32 % 2 ^ 24 =
          e.low % 2 ^ 32 := Nat.div_add_mod _ _
      have hm24 : e.low % 2 ^ 32 % 2 ^ 24 = e.low % 2 ^ 24 := by omega
      have hm32 : e.low % 2 ^ 32 = e.low - 2 ^ 32 := by omega
      omega
  · rw [if_neg hc]
    push_neg at hc
    obtain ⟨hge, hdiv0⟩ := hc
    have hlt32 : e.low < 2 ^ 32 := by omega
    have htopff : e.low / 2 ^ 24 = 255 := by omega
    have hdm : 2 ^ 24 * (e.low / 2 ^ 24) + e.low % 2 ^ 24 = e.low :=
      Nat.div_add_mod _ _
    simp only [pendV, pending, mod32_mul256, hk, Nat.add_sub_cancel]
    have hpend2 : (e.cache + 1) * 256 ^ (k + 1) =
        (e.cache * 256 ^ k + 256 ^ k) * 256 := by
      rw [show (256 : Nat) ^ (k + 1) = 256 ^ k * 256 by ring]
      ring
    rw [hpend2]
    have hpow2 : (256 : Nat) ^ (k + 1 + 1) = 256 ^ k * 65536 := by ring
    rw [hpow2]
    have h8 := hcapR
    unfold pendV pending at h8
    rw [hk, Nat.add_sub_cancel] at h8
    rw [show (256 : Nat) ^ (k + 1) = 256 ^ k * 256 by ring] at h8
    rw [hfact] at h8
    omega

theorem flushLoop_spec : ∀ (n : Nat) (e : EncSt), 1 ≤ e.cacheSize →
    e.cache < 256 → e.low < 2 ^ 33 → pendV e < 256 ^ e.cacheSize * 2 ^ 32 →
    ∃ bs, (flushLoop n e).out = e.out ++ bs ∧
      bs.length + (flushLoop n e).cacheSize = e.cacheSize + n ∧
      (∀ b ∈ bs, b < 256) ∧
      numL bs * (256 ^ (flushLoop n e).cacheSize * 2 ^ 32) +
          pendV (flushLoop n e) = 256 ^ n * pendV e ∧
      1 ≤ (flushLoop n e).cacheSize ∧ (flushLoop n e).cache < 256 ∧
      pendV (flushLoop n e) < 256 ^ (flushLoop n e).cacheSize * 2 ^ 32 := by
  intro n
  induction n with
  | zero =>
      intro e h1 h2 h3 h4
      refine ⟨[], ?_, ?_, ?_, ?_, h1, h2, h4⟩
      · simp [flushLoop]
      · simp [flushLoop]
      · intro b hb
        cases hb
      · simp [flushLoop, numL]
  | succ m ih =>
      intro e h1 h2 h3 h4
      obtain ⟨d1, hout1, hlen1, hb1, hv1, hcs1, hcache1, hcap1⟩ :=
        shiftLow_spec e h1 h2 h3 h4
      have hlow1 : (shiftLow e).low < 2 ^ 33 := by
        rw [shiftLow_low]
        have := Nat.mod_lt e.low (show 0 < 2 ^ 24 by norm_num)
        omega
      obtain ⟨bs2, hout2, hlen2, hb2, hv2, hcsF, hcacheF, hcapF⟩ :=
        ih (shiftLow e) hcs1 hcache1 hlow1 hcap1
      have hstep : flushLoop (m + 1) e = flushLoop m (shiftLow e) := by
        simp only [flushLoop]
      rw [hstep]
      refine ⟨d1 ++ bs2, ?_, ?_, ?_, ?_, hcsF, hcacheF, hcapF⟩
      · rw [hout2, hout1, List.append_assoc]
      · rw [List.length_append]
        omega
      · intro b hb
        rcases List.mem_append.mp hb with h | h
        · exact hb1 b h
        · exact hb2 b h
      · have hsum : bs2.length + (flushLoop m (shiftLow e)).cacheSize =
            (shiftLow e).cacheSize + m := hlen2
        calc numL (d1 ++ bs2) *
              (256 ^ (flushLoop m (shiftLow e)).cacheSize * 2 ^ 32) +
              pendV (flushLoop m (shiftLow e))
            = numL d1 * 256 ^ (bs2.length + (flushLoop m (shiftLow e)).cacheSize) *
                2 ^ 32 +
                (numL bs2 * (256 ^ (flushLoop m (shiftLow e)).cacheSize * 2 ^ 32) +
                  pendV (flushLoop m (shiftLow e))) := by
              rw [numL_append, pow_add]
              ring
          _ = numL d1 * 256 ^ ((shiftLow e).cacheSize + m) * 2 ^ 32 +
                256 ^ m * pendV (shiftLow e) := by rw [hsum, hv2]
          _ = 256 ^ m * (numL d1 * (256 ^ (shiftLow e).cacheSize * 2 ^ 32) +
                pendV (shiftLow e)) := by
              rw [pow_add]
              ring
          _ = 256 ^ m * (256 * pendV e) := by rw [hv1]
          _ = 256 ^ (m + 1) * pendV e := by
              rw [pow_succ]
              ring

theorem flushLoop5_final (e : EncSt) :
    (flushLoop 5 e).cacheSize = 1 ∧ pendV (flushLoop 5 e) = 0 := by
  have h5 : flushLoop 5 e =
      shiftLow (shiftLow (shiftLow (shiftLow (shiftLow e)))) := by
    simp [flushLoop]
  have l1 := shiftLow_low e
  have l2 := shiftLow_low (shiftLow e)
  have l3 := shiftLow_low (shiftLow (shiftLow e))
  have l4 := shiftLow_low (shiftLow (shiftLow (shiftLow e)))
  have hz : (shiftLow (shiftLow (shiftLow (shiftLow e)))).low = 0 := by
    rw [l4, l3, l2, l1]
    omega
  rw [h5]
  have hcond : (shiftLow (shiftLow (shiftLow (shiftLow e)))).low < 0xFF000000 ∨
      (shiftLow (shiftLow (shiftLow (shiftLow e)))).low / 2 ^ 32 ≠ 0 :=
    Or.inl (by rw [hz]; norm_num)
  constructor
  · conv_lhs => rw [shiftLow]
    rw [if_pos hcond]
  · unfold pendV pending
    conv_lhs => rw [shiftLow]
    rw [if_pos hcond]
    simp [hz]

theorem div_helper1 (A nt P : Nat) (h : nt < P) : (A * P + nt) / P = A := by
  have hp : 0 < P := lt_of_le_of_lt (Nat.zero_le _) h
  rw [Nat.mul_comm, Nat.mul_add_div hp, Nat.div_eq_of_lt h, Nat.add_zero]

theorem div_helper2 (C G Q : Nat) (hq : 0 < Q) : (C * Q + G) / Q = C + G / Q := by
  rw [Nat.mul_comm, Nat.mul_add_div hq]

theorem pendV_withRange (e : EncSt) (r : Nat) :
    pendV { e with range := r } = pendV e := rfl

theorem cacheSize_withRange (e : EncSt) (r : Nat) :
    ({ e with range := r } : EncSt).cacheSize = e.cacheSize := rfl

theorem out_withRange (e : EncSt) (r : Nat) :
    ({ e with range := r } : EncSt).out = e.out := rfl

theorem sync_shift (e : EncSt) (d : DecSt) (tb : List Nat) (m G : Nat)
    (hinv : SyncInv e d tb m G) (hlt : e.range < 2 ^ 24) (hr1 : 1 ≤ e.range)
    (hm : 6 ≤ m) :
    ∃ b t, d.input = b :: t ∧
      SyncInv (shiftLow { e with range := e.range * 256 % 2 ^ 32 })
        ⟨e.range * 256 % 2 ^ 32, Nat.lor (d.code * 256 % 2 ^ 32) b, t⟩
        (tb.drop (e.cacheSize + 1 -
          (shiftLow { e with range := e.range * 256 % 2 ^ 32 }).cacheSize))
        (m - 1) G := by
  obtain ⟨hcs, hcache, hJ, hr32, hK, htb, hlen, hval, hG, hdr, hdc, hdi⟩ := hinv
  obtain ⟨mm, rfl⟩ : ∃ mm, m = mm + 6 := ⟨m - 6, by omega⟩
  have hrho : e.range * 256 % 2 ^ 32 = e.range * 256 := by
    have : e.range * 256 < 2 ^ 32 := by omega
    exact Nat.mod_eq_of_lt this
  have hlow : e.low < 2 ^ 33 := by omega
  have hcap : pendV e < 256 ^ e.cacheSize * 2 ^ 32 := by omega
  -- the shifted encoder state
  obtain ⟨dl, hout, hlend, hbd, hvd, hcs1, hcache1, hcap1⟩ :=
    shiftLow_spec { e with range := e.range * 256 % 2 ^ 32 } hcs hcache hlow hcap
  have hvd : numL dl *
        (256 ^ (shiftLow { e with range := e.range * 256 % 2 ^ 32 }).cacheSize *
          2 ^ 32) +
      pendV (shiftLow { e with range := e.range * 256 % 2 ^ 32 }) =
      256 * pendV e := hvd
  have hlend : dl.length +
      (shiftLow { e with range := e.range * 256 % 2 ^ 32 }).cacheSize =
      e.cacheSize + 1 := hlend
  have hout : (shiftLow { e with range := e.range * 256 % 2 ^ 32 }).out =
      e.out ++ dl := hout
  have hKd := shiftLow_cap { e with range := e.range * 256 % 2 ^ 32 } e.range
    hlt hr1 hcs hJ hK
  have hrange1 :
      (shiftLow { e with range := e.range * 256 % 2 ^ 32 }).range =
        e.range * 256 := by
    rw [shiftLow_range]
    exact hrho
  have hlow1 :
      (shiftLow { e with range := e.range * 256 % 2 ^ 32 }).low =
        e.low % 2 ^ 24 * 256 :=
    shiftLow_low _
  -- decompose the decoder input
  have hlen_tb : tb.length = mm + 5 + e.cacheSize := by omega
  have hdi_len : d.input.length = mm + 1 := by
    rw [hdi, List.length_drop]
    omega
  obtain ⟨b, t, hbt⟩ : ∃ b t, d.input = b :: t := by
    cases hI : d.input with
    | nil => rw [hI] at hdi_len; simp at hdi_len
    | cons b t => exact ⟨b, t, rfl⟩
  refine ⟨b, t, hbt, ?_⟩
  have hdrop : tb.drop (e.cacheSize + 4) = b :: t := by rw [← hdi, hbt]
  have ht_len : t.length = mm := by
    have h0 := congrArg List.length hdrop
    rw [List.length_drop] at h0
    simp only [List.length_cons] at h0
    omega
  have htk : tb.take (e.cacheSize + 4) ++ (b :: t) = tb := by
    rw [← hdrop, List.take_append_drop]
  have hXlen : (tb.take (e.cacheSize + 4)).length = e.cacheSize + 4 := by
    rw [List.length_take]
    omega
  have hb256 : b < 256 :=
    htb b (List.drop_subset _ tb (hdrop ▸ List.mem_cons_self b t))
  have hnt : numL t < 256 ^ mm := by
    have h0 := numL_lt t (fun a ha =>
      htb a (List.drop_subset _ tb (hdrop ▸ List.mem_cons_of_mem b ha)))
    rw [ht_len] at h0
    exact h0
  have htb_val : numL tb =
      (numL (tb.take (e.cacheSize + 4)) * 256 + b) * 256 ^ mm + numL t := by
    conv_lhs => rw [← htk]
    rw [numL_append, numL, ht_len]
    simp only [List.length_cons, ht_len]
    rw [pow_succ]
    ring
  have hpow40 : (2 : Nat) ^ 40 = 256 ^ 5 := by norm_num
  have hQ1 : (256 : Nat) ^ (mm + 5) = 256 ^ mm * 2 ^ 40 := by
    rw [hpow40]
    ring
  have hdivtb : numL tb / 256 ^ mm = numL (tb.take (e.cacheSize + 4)) * 256 + b := by
    rw [htb_val]
    exact div_helper1 _ _ _ hnt
  have hdiv2 : numL tb / 256 ^ mm = pendV e * 256 + G / 256 ^ (mm + 5) := by
    have h0 : (0 : Nat) < 2 ^ 40 := by norm_num
    have h1 : numL tb / 256 ^ mm = numL tb * 2 ^ 40 / (256 ^ mm * 2 ^ 40) :=
      (Nat.mul_div_mul_right _ _ h0).symm
    rw [h1, hval, ← hQ1]
    have h2 : pendV e * 256 ^ (mm + 6) = pendV e * 256 * 256 ^ (mm + 5) := by
      ring
    rw [h2]
    exact div_helper2 _ _ _ (pow_pos (by norm_num) _)
  have hq56 : G / 256 ^ (mm + 5) / 256 = G / 256 ^ (mm + 6) := by
    rw [Nat.div_div_eq_div_mul, ← pow_succ]
  have hsplitkey : numL (tb.take (e.cacheSize + 4)) * 256 + b =
      (pendV e + G / 256 ^ (mm + 6)) * 256 + G / 256 ^ (mm + 5) % 256 := by
    have hkey := hdivtb.symm.trans hdiv2
    have h3 := Nat.div_add_mod (G / 256 ^ (mm + 5)) 256
    rw [hq56] at h3
    omega
  have hbX := digit_cancel hsplitkey hb256 (Nat.mod_lt _ (by norm_num))
  have hcode_lt : d.code < 2 ^ 24 := by
    rw [hdc]
    have h0 : G / 256 ^ (mm + 6) < e.range :=
      (Nat.div_lt_iff_lt_mul (pow_pos (by norm_num) _)).mpr hG
    omega
  have hcode256 : d.code * 256 % 2 ^ 32 = d.code * 256 :=
    Nat.mod_eq_of_lt (by omega)
  have hcode' : Nat.lor (d.code * 256 % 2 ^ 32) b = G / 256 ^ (mm + 5) := by
    rw [hcode256, lor256_eq_add _ _ hb256, hdc, hbX.2]
    omega
  -- split the tail at the emitted bytes
  have hcs1le : (shiftLow { e with range := e.range * 256 % 2 ^ 32 }).cacheSize ≤
      e.cacheSize + 1 := by omega
  have hdl_len : dl.length =
      e.cacheSize + 1 -
        (shiftLow { e with range := e.range * 256 % 2 ^ 32 }).cacheSize := by
    omega
  have hdroplen : (tb.drop dl.length).length = mm + 4 +
      (shiftLow { e with range := e.range * 256 % 2 ^ 32 }).cacheSize := by
    rw [List.length_drop]
    omega
  have hN'lt : numL (tb.drop dl.length) < 256 ^ ((tb.drop dl.length).length) :=
    numL_lt _ (fun a ha => htb a (List.drop_subset _ tb ha))
  have htb_val2 : numL tb = numL (tb.take dl.length) *
      256 ^ (mm + 4 + (shiftLow { e with range := e.range * 256 % 2 ^ 32 }).cacheSize) +
      numL (tb.drop dl.length) := by
    conv_lhs => rw [← List.take_append_drop dl.length tb]
    rw [numL_append, hdroplen]
  have hvalQ : numL (tb.take dl.length) *
        (256 ^ (mm + 4 + (shiftLow { e with range := e.range * 256 % 2 ^ 32 }).cacheSize) * 2 ^ 40) +
        numL (tb.drop dl.length) * 2 ^ 40 =
      numL dl *
        (256 ^ (mm + 4 + (shiftLow { e with range := e.range * 256 % 2 ^ 32 }).cacheSize) * 2 ^ 40) +
        (pendV (shiftLow { e with range := e.range * 256 % 2 ^ 32 }) * 256 ^ (mm + 5) + G) := by
    have h0 : numL tb * 2 ^ 40 = pendV e * 256 ^ (mm + 6) + G := hval
    rw [htb_val2] at h0
    have h1 : pendV e * 256 ^ (mm + 6) =
        (numL dl * (256 ^ (shiftLow { e with range := e.range * 256 % 2 ^ 32 }).cacheSize * 2 ^ 32) +
          pendV (shiftLow { e with range := e.range * 256 % 2 ^ 32 })) * 256 ^ (mm + 5) := by
      rw [hvd]
      have : (256 : Nat) ^ (mm + 6) = 256 * 256 ^ (mm + 5) := by ring
      rw [this]
      ring
    rw [h1] at h0
    have h2 : (2 : Nat) ^ 40 = 256 * 2 ^ 32 := by norm_num
    calc numL (tb.take dl.length) *
          (256 ^ (mm + 4 + (shiftLow { e with range := e.range * 256 % 2 ^ 32 }).cacheSize) * 2 ^ 40) +
          numL (tb.drop dl.length) * 2 ^ 40
        = (numL (tb.take dl.length) *
            256 ^ (mm + 4 + (shiftLow { e with range := e.range * 256 % 2 ^ 32 }).cacheSize) +
            numL (tb.drop dl.length)) * 2 ^ 40 := by ring
      _ = (numL dl * (256 ^ (shiftLow { e with range := e.range * 256 % 2 ^ 32 }).cacheSize * 2 ^ 32) +
            pendV (shiftLow { e with range := e.range * 256 % 2 ^ 32 })) * 256 ^ (mm + 5) + G := h0
      _ = numL dl *
            (256 ^ (mm + 4 + (shiftLow { e with range := e.range * 256 % 2 ^ 32 }).cacheSize) * 2 ^ 40) +
            (pendV (shiftLow { e with range := e.range * 256 % 2 ^ 32 }) * 256 ^ (mm + 5) + G) := by
          rw [h2, pow_add, pow_add]
          ring
  have hr2bound : pendV (shiftLow { e with range := e.range * 256 % 2 ^ 32 }) * 256 ^ (mm + 5) + G <
      256 ^ (mm + 4 + (shiftLow { e with range := e.range * 256 % 2 ^ 32 }).cacheSize) * 2 ^ 40 := by
    have h0 : G < e.range * 256 * 256 ^ (mm + 5) := by
      have : e.range * 256 ^ (mm + 6) = e.range * 256 * 256 ^ (mm + 5) := by ring
      omega
    have h1 : pendV (shiftLow { e with range := e.range * 256 % 2 ^ 32 }) * 256 ^ (mm + 5) + G <
        (pendV (shiftLow { e with range := e.range * 256 % 2 ^ 32 }) + e.range * 256) * 256 ^ (mm + 5) := by
      have hexp : (pendV (shiftLow { e with range := e.range * 256 % 2 ^ 32 }) + e.range * 256) * 256 ^ (mm + 5) =
          pendV (shiftLow { e with range := e.range * 256 % 2 ^ 32 }) * 256 ^ (mm + 5) +
            e.range * 256 * 256 ^ (mm + 5) := by ring
      omega
    have h2 : (pendV (shiftLow { e with range := e.range * 256 % 2 ^ 32 }) + e.range * 256) * 256 ^ (mm + 5) ≤
        256 ^ (shiftLow { e with range := e.range * 256 % 2 ^ 32 }).cacheSize * 2 ^ 32 * 256 ^ (mm + 5) :=
      Nat.mul_le_mul_right _ hKd
    have h3 : 256 ^ (shiftLow { e with range := e.range * 256 % 2 ^ 32 }).cacheSize * 2 ^ 32 * 256 ^ (mm + 5) =
        256 ^ (mm + 4 + (shiftLow { e with range := e.range * 256 % 2 ^ 32 }).cacheSize) * 2 ^ 40 := by
      rw [show (2:Nat) ^ 40 = 256 * 2 ^ 32 by norm_num, pow_add, pow_add]
      ring
    omega
  have hr1bound : numL (tb.drop dl.length) * 2 ^ 40 <
      256 ^ (mm + 4 + (shiftLow { e with range := e.range * 256 % 2 ^ 32 }).cacheSize) * 2 ^ 40 := by
    rw [hdroplen] at hN'lt
    exact (Nat.mul_lt_mul_right (by norm_num)).mpr hN'lt
  have hval' := (digit_cancel hvalQ hr1bound hr2bound).2
  -- assemble the new invariant
  have hm1 : mm + 6 - 1 = mm + 5 := by omega
  rw [hm1, ← hdl_len]
  refine ⟨hcs1, hcache1, ?_, ?_, ?_, ?_, ?_, ?_, ?_, ?_, ?_, ?_⟩
  · rw [hlow1, hrange1]
    have := Nat.mod_lt e.low (show 0 < 2 ^ 24 by norm_num)
    omega
  · rw [hrange1]
    omega
  · rw [hrange1]
    exact hKd
  · intro a ha
    exact htb a (List.drop_subset _ tb ha)
  · rw [List.length_drop]
    omega
  · exact hval'
  · rw [hrange1]
    have : e.range * 256 ^ (mm + 6) = e.range * 256 * 256 ^ (mm + 5) := by ring
    omega
  · show e.range * 256 % 2 ^ 32 =
      (shiftLow { e with range := e.range * 256 % 2 ^ 32 }).range
    rw [hrange1, hrho]
  · exact hcode'
  · show t = (tb.drop dl.length).drop
      ((shiftLow { e with range := e.range * 256 % 2 ^ 32 }).cacheSize + 4)
    rw [List.drop_drop]
    have h0 : dl.length +
        ((shiftLow { e with range := e.range * 256 % 2 ^ 32 }).cacheSize + 4) =
        e.cacheSize + 5 := by omega
    rw [h0]
    have h1 : tb.drop (e.cacheSize + 5) = (tb.drop (e.cacheSize + 4)).drop 1 := by
      rw [List.drop_drop]
    rw [h1, hdrop]
    rfl

theorem sync_norm1 (e : EncSt) (d : DecSt) (tb : List Nat) (m' G : Nat)
    (hinv : SyncInv e d tb (norm1Shifts e.range + m') G) (hm' : 5 ≤ m')
    (hr16 : 2 ^ 16 ≤ e.range) :
    ∃ d' tb', decNorm1 d = some d' ∧ SyncInv (encNorm1 e) d' tb' m' G ∧
      (encNorm1 e).range = e.range * 256 ^ norm1Shifts e.range ∧
      2 ^ 24 ≤ (encNorm1 e).range := by
  by_cases h : e.range < 2 ^ 24
  · have hs : norm1Shifts e.range = 1 := by
      unfold norm1Shifts
      rw [if_pos h]
    rw [hs] at hinv
    obtain ⟨b, t, hbt, hinv'⟩ :=
      sync_shift e d tb (1 + m') G hinv h (by omega) (by omega)
    have hm1 : 1 + m' - 1 = m' := by omega
    rw [hm1] at hinv'
    have henc : encNorm1 e = shiftLow { e with range := e.range * 256 % 2 ^ 32 } := by
      unfold encNorm1
      rw [if_pos h]
    have hdec : decNorm1 d =
        some ⟨e.range * 256 % 2 ^ 32, Nat.lor (d.code * 256 % 2 ^ 32) b, t⟩ := by
      unfold decNorm1
      rw [hinv.hdr, if_pos h, hbt]
    rw [henc]
    refine ⟨_, _, hdec, hinv', ?_, ?_⟩
    · rw [shiftLow_range, hs, pow_one]
      show e.range * 256 % 2 ^ 32 = e.range * 256
      exact Nat.mod_eq_of_lt (by omega)
    · rw [shiftLow_range]
      show 2 ^ 24 ≤ e.range * 256 % 2 ^ 32
      have h9 : e.range * 256 % 2 ^ 32 = e.range * 256 := Nat.mod_eq_of_lt (by omega)
      omega
  · have hs : norm1Shifts e.range = 0 := by
      unfold norm1Shifts
      rw [if_neg h]
    rw [hs, Nat.zero_add] at hinv
    refine ⟨d, tb, ?_, ?_, ?_, ?_⟩
    · unfold decNorm1
      rw [hinv.hdr, if_neg h]
    · show SyncInv (encNorm1 e) d tb m' G
      unfold encNorm1
      rw [if_neg h]
      exact hinv
    · unfold encNorm1
      rw [if_neg h, hs, pow_zero, Nat.mul_one]
    · unfold encNorm1
      rw [if_neg h]
      omega

theorem sync_normR (e : EncSt) (d : DecSt) (tb : List Nat) (m' G : Nat)
    (hinv : SyncInv e d tb (normRShifts e.range + m') G) (hm' : 5 ≤ m')
    (hr10 : 2 ^ 10 ≤ e.range) :
    ∃ d' tb', decNormR d = some d' ∧ SyncInv (encNormR e) d' tb' m' G ∧
      (encNormR e).range = e.range * 256 ^ normRShifts e.range ∧
      2 ^ 24 ≤ (encNormR e).range := by
  by_cases h : e.range < 2 ^ 24
  · have hrho : e.range * 256 % 2 ^ 32 = e.range * 256 :=
      Nat.mod_eq_of_lt (by omega)
    have he1r : (shiftLow { e with range := e.range * 256 % 2 ^ 32 }).range =
        e.range * 256 := by
      rw [shiftLow_range]
      exact hrho
    by_cases h2 : e.range * 256 < 2 ^ 24
    · -- two shifts
      have hs : normRShifts e.range = 2 := by
        unfold normRShifts
        rw [if_pos h, if_pos h2]
      rw [hs] at hinv
      obtain ⟨b, t, hbt, hinv1⟩ :=
        sync_shift e d tb (2 + m') G hinv h (by omega) (by omega)
      have hm1 : 2 + m' - 1 = 1 + m' := by omega
      rw [hm1] at hinv1
      have hlt1 : (shiftLow { e with range := e.range * 256 % 2 ^ 32 }).range <
          2 ^ 24 := by
        rw [he1r]
        exact h2
      obtain ⟨b2, t2, hbt2, hinv2⟩ :=
        sync_shift (shiftLow { e with range := e.range * 256 % 2 ^ 32 })
          ⟨e.range * 256 % 2 ^ 32, Nat.lor (d.code * 256 % 2 ^ 32) b, t⟩
          (tb.drop (e.cacheSize + 1 -
            (shiftLow { e with range := e.range * 256 % 2 ^ 32 }).cacheSize))
          (1 + m') G hinv1 hlt1 (by rw [he1r]; omega) (by omega)
      have hm2 : 1 + m' - 1 = m' := by omega
      rw [hm2] at hinv2
      have henc : encNormR e =
          shiftLow { shiftLow { e with range := e.range * 256 % 2 ^ 32 } with
            range := (shiftLow { e with range := e.range * 256 % 2 ^ 32 }).range *
              256 % 2 ^ 32 } := by
        unfold encNormR
        rw [if_pos h]
        dsimp only
        rw [if_pos hlt1]
      have ht2 : t = b2 :: t2 := hbt2
      have hdec : decNormR d =
          some ⟨(shiftLow { e with range := e.range * 256 % 2 ^ 32 }).range *
              256 % 2 ^ 32,
            Nat.lor (Nat.lor (d.code * 256 % 2 ^ 32) b * 256 % 2 ^ 32) b2, t2⟩ := by
        unfold decNormR
        rw [hinv.hdr, if_pos h, hbt]
        dsimp only
        rw [ht2]
        have hd1r : e.range * 256 % 2 ^ 32 < 2 ^ 24 := by
          rw [hrho]
          exact h2
        rw [if_pos hd1r]
        dsimp only
        rw [he1r, hrho]
      rw [henc]
      refine ⟨_, _, hdec, hinv2, ?_, ?_⟩
      · rw [shiftLow_range]
        show (shiftLow { e with range := e.range * 256 % 2 ^ 32 }).range * 256 %
            2 ^ 32 = e.range * 256 ^ normRShifts e.range
        rw [he1r, hs]
        have : e.range * 256 * 256 % 2 ^ 32 = e.range * 256 * 256 :=
          Nat.mod_eq_of_lt (by omega)
        rw [this]
        ring
      · rw [shiftLow_range]
        show 2 ^ 24 ≤ (shiftLow { e with range := e.range * 256 % 2 ^ 32 }).range *
            256 % 2 ^ 32
        rw [he1r]
        have : e.range * 256 * 256 % 2 ^ 32 = e.range * 256 * 256 :=
          Nat.mod_eq_of_lt (by omega)
        omega
    · -- one shift
      have hs : normRShifts e.range = 1 := by
        unfold normRShifts
        rw [if_pos h, if_neg h2]
      rw [hs] at hinv
      obtain ⟨b, t, hbt, hinv1⟩ :=
        sync_shift e d tb (1 + m') G hinv h (by omega) (by omega)
      have hm1 : 1 + m' - 1 = m' := by omega
      rw [hm1] at hinv1
      have hge1 : ¬ (shiftLow { e with range := e.range * 256 % 2 ^ 32 }).range <
          2 ^ 24 := by
        rw [he1r]
        exact h2
      have henc : encNormR e =
          shiftLow { e with range := e.range * 256 % 2 ^ 32 } := by
        unfold encNormR
        rw [if_pos h]
        dsimp only
        rw [if_neg hge1]
      have hdec : decNormR d =
          some ⟨e.range * 256 % 2 ^ 32, Nat.lor (d.code * 256 % 2 ^ 32) b, t⟩ := by
        unfold decNormR
        rw [hinv.hdr, if_pos h, hbt]
        dsimp only
        have hd1r : ¬ e.range * 256 % 2 ^ 32 < 2 ^ 24 := by
          rw [hrho]
          exact h2
        rw [if_neg hd1r]
      rw [henc]
      refine ⟨_, _, hdec, hinv1, ?_, ?_⟩
      · rw [he1r, hs, pow_one]
      · rw [he1r]
        omega
  · -- no shift
    have hs : normRShifts e.range = 0 := by
      unfold normRShifts
      rw [if_neg h]
    rw [hs, Nat.zero_add] at hinv
    have henc : encNormR e = e := by
      unfold encNormR
      rw [if_neg h]
    have hdec : decNormR d = some d := by
      unfold decNormR
      rw [hinv.hdr, if_neg h]
    rw [henc]
    refine ⟨d, tb, hdec, hinv, ?_, ?_⟩
    · rw [hs, pow_zero, Nat.mul_one]
    · omega

theorem encStep_fin (e : EncSt) (start freq total : Nat) :
    encStep e (.fin start freq total) =
      encNormR
        { e with
          low := (e.low + start * (e.range / total) % 2 ^ 32) % 2 ^ 64
          range := e.range / total * freq % 2 ^ 32 } := rfl

theorem encStep_bit0 (e : EncSt) (pr : Nat) :
    encStep e (.bit0 pr) =
      encNorm1 { e with range := e.range / 2 ^ 14 * pr % 2 ^ 32 } := rfl

theorem encStep_bit1 (e : EncSt) (pr : Nat) :
    encStep e (.bit1 pr) =
      encNormR
        { e with
          low := (e.low + e.range / 2 ^ 14 * pr % 2 ^ 32) % 2 ^ 64
          range := (e.range + 2 ^ 32 - e.range / 2 ^ 14 * pr % 2 ^ 32) % 2 ^ 32 } :=
  rfl

theorem encNorm1_range (e : EncSt) (h16 : 2 ^ 16 ≤ e.range)
    (h32 : e.range < 2 ^ 32) :
    (encNorm1 e).range = e.range * 256 ^ norm1Shifts e.range ∧
      2 ^ 24 ≤ (encNorm1 e).range ∧ (encNorm1 e).range < 2 ^ 32 := by
  unfold encNorm1 norm1Shifts
  by_cases h : e.range < 2 ^ 24
  · rw [if_pos h, if_pos h, shiftLow_range]
    have hrho : e.range * 256 % 2 ^ 32 = e.range * 256 :=
      Nat.mod_eq_of_lt (by omega)
    show e.range * 256 % 2 ^ 32 = e.range * 256 ^ 1 ∧
      2 ^ 24 ≤ e.range * 256 % 2 ^ 32 ∧ e.range * 256 % 2 ^ 32 < 2 ^ 32
    rw [hrho, pow_one]
    omega
  · rw [if_neg h, if_neg h, pow_zero, Nat.mul_one]
    omega

theorem encNormR_range (e : EncSt) (h10 : 2 ^ 10 ≤ e.range)
    (h32 : e.range < 2 ^ 32) :
    (encNormR e).range = e.range * 256 ^ normRShifts e.range ∧
      2 ^ 24 ≤ (encNormR e).range ∧ (encNormR e).range < 2 ^ 32 := by
  unfold encNormR normRShifts
  by_cases h : e.range < 2 ^ 24
  · have hrho : e.range * 256 % 2 ^ 32 = e.range * 256 :=
      Nat.mod_eq_of_lt (by omega)
    have he1r : (shiftLow { e with range := e.range * 256 % 2 ^ 32 }).range =
        e.range * 256 := by
      rw [shiftLow_range]
      exact hrho
    by_cases h2 : e.range * 256 < 2 ^ 24
    · rw [if_pos h, if_pos h, if_pos h2]
      dsimp only
      rw [if_pos (by rw [he1r]; exact h2), shiftLow_range]
      show (shiftLow { e with range := e.range * 256 % 2 ^ 32 }).range * 256 %
            2 ^ 32 = e.range * 256 ^ 2 ∧
          2 ^ 24 ≤ (shiftLow { e with range := e.range * 256 % 2 ^ 32 }).range *
            256 % 2 ^ 32 ∧
          (shiftLow { e with range := e.range * 256 % 2 ^ 32 }).range * 256 %
            2 ^ 32 < 2 ^ 32
      rw [he1r]
      have hr2 : e.range * 256 * 256 % 2 ^ 32 = e.range * 256 * 256 :=
        Nat.mod_eq_of_lt (by omega)
      rw [hr2]
      refine ⟨by ring, by omega, by omega⟩
    · rw [if_pos h, if_pos h, if_neg h2]
      dsimp only
      rw [if_neg (by rw [he1r]; exact h2), he1r, pow_one]
      omega
  · rw [if_neg h, if_neg h, pow_zero, Nat.mul_one]
    omega

theorem traceM_ge5 : ∀ (ops : List RcOp) (e : EncSt), 5 ≤ traceM ops e := by
  intro ops
  induction ops with
  | nil => intro e; simp [traceM]
  | cons op rest ih =>
      intro e
      have := ih (encStep e op)
      simp only [traceM]
      omega

theorem sub32_eq (a b : Nat) (h : b ≤ a) (h2 : a < 2 ^ 32) :
    (a + 2 ^ 32 - b) % 2 ^ 32 = a - b := by
  omega

theorem fin_arith (e : EncSt) (start freq total : Nat) (hr24 : 2 ^ 24 ≤ e.range)
    (h32 : e.range < 2 ^ 32) (hf : 1 ≤ freq) (hsf : start + freq ≤ total)
    (ht : total ≤ 2 ^ 14) :
    2 ^ 10 ≤ e.range / total ∧
      start * (e.range / total) + e.range / total * freq ≤ e.range ∧
      start * (e.range / total) % 2 ^ 32 = start * (e.range / total) ∧
      e.range / total * freq % 2 ^ 32 = e.range / total * freq ∧
      2 ^ 10 ≤ e.range / total * freq := by
  have htot1 : 1 ≤ total := by omega
  have hr10 : 2 ^ 10 ≤ e.range / total := by
    have h0 : (2 : Nat) ^ 24 / 2 ^ 14 ≤ e.range / total :=
      Nat.div_le_div hr24 ht (by omega)
    norm_num at h0
    exact h0
  have hmul : (start + freq) * (e.range / total) ≤ total * (e.range / total) :=
    Nat.mul_le_mul_right _ hsf
  have hdiv : total * (e.range / total) ≤ e.range := Nat.mul_div_le e.range total
  have hsum : start * (e.range / total) + e.range / total * freq =
      (start + freq) * (e.range / total) := by ring
  have hboth : start * (e.range / total) + e.range / total * freq ≤ e.range := by
    omega
  refine ⟨hr10, hboth, Nat.mod_eq_of_lt (by omega), Nat.mod_eq_of_lt (by omega), ?_⟩
  calc (2 : Nat) ^ 10 ≤ e.range / total := hr10
    _ = e.range / total * 1 := by ring
    _ ≤ e.range / total * freq := Nat.mul_le_mul_left _ hf

theorem bit0_arith (e : EncSt) (pr : Nat) (hr24 : 2 ^ 24 ≤ e.range)
    (h32 : e.range < 2 ^ 32) (hp1 : 2 ^ 6 ≤ pr) (hp2 : pr ≤ 2 ^ 14) :
    e.range / 2 ^ 14 * pr ≤ e.range ∧
      e.range / 2 ^ 14 * pr % 2 ^ 32 = e.range / 2 ^ 14 * pr ∧
      2 ^ 16 ≤ e.range / 2 ^ 14 * pr := by
  have h10 : 2 ^ 10 ≤ e.range / 2 ^ 14 := by
    have h0 : (2 : Nat) ^ 24 / 2 ^ 14 ≤ e.range / 2 ^ 14 :=
      Nat.div_le_div hr24 (le_refl _) (by norm_num)
    norm_num at h0
    exact h0
  have hle : e.range / 2 ^ 14 * pr ≤ e.range / 2 ^ 14 * 2 ^ 14 :=
    Nat.mul_le_mul_left _ hp2
  have hdiv : e.range / 2 ^ 14 * 2 ^ 14 ≤ e.range := Nat.div_mul_le_self _ _
  refine ⟨by omega, Nat.mod_eq_of_lt (by omega), ?_⟩
  calc (2 : Nat) ^ 16 = 2 ^ 10 * 2 ^ 6 := by norm_num
    _ ≤ e.range / 2 ^ 14 * pr := Nat.mul_le_mul h10 hp1

theorem bit1_arith (e : EncSt) (pr : Nat) (hr24 : 2 ^ 24 ≤ e.range)
    (h32 : e.range < 2 ^ 32) (hp1 : 1 ≤ pr) (hp2 : pr < 2 ^ 14) :
    e.range / 2 ^ 14 * pr % 2 ^ 32 = e.range / 2 ^ 14 * pr ∧
      e.range / 2 ^ 14 * pr + 2 ^ 10 ≤ e.range ∧
      1 ≤ e.range / 2 ^ 14 * pr := by
  have h10 : 2 ^ 10 ≤ e.range / 2 ^ 14 := by
    have h0 : (2 : Nat) ^ 24 / 2 ^ 14 ≤ e.range / 2 ^ 14 :=
      Nat.div_le_div hr24 (le_refl _) (by norm_num)
    norm_num at h0
    exact h0
  have hle : e.range / 2 ^ 14 * pr ≤ e.range / 2 ^ 14 * (2 ^ 14 - 1) :=
    Nat.mul_le_mul_left _ (by omega)
  have hexp : e.range / 2 ^ 14 * (2 ^ 14 - 1) + e.range / 2 ^ 14 =
      e.range / 2 ^ 14 * 2 ^ 14 := by
    have : (2 : Nat) ^ 14 - 1 + 1 = 2 ^ 14 := by norm_num
    calc e.range / 2 ^ 14 * (2 ^ 14 - 1) + e.range / 2 ^ 14 =
        e.range / 2 ^ 14 * (2 ^ 14 - 1 + 1) := by ring
      _ = e.range / 2 ^ 14 * 2 ^ 14 := by rw [this]
  have hdiv : e.range / 2 ^ 14 * 2 ^ 14 ≤ e.range := Nat.div_mul_le_self _ _
  have hp0 : 1 * 1 ≤ e.range / 2 ^ 14 * pr :=
    Nat.mul_le_mul (by omega) hp1
  refine ⟨Nat.mod_eq_of_lt (by omega), by omega, by omega⟩

theorem traceF_lt : ∀ (ops : List RcOp) (e : EncSt), validOps ops = true →
    2 ^ 24 ≤ e.range → e.range < 2 ^ 32 →
    traceF ops e < e.range * 256 ^ traceM ops e := by
  intro ops
  induction ops with
  | nil =>
      intro e _ hr24 h32
      simp only [traceF, traceM]
      positivity
  | cons op rest ih =>
      intro e hv hr24 h32
      have hv2 : validOp op = true ∧ validOps rest = true := by
        simp only [validOps, List.all_cons, Bool.and_eq_true] at hv
        exact hv
      simp only [traceF, traceM]
      cases op with
      | fin start freq total =>
          obtain ⟨hf, hsf, ht⟩ : 1 ≤ freq ∧ start + freq ≤ total ∧
              total ≤ 2 ^ 14 := by
            have := hv2.1
            simp only [validOp, decide_eq_true_eq] at this
            exact this
          obtain ⟨hr10, hboth, hx32, hρ32, hρ10⟩ :=
            fin_arith e start freq total hr24 h32 hf hsf ht
          rw [encStep_fin]
          obtain ⟨her, her24, her32⟩ := encNormR_range
            { e with
              low := (e.low + start * (e.range / total) % 2 ^ 32) % 2 ^ 64
              range := e.range / total * freq % 2 ^ 32 }
            (by show 2 ^ 10 ≤ e.range / total * freq % 2 ^ 32; rw [hρ32]; omega)
            (by show e.range / total * freq % 2 ^ 32 < 2 ^ 32
                exact Nat.mod_lt _ (by norm_num))
          have hIH := ih _ hv2.2 her24 her32
          rw [her] at hIH
          simp only [opAdd, opShifts]
          have hsh : ({ e with
              low := (e.low + start * (e.range / total) % 2 ^ 32) % 2 ^ 64
              range := e.range / total * freq % 2 ^ 32 } : EncSt).range =
              e.range / total * freq % 2 ^ 32 := rfl
          rw [hsh] at hIH
          have hstep : start * (e.range / total) % 2 ^ 32 *
              256 ^ (normRShifts (e.range / total * freq % 2 ^ 32) +
                traceM rest (encNormR
                  { e with
                    low := (e.low + start * (e.range / total) % 2 ^ 32) % 2 ^ 64
                    range := e.range / total * freq % 2 ^ 32 })) +
              e.range / total * freq % 2 ^ 32 *
                256 ^ normRShifts (e.range / total * freq % 2 ^ 32) *
                256 ^ traceM rest (encNormR
                  { e with
                    low := (e.low + start * (e.range / total) % 2 ^ 32) % 2 ^ 64
                    range := e.range / total * freq % 2 ^ 32 }) ≤
              e.range * 256 ^ (normRShifts (e.range / total * freq % 2 ^ 32) +
                traceM rest (encNormR
                  { e with
                    low := (e.low + start * (e.range / total) % 2 ^ 32) % 2 ^ 64
                    range := e.range / total * freq % 2 ^ 32 })) := by
            rw [pow_add]
            calc start * (e.range / total) % 2 ^ 32 *
                (256 ^ normRShifts (e.range / total * freq % 2 ^ 32) *
                  256 ^ traceM rest (encNormR
                    { e with
                      low := (e.low + start * (e.range / total) % 2 ^ 32) % 2 ^ 64
                      range := e.range / total * freq % 2 ^ 32 })) +
                e.range / total * freq % 2 ^ 32 *
                  256 ^ normRShifts (e.range / total * freq % 2 ^ 32) *
                  256 ^ traceM rest (encNormR
                    { e with
                      low := (e.low + start * (e.range / total) % 2 ^ 32) % 2 ^ 64
                      range := e.range / total * freq % 2 ^ 32 }) =
                (start * (e.range / total) % 2 ^ 32 +
                    e.range / total * freq % 2 ^ 32) *
                  (256 ^ normRShifts (e.range / total * freq % 2 ^ 32) *
                    256 ^ traceM rest (encNormR
                      { e with
                        low := (e.low + start * (e.range / total) % 2 ^ 32) %
                          2 ^ 64
                        range := e.range / total * freq % 2 ^ 32 })) := by ring
              _ ≤ e.range *
                  (256 ^ normRShifts (e.range / total * freq % 2 ^ 32) *
                    256 ^ traceM rest (encNormR
                      { e with
                        low := (e.low + start * (e.range / total) % 2 ^ 32) %
                          2 ^ 64
                        range := e.range / total * freq % 2 ^ 32 })) :=
                Nat.mul_le_mul_right _ (by omega)
          exact lt_of_lt_of_le (Nat.add_lt_add_left hIH _) hstep
      | bit0 pr =>
          obtain ⟨hp1, hp2⟩ : 2 ^ 6 ≤ pr ∧ pr ≤ 2 ^ 14 := by
            have := hv2.1
            simp only [validOp, decide_eq_true_eq] at this
            exact this
          obtain ⟨hle, hb32, hb16⟩ := bit0_arith e pr hr24 h32 hp1 hp2
          rw [encStep_bit0]
          obtain ⟨her, her24, her32⟩ := encNorm1_range
            { e with range := e.range / 2 ^ 14 * pr % 2 ^ 32 }
            (by show 2 ^ 16 ≤ e.range / 2 ^ 14 * pr % 2 ^ 32; rw [hb32]; omega)
            (by show e.range / 2 ^ 14 * pr % 2 ^ 32 < 2 ^ 32
                exact Nat.mod_lt _ (by norm_num))
          have hIH := ih _ hv2.2 her24 her32
          rw [her] at hIH
          simp only [opAdd, opShifts, Nat.zero_mul, Nat.zero_add]
          have hsh : ({ e with range := e.range / 2 ^ 14 * pr % 2 ^ 32 } :
              EncSt).range = e.range / 2 ^ 14 * pr % 2 ^ 32 := rfl
          rw [hsh] at hIH
          have hmono : e.range / 2 ^ 14 * pr % 2 ^ 32 *
              256 ^ norm1Shifts (e.range / 2 ^ 14 * pr % 2 ^ 32) *
              256 ^ traceM rest (encNorm1
                { e with range := e.range / 2 ^ 14 * pr % 2 ^ 32 }) ≤
              e.range * 256 ^ (norm1Shifts (e.range / 2 ^ 14 * pr % 2 ^ 32) +
                traceM rest (encNorm1
                  { e with range := e.range / 2 ^ 14 * pr % 2 ^ 32 })) := by
            rw [pow_add]
            calc e.range / 2 ^ 14 * pr % 2 ^ 32 *
                256 ^ norm1Shifts (e.range / 2 ^ 14 * pr % 2 ^ 32) *
                256 ^ traceM rest (encNorm1
                  { e with range := e.range / 2 ^ 14 * pr % 2 ^ 32 }) =
                e.range / 2 ^ 14 * pr % 2 ^ 32 *
                  (256 ^ norm1Shifts (e.range / 2 ^ 14 * pr % 2 ^ 32) *
                    256 ^ traceM rest (encNorm1
                      { e with range := e.range / 2 ^ 14 * pr % 2 ^ 32 })) := by
                  ring
              _ ≤ e.range *
                  (256 ^ norm1Shifts (e.range / 2 ^ 14 * pr % 2 ^ 32) *
                    256 ^ traceM rest (encNorm1
                      { e with range := e.range / 2 ^ 14 * pr % 2 ^ 32 })) :=
                Nat.mul_le_mul_right _ (by omega)
          exact lt_of_lt_of_le hIH hmono
      | bit1 pr =>
          obtain ⟨hp1, hp2⟩ : 1 ≤ pr ∧ pr < 2 ^ 14 := by
            have := hv2.1
            simp only [validOp, decide_eq_true_eq] at this
            exact this
          obtain ⟨hb32, hble, hb1⟩ := bit1_arith e pr hr24 h32 hp1 hp2
          have hsub : (e.range + 2 ^ 32 - e.range / 2 ^ 14 * pr % 2 ^ 32) %
              2 ^ 32 = e.range - e.range / 2 ^ 14 * pr := by
            rw [hb32]
            omega
          rw [encStep_bit1]
          obtain ⟨her, her24, her32⟩ := encNormR_range
            { e with
              low := (e.low + e.range / 2 ^ 14 * pr % 2 ^ 32) % 2 ^ 64
              range := (e.range + 2 ^ 32 - e.range / 2 ^ 14 * pr % 2 ^ 32) %
                2 ^ 32 }
            (by show 2 ^ 10 ≤ (e.range + 2 ^ 32 - e.range / 2 ^ 14 * pr %
                  2 ^ 32) % 2 ^ 32
                rw [hsub]
                omega)
            (by show (e.range + 2 ^ 32 - e.range / 2 ^ 14 * pr % 2 ^ 32) %
                  2 ^ 32 < 2 ^ 32
                exact Nat.mod_lt _ (by norm_num))
          have hIH := ih _ hv2.2 her24 her32
          rw [her] at hIH
          simp only [opAdd, opShifts]
          have hsh : ({ e with
              low := (e.low + e.range / 2 ^ 14 * pr % 2 ^ 32) % 2 ^ 64
              range := (e.range + 2 ^ 32 - e.range / 2 ^ 14 * pr % 2 ^ 32) %
                2 ^ 32 } : EncSt).range =
              (e.range + 2 ^ 32 - e.range / 2 ^ 14 * pr % 2 ^ 32) % 2 ^ 32 := rfl
          rw [hsh] at hIH
          have hsplit : e.range / 2 ^ 14 * pr % 2 ^ 32 *
              256 ^ (normRShifts ((e.range + 2 ^ 32 - e.range / 2 ^ 14 * pr %
                  2 ^ 32) % 2 ^ 32) +
                traceM rest (encNormR
                  { e with
                    low := (e.low + e.range / 2 ^ 14 * pr % 2 ^ 32) % 2 ^ 64
                    range := (e.range + 2 ^ 32 - e.range / 2 ^ 14 * pr %
                      2 ^ 32) % 2 ^ 32 })) +
              (e.range + 2 ^ 32 - e.range / 2 ^ 14 * pr % 2 ^ 32) % 2 ^ 32 *
                256 ^ normRShifts ((e.range + 2 ^ 32 - e.range / 2 ^ 14 * pr %
                  2 ^ 32) % 2 ^ 32) *
                256 ^ traceM rest (encNormR
                  { e with
                    low := (e.low + e.range / 2 ^ 14 * pr % 2 ^ 32) % 2 ^ 64
                    range := (e.range + 2 ^ 32 - e.range / 2 ^ 14 * pr %
                      2 ^ 32) % 2 ^ 32 }) =
              e.range * 256 ^ (normRShifts ((e.range + 2 ^ 32 -
                  e.range / 2 ^ 14 * pr % 2 ^ 32) % 2 ^ 32) +
                traceM rest (encNormR
                  { e with
                    low := (e.low + e.range / 2 ^ 14 * pr % 2 ^ 32) % 2 ^ 64
                    range := (e.range + 2 ^ 32 - e.range / 2 ^ 14 * pr %
                      2 ^ 32) % 2 ^ 32 })) := by
            rw [pow_add]
            have h0 : e.range / 2 ^ 14 * pr % 2 ^ 32 +
                (e.range + 2 ^ 32 - e.range / 2 ^ 14 * pr % 2 ^ 32) % 2 ^ 32 =
                e.range := by omega
            calc e.range / 2 ^ 14 * pr % 2 ^ 32 *
                (256 ^ normRShifts ((e.range + 2 ^ 32 - e.range / 2 ^ 14 * pr %
                    2 ^ 32) % 2 ^ 32) *
                  256 ^ traceM rest (encNormR
                    { e with
                      low := (e.low + e.range / 2 ^ 14 * pr % 2 ^ 32) % 2 ^ 64
                      range := (e.range + 2 ^ 32 - e.range / 2 ^ 14 * pr %
                        2 ^ 32) % 2 ^ 32 })) +
                (e.range + 2 ^ 32 - e.range / 2 ^ 14 * pr % 2 ^ 32) % 2 ^ 32 *
                  256 ^ normRShifts ((e.range + 2 ^ 32 - e.range / 2 ^ 14 * pr %
                    2 ^ 32) % 2 ^ 32) *
                  256 ^ traceM rest (encNormR
                    { e with
                      low := (e.low + e.range / 2 ^ 14 * pr % 2 ^ 32) % 2 ^ 64
                      range := (e.range + 2 ^ 32 - e.range / 2 ^ 14 * pr %
                        2 ^ 32) % 2 ^ 32 }) =
                (e.range / 2 ^ 14 * pr % 2 ^ 32 +
                    (e.range + 2 ^ 32 - e.range / 2 ^ 14 * pr % 2 ^ 32) %
                      2 ^ 32) *
                  (256 ^ normRShifts ((e.range + 2 ^ 32 - e.range / 2 ^ 14 *
                      pr % 2 ^ 32) % 2 ^ 32) *
                    256 ^ traceM rest (encNormR
                      { e with
                        low := (e.low + e.range / 2 ^ 14 * pr % 2 ^ 32) %
                          2 ^ 64
                        range := (e.range + 2 ^ 32 - e.range / 2 ^ 14 * pr %
                          2 ^ 32) % 2 ^ 32 })) := by ring
              _ = e.range *
                  (256 ^ normRShifts ((e.range + 2 ^ 32 - e.range / 2 ^ 14 *
                      pr % 2 ^ 32) % 2 ^ 32) *
                    256 ^ traceM rest (encNormR
                      { e with
                        low := (e.low + e.range / 2 ^ 14 * pr % 2 ^ 32) %
                          2 ^ 64
                        range := (e.range + 2 ^ 32 - e.range / 2 ^ 14 * pr %
                          2 ^ 32) % 2 ^ 32 })) := by rw [h0]
          exact lt_of_lt_of_le (Nat.add_lt_add_left hIH _) (le_of_eq hsplit)

theorem step_fin_sync (e : EncSt) (d : DecSt) (tb : List Nat)
    (start freq total MR GR : Nat) (hr24 : 2 ^ 24 ≤ e.range)
    (hf : 1 ≤ freq) (hsf : start + freq ≤ total) (ht : total ≤ 2 ^ 14)
    (hMR5 : 5 ≤ MR)
    (hGR : GR < e.range / total * freq % 2 ^ 32 *
      256 ^ (normRShifts (e.range / total * freq % 2 ^ 32) + MR))
    (hinv : SyncInv e d tb
      (normRShifts (e.range / total * freq % 2 ^ 32) + MR)
      (start * (e.range / total) % 2 ^ 32 *
          256 ^ (normRShifts (e.range / total * freq % 2 ^ 32) + MR) + GR)) :
    ∃ d' tb', decStepFin start freq total d =
        some (d.code / (d.range / total), d') ∧
      start ≤ d.code / (d.range / total) ∧
      d.code / (d.range / total) < start + freq ∧
      SyncInv (encStep e (.fin start freq total)) d' tb' MR GR ∧
      2 ^ 24 ≤ (encStep e (.fin start freq total)).range := by
  obtain ⟨hcs, hcache, hJ, hr32x, hK, htb, hlen, hval, hG, hdr, hdc, hdi⟩ := hinv
  have h32 : e.range < 2 ^ 32 := hr32x
  obtain ⟨hr10, hboth, hx32, hρ32, hρ10⟩ :=
    fin_arith e start freq total hr24 h32 hf hsf ht
  have hrpos : 0 < e.range / total := by omega
  have hm64 : (e.low + start * (e.range / total) % 2 ^ 32) % 2 ^ 64 =
      e.low + start * (e.range / total) := by
    rw [hx32]
    exact Nat.mod_eq_of_lt (by omega)
  have hpowpos : 0 < (256 : Nat) ^
      (normRShifts (e.range / total * freq % 2 ^ 32) + MR) :=
    pow_pos (by norm_num) _
  -- decoder's code decomposition
  have hqdef : d.code = start * (e.range / total) +
      GR / 256 ^ (normRShifts (e.range / total * freq % 2 ^ 32) + MR) := by
    rw [hdc, div_helper2 _ _ _ hpowpos, hx32]
  have hqlt : GR / 256 ^ (normRShifts (e.range / total * freq % 2 ^ 32) + MR) <
      e.range / total * freq % 2 ^ 32 :=
    (Nat.div_lt_iff_lt_mul hpowpos).mpr hGR
  obtain ⟨Aq, hAq⟩ : ∃ x, GR / 256 ^
      (normRShifts (e.range / total * freq % 2 ^ 32) + MR) = x := ⟨_, rfl⟩
  rw [hAq] at hqdef hqlt
  -- the mid-step invariant
  have hpm : pendV { e with
      low := (e.low + start * (e.range / total) % 2 ^ 32) % 2 ^ 64
      range := e.range / total * freq % 2 ^ 32 } =
      pendV e + start * (e.range / total) := by
    unfold pendV pending
    dsimp only
    rw [hm64]
    omega
  have hinvMid : SyncInv
      { e with
        low := (e.low + start * (e.range / total) % 2 ^ 32) % 2 ^ 64
        range := e.range / total * freq % 2 ^ 32 }
      { range := d.range / total * freq % 2 ^ 32
        code := (d.code + 2 ^ 32 - start * (d.range / total) % 2 ^ 32) % 2 ^ 32
        input := d.input }
      tb (normRShifts (e.range / total * freq % 2 ^ 32) + MR) GR := by
    refine ⟨hcs, hcache, ?_, ?_, ?_, htb, hlen, ?_, ?_, ?_, ?_, hdi⟩
    · show (e.low + start * (e.range / total) % 2 ^ 32) % 2 ^ 64 +
        e.range / total * freq % 2 ^ 32 ≤ 2 ^ 33
      rw [hm64, hρ32]
      omega
    · show e.range / total * freq % 2 ^ 32 < 2 ^ 32
      exact Nat.mod_lt _ (by norm_num)
    · show pendV { e with
          low := (e.low + start * (e.range / total) % 2 ^ 32) % 2 ^ 64
          range := e.range / total * freq % 2 ^ 32 } +
        e.range / total * freq % 2 ^ 32 ≤ 256 ^ e.cacheSize * 2 ^ 32
      rw [hpm, hρ32]
      omega
    · show numL tb * 2 ^ 40 = pendV { e with
          low := (e.low + start * (e.range / total) % 2 ^ 32) % 2 ^ 64
          range := e.range / total * freq % 2 ^ 32 } *
          256 ^ (normRShifts (e.range / total * freq % 2 ^ 32) + MR) + GR
      rw [hpm]
      calc numL tb * 2 ^ 40 = pendV e *
            256 ^ (normRShifts (e.range / total * freq % 2 ^ 32) + MR) +
            (start * (e.range / total) % 2 ^ 32 *
              256 ^ (normRShifts (e.range / total * freq % 2 ^ 32) + MR) +
              GR) := hval
        _ = (pendV e + start * (e.range / total)) *
            256 ^ (normRShifts (e.range / total * freq % 2 ^ 32) + MR) + GR := by
          rw [hx32]
          ring
    · show GR < e.range / total * freq % 2 ^ 32 *
        256 ^ (normRShifts (e.range / total * freq % 2 ^ 32) + MR)
      exact hGR
    · show d.range / total * freq % 2 ^ 32 = e.range / total * freq % 2 ^ 32
      rw [hdr]
    · show (d.code + 2 ^ 32 - start * (d.range / total) % 2 ^ 32) % 2 ^ 32 =
        GR / 256 ^ (normRShifts (e.range / total * freq % 2 ^ 32) + MR)
      rw [hdr, hx32, hAq]
      have hwlt : e.range / total * freq % 2 ^ 32 < 2 ^ 32 :=
        Nat.mod_lt _ (by norm_num)
      omega
  obtain ⟨d', tb', hdec, hinv', hrange', hge'⟩ :=
    sync_normR
      { e with
        low := (e.low + start * (e.range / total) % 2 ^ 32) % 2 ^ 64
        range := e.range / total * freq % 2 ^ 32 }
      { range := d.range / total * freq % 2 ^ 32
        code := (d.code + 2 ^ 32 - start * (d.range / total) % 2 ^ 32) % 2 ^ 32
        input := d.input }
      tb MR GR hinvMid hMR5
      (by show 2 ^ 10 ≤ e.range / total * freq % 2 ^ 32
          rw [hρ32]
          exact hρ10)
  have hstep : decStepFin start freq total d =
      some (d.code / (d.range / total), d') := by
    unfold decStepFin
    dsimp only
    rw [hdec]
    rfl
  refine ⟨d', tb', hstep, ?_, ?_, ?_, ?_⟩
  · refine (Nat.le_div_iff_mul_le ?_).mpr ?_
    · rw [hdr]
      exact hrpos
    · rw [hdr, hqdef]
      omega
  · refine (Nat.div_lt_iff_lt_mul ?_).mpr ?_
    · rw [hdr]
      exact hrpos
    · rw [hdr, hqdef]
      have hexp : (start + freq) * (e.range / total) =
          start * (e.range / total) + e.range / total * freq := by ring
      omega
  · rw [encStep_fin]
    exact hinv'
  · rw [encStep_fin]
    exact hge'

theorem step_bit0_sync (e : EncSt) (d : DecSt) (tb : List Nat)
    (pr MR GR : Nat) (hr24 : 2 ^ 24 ≤ e.range)
    (hp1 : 2 ^ 6 ≤ pr) (hp2 : pr ≤ 2 ^ 14) (hMR5 : 5 ≤ MR)
    (hGR : GR < e.range / 2 ^ 14 * pr % 2 ^ 32 *
      256 ^ (norm1Shifts (e.range / 2 ^ 14 * pr % 2 ^ 32) + MR))
    (hinv : SyncInv e d tb
      (norm1Shifts (e.range / 2 ^ 14 * pr % 2 ^ 32) + MR) GR) :
    ∃ d' tb', decStepBit pr d = some (false, d') ∧
      SyncInv (encStep e (.bit0 pr)) d' tb' MR GR ∧
      2 ^ 24 ≤ (encStep e (.bit0 pr)).range := by
  obtain ⟨hcs, hcache, hJ, hr32x, hK, htb, hlen, hval, hG, hdr, hdc, hdi⟩ := hinv
  have h32 : e.range < 2 ^ 32 := hr32x
  obtain ⟨hle, hb32, hb16⟩ := bit0_arith e pr hr24 h32 hp1 hp2
  have hpowpos : 0 < (256 : Nat) ^
      (norm1Shifts (e.range / 2 ^ 14 * pr % 2 ^ 32) + MR) :=
    pow_pos (by norm_num) _
  have hcond : d.code < d.range / 2 ^ 14 * pr % 2 ^ 32 := by
    rw [hdr, hdc]
    exact (Nat.div_lt_iff_lt_mul hpowpos).mpr hGR
  have hinvMid : SyncInv { e with range := e.range / 2 ^ 14 * pr % 2 ^ 32 }
      { d with range := d.range / 2 ^ 14 * pr % 2 ^ 32 }
      tb (norm1Shifts (e.range / 2 ^ 14 * pr % 2 ^ 32) + MR) GR := by
    refine ⟨hcs, hcache, ?_, ?_, ?_, htb, hlen, hval, hGR, ?_, hdc, hdi⟩
    · show e.low + e.range / 2 ^ 14 * pr % 2 ^ 32 ≤ 2 ^ 33
      rw [hb32]
      omega
    · show e.range / 2 ^ 14 * pr % 2 ^ 32 < 2 ^ 32
      exact Nat.mod_lt _ (by norm_num)
    · show pendV { e with range := e.range / 2 ^ 14 * pr % 2 ^ 32 } +
        e.range / 2 ^ 14 * pr % 2 ^ 32 ≤ 256 ^ e.cacheSize * 2 ^ 32
      have hpv : pendV { e with range := e.range / 2 ^ 14 * pr % 2 ^ 32 } =
          pendV e := rfl
      rw [hpv, hb32]
      omega
    · show d.range / 2 ^ 14 * pr % 2 ^ 32 = e.range / 2 ^ 14 * pr % 2 ^ 32
      rw [hdr]
  obtain ⟨d', tb', hdec, hinv', hrange', hge'⟩ :=
    sync_norm1 { e with range := e.range / 2 ^ 14 * pr % 2 ^ 32 }
      { d with range := d.range / 2 ^ 14 * pr % 2 ^ 32 }
      tb MR GR hinvMid hMR5
      (by show 2 ^ 16 ≤ e.range / 2 ^ 14 * pr % 2 ^ 32
          rw [hb32]
          omega)
  have hstep : decStepBit pr d = some (false, d') := by
    unfold decStepBit
    dsimp only
    rw [if_pos hcond, hdec]
    rfl
  refine ⟨d', tb', hstep, ?_, ?_⟩
  · rw [encStep_bit0]
    exact hinv'
  · rw [encStep_bit0]
    exact hge'

theorem step_bit1_sync (e : EncSt) (d : DecSt) (tb : List Nat)
    (pr MR GR : Nat) (hr24 : 2 ^ 24 ≤ e.range)
    (hp1 : 1 ≤ pr) (hp2 : pr < 2 ^ 14) (hMR5 : 5 ≤ MR)
    (hGR : GR < (e.range + 2 ^ 32 - e.range / 2 ^ 14 * pr % 2 ^ 32) % 2 ^ 32 *
      256 ^ (normRShifts ((e.range + 2 ^ 32 - e.range / 2 ^ 14 * pr % 2 ^ 32) %
        2 ^ 32) + MR))
    (hinv : SyncInv e d tb
      (normRShifts ((e.range + 2 ^ 32 - e.range / 2 ^ 14 * pr % 2 ^ 32) %
        2 ^ 32) + MR)
      (e.range / 2 ^ 14 * pr % 2 ^ 32 *
          256 ^ (normRShifts ((e.range + 2 ^ 32 - e.range / 2 ^ 14 * pr %
            2 ^ 32) % 2 ^ 32) + MR) + GR)) :
    ∃ d' tb', decStepBit pr d = some (true, d') ∧
      SyncInv (encStep e (.bit1 pr)) d' tb' MR GR ∧
      2 ^ 24 ≤ (encStep e (.bit1 pr)).range := by
  obtain ⟨hcs, hcache, hJ, hr32x, hK, htb, hlen, hval, hG, hdr, hdc, hdi⟩ := hinv
  have h32 : e.range < 2 ^ 32 := hr32x
  obtain ⟨hb32, hble, hb1⟩ := bit1_arith e pr hr24 h32 hp1 hp2
  have hsub : (e.range + 2 ^ 32 - e.range / 2 ^ 14 * pr % 2 ^ 32) % 2 ^ 32 =
      e.range - e.range / 2 ^ 14 * pr := by
    rw [hb32]
    omega
  have hpowpos : 0 < (256 : Nat) ^
      (normRShifts ((e.range + 2 ^ 32 - e.range / 2 ^ 14 * pr % 2 ^ 32) %
        2 ^ 32) + MR) :=
    pow_pos (by norm_num) _
  have hqdef : d.code = e.range / 2 ^ 14 * pr % 2 ^ 32 +
      GR / 256 ^ (normRShifts ((e.range + 2 ^ 32 - e.range / 2 ^ 14 * pr %
        2 ^ 32) % 2 ^ 32) + MR) := by
    rw [hdc, div_helper2 _ _ _ hpowpos]
  have hqlt : GR / 256 ^ (normRShifts ((e.range + 2 ^ 32 - e.range / 2 ^ 14 *
      pr % 2 ^ 32) % 2 ^ 32) + MR) <
      (e.range + 2 ^ 32 - e.range / 2 ^ 14 * pr % 2 ^ 32) % 2 ^ 32 :=
    (Nat.div_lt_iff_lt_mul hpowpos).mpr hGR
  obtain ⟨Aq, hAq⟩ : ∃ x, GR / 256 ^
      (normRShifts ((e.range + 2 ^ 32 - e.range / 2 ^ 14 * pr % 2 ^ 32) %
        2 ^ 32) + MR) = x := ⟨_, rfl⟩
  rw [hAq] at hqdef hqlt
  have hcond : ¬ d.code < d.range / 2 ^ 14 * pr % 2 ^ 32 := by
    rw [hdr, hqdef]
    omega
  have hm64 : (e.low + e.range / 2 ^ 14 * pr % 2 ^ 32) % 2 ^ 64 =
      e.low + e.range / 2 ^ 14 * pr := by
    rw [hb32]
    exact Nat.mod_eq_of_lt (by omega)
  have hpm : pendV { e with
      low := (e.low + e.range / 2 ^ 14 * pr % 2 ^ 32) % 2 ^ 64
      range := (e.range + 2 ^ 32 - e.range / 2 ^ 14 * pr % 2 ^ 32) % 2 ^ 32 } =
      pendV e + e.range / 2 ^ 14 * pr := by
    unfold pendV pending
    dsimp only
    rw [hm64]
    omega
  have hinvMid : SyncInv
      { e with
        low := (e.low + e.range / 2 ^ 14 * pr % 2 ^ 32) % 2 ^ 64
        range := (e.range + 2 ^ 32 - e.range / 2 ^ 14 * pr % 2 ^ 32) % 2 ^ 32 }
      { range := (d.range + 2 ^ 32 - d.range / 2 ^ 14 * pr % 2 ^ 32) % 2 ^ 32
        code := (d.code + 2 ^ 32 - d.range / 2 ^ 14 * pr % 2 ^ 32) % 2 ^ 32
        input := d.input }
      tb (normRShifts ((e.range + 2 ^ 32 - e.range / 2 ^ 14 * pr % 2 ^ 32) %
        2 ^ 32) + MR) GR := by
    refine ⟨hcs, hcache, ?_, ?_, ?_, htb, hlen, ?_, hGR, ?_, ?_, hdi⟩
    · show (e.low + e.range / 2 ^ 14 * pr % 2 ^ 32) % 2 ^ 64 +
        (e.range + 2 ^ 32 - e.range / 2 ^ 14 * pr % 2 ^ 32) % 2 ^ 32 ≤ 2 ^ 33
      rw [hm64, hsub]
      omega
    · show (e.range + 2 ^ 32 - e.range / 2 ^ 14 * pr % 2 ^ 32) % 2 ^ 32 < 2 ^ 32
      exact Nat.mod_lt _ (by norm_num)
    · show pendV { e with
          low := (e.low + e.range / 2 ^ 14 * pr % 2 ^ 32) % 2 ^ 64
          range := (e.range + 2 ^ 32 - e.range / 2 ^ 14 * pr % 2 ^ 32) %
            2 ^ 32 } +
        (e.range + 2 ^ 32 - e.range / 2 ^ 14 * pr % 2 ^ 32) % 2 ^ 32 ≤
        256 ^ e.cacheSize * 2 ^ 32
      rw [hpm, hsub]
      omega
    · show numL tb * 2 ^ 40 = pendV { e with
          low := (e.low + e.range / 2 ^ 14 * pr % 2 ^ 32) % 2 ^ 64
          range := (e.range + 2 ^ 32 - e.range / 2 ^ 14 * pr % 2 ^ 32) %
            2 ^ 32 } *
          256 ^ (normRShifts ((e.range + 2 ^ 32 - e.range / 2 ^ 14 * pr %
            2 ^ 32) % 2 ^ 32) + MR) + GR
      rw [hpm]
      calc numL tb * 2 ^ 40 = pendV e *
            256 ^ (normRShifts ((e.range + 2 ^ 32 - e.range / 2 ^ 14 * pr %
              2 ^ 32) % 2 ^ 32) + MR) +
            (e.range / 2 ^ 14 * pr % 2 ^ 32 *
              256 ^ (normRShifts ((e.range + 2 ^ 32 - e.range / 2 ^ 14 * pr %
                2 ^ 32) % 2 ^ 32) + MR) + GR) := hval
        _ = (pendV e + e.range / 2 ^ 14 * pr) *
            256 ^ (normRShifts ((e.range + 2 ^ 32 - e.range / 2 ^ 14 * pr %
              2 ^ 32) % 2 ^ 32) + MR) + GR := by
          rw [hb32]
          ring
    · show (d.range + 2 ^ 32 - d.range / 2 ^ 14 * pr % 2 ^ 32) % 2 ^ 32 =
        (e.range + 2 ^ 32 - e.range / 2 ^ 14 * pr % 2 ^ 32) % 2 ^ 32
      rw [hdr]
    · show (d.code + 2 ^ 32 - d.range / 2 ^ 14 * pr % 2 ^ 32) % 2 ^ 32 =
        GR / 256 ^ (normRShifts ((e.range + 2 ^ 32 - e.range / 2 ^ 14 * pr %
          2 ^ 32) % 2 ^ 32) + MR)
      rw [hdr, hAq, hqdef]
      have hwlt : (e.range + 2 ^ 32 - e.range / 2 ^ 14 * pr % 2 ^ 32) %
          2 ^ 32 < 2 ^ 32 := Nat.mod_lt _ (by norm_num)
      omega
  obtain ⟨d', tb', hdec, hinv', hrange', hge'⟩ :=
    sync_normR
      { e with
        low := (e.low + e.range / 2 ^ 14 * pr % 2 ^ 32) % 2 ^ 64
        range := (e.range + 2 ^ 32 - e.range / 2 ^ 14 * pr % 2 ^ 32) % 2 ^ 32 }
      { range := (d.range + 2 ^ 32 - d.range / 2 ^ 14 * pr % 2 ^ 32) % 2 ^ 32
        code := (d.code + 2 ^ 32 - d.range / 2 ^ 14 * pr % 2 ^ 32) % 2 ^ 32
        input := d.input }
      tb MR GR hinvMid hMR5
      (by show 2 ^ 10 ≤ (e.range + 2 ^ 32 - e.range / 2 ^ 14 * pr % 2 ^ 32) %
            2 ^ 32
          rw [hsub]
          omega)
  have hstep : decStepBit pr d = some (true, d') := by
    unfold decStepBit
    dsimp only
    rw [if_neg hcond, hdec]
    rfl
  refine ⟨d', tb', hstep, ?_, ?_⟩
  · rw [encStep_bit1]
    exact hinv'
  · rw [encStep_bit1]
    exact hge'

theorem decode_sync : ∀ (ops : List RcOp) (e : EncSt) (d : DecSt)
    (tb : List Nat), validOps ops = true → 2 ^ 24 ≤ e.range →
    SyncInv e d tb (traceM ops e) (traceF ops e) →
    decodeMatches ops d = true := by
  intro ops
  induction ops with
  | nil => intro e d tb _ _ _; rfl
  | cons op rest ih =>
      intro e d tb hv hr24 hinv
      have hv2 : validOp op = true ∧ validOps rest = true := by
        simp only [validOps, List.all_cons, Bool.and_eq_true] at hv
        exact hv
      have h32 : e.range < 2 ^ 32 := hinv.hr32
      cases op with
      | fin start freq total =>
          obtain ⟨hf, hsf, ht⟩ : 1 ≤ freq ∧ start + freq ≤ total ∧
              total ≤ 2 ^ 14 := by
            have h0 := hv2.1
            simp only [validOp, decide_eq_true_eq] at h0
            exact h0
          obtain ⟨hr10, hboth, hx32, hρ32, hρ10⟩ :=
            fin_arith e start freq total hr24 h32 hf hsf ht
          obtain ⟨her, her24, her32⟩ := encNormR_range
            { e with
              low := (e.low + start * (e.range / total) % 2 ^ 32) % 2 ^ 64
              range := e.range / total * freq % 2 ^ 32 }
            (by show 2 ^ 10 ≤ e.range / total * freq % 2 ^ 32
                rw [hρ32]
                omega)
            (by show e.range / total * freq % 2 ^ 32 < 2 ^ 32
                exact Nat.mod_lt _ (by norm_num))
          have hsh : ({ e with
              low := (e.low + start * (e.range / total) % 2 ^ 32) % 2 ^ 64
              range := e.range / total * freq % 2 ^ 32 } : EncSt).range =
              e.range / total * freq % 2 ^ 32 := rfl
          rw [hsh] at her
          rw [← encStep_fin] at her her24 her32
          have hGR : traceF rest (encStep e (.fin start freq total)) <
              e.range / total * freq % 2 ^ 32 *
                256 ^ (normRShifts (e.range / total * freq % 2 ^ 32) +
                  traceM rest (encStep e (.fin start freq total))) := by
            have h0 := traceF_lt rest (encStep e (.fin start freq total))
              hv2.2 her24 her32
            rw [her, mul_assoc, ← pow_add] at h0
            exact h0
          simp only [traceM, traceF, opShifts, opAdd] at hinv
          have hMR5 := traceM_ge5 rest (encStep e (.fin start freq total))
          obtain ⟨d', tb', hstep, hlo, hhi, hinv', hge'⟩ :=
            step_fin_sync e d tb start freq total
              (traceM rest (encStep e (.fin start freq total)))
              (traceF rest (encStep e (.fin start freq total)))
              hr24 hf hsf ht hMR5 hGR hinv
          have hrest := ih (encStep e (.fin start freq total)) d' tb'
            hv2.2 hge' hinv'
          simp only [decodeMatches]
          rw [hstep]
          dsimp only
          rw [hrest]
          simp only [Bool.and_true, decide_eq_true_eq]
          exact ⟨hlo, hhi⟩
      | bit0 pr =>
          obtain ⟨hp1, hp2⟩ : 2 ^ 6 ≤ pr ∧ pr ≤ 2 ^ 14 := by
            have h0 := hv2.1
            simp only [validOp, decide_eq_true_eq] at h0
            exact h0
          obtain ⟨hle, hb32, hb16⟩ := bit0_arith e pr hr24 h32 hp1 hp2
          obtain ⟨her, her24, her32⟩ := encNorm1_range
            { e with range := e.range / 2 ^ 14 * pr % 2 ^ 32 }
            (by show 2 ^ 16 ≤ e.range / 2 ^ 14 * pr % 2 ^ 32
                rw [hb32]
                omega)
            (by show e.range / 2 ^ 14 * pr % 2 ^ 32 < 2 ^ 32
                exact Nat.mod_lt _ (by norm_num))
          have hsh : ({ e with range := e.range / 2 ^ 14 * pr % 2 ^ 32 } :
              EncSt).range = e.range / 2 ^ 14 * pr % 2 ^ 32 := rfl
          rw [hsh] at her
          rw [← encStep_bit0] at her her24 her32
          have hGR : traceF rest (encStep e (.bit0 pr)) <
              e.range / 2 ^ 14 * pr % 2 ^ 32 *
                256 ^ (norm1Shifts (e.range / 2 ^ 14 * pr % 2 ^ 32) +
                  traceM rest (encStep e (.bit0 pr))) := by
            have h0 := traceF_lt rest (encStep e (.bit0 pr)) hv2.2 her24 her32
            rw [her, mul_assoc, ← pow_add] at h0
            exact h0
          simp only [traceM, traceF, opShifts, opAdd, Nat.zero_mul,
            Nat.zero_add] at hinv
          have hMR5 := traceM_ge5 rest (encStep e (.bit0 pr))
          obtain ⟨d', tb', hstep, hinv', hge'⟩ :=
            step_bit0_sync e d tb pr
              (traceM rest (encStep e (.bit0 pr)))
              (traceF rest (encStep e (.bit0 pr)))
              hr24 hp1 hp2 hMR5 hGR hinv
          have hrest := ih (encStep e (.bit0 pr)) d' tb' hv2.2 hge' hinv'
          simp only [decodeMatches]
          rw [hstep]
          dsimp only
          rw [hrest]
          rfl
      | bit1 pr =>
          obtain ⟨hp1, hp2⟩ : 1 ≤ pr ∧ pr < 2 ^ 14 := by
            have h0 := hv2.1
            simp only [validOp, decide_eq_true_eq] at h0
            exact h0
          obtain ⟨hb32, hble, hb1⟩ := bit1_arith e pr hr24 h32 hp1 hp2
          have hsub : (e.range + 2 ^ 32 - e.range / 2 ^ 14 * pr % 2 ^ 32) %
              2 ^ 32 = e.range - e.range / 2 ^ 14 * pr := by
            rw [hb32]
            omega
          obtain ⟨her, her24, her32⟩ := encNormR_range
            { e with
              low := (e.low + e.range / 2 ^ 14 * pr % 2 ^ 32) % 2 ^ 64
              range := (e.range + 2 ^ 32 - e.range / 2 ^ 14 * pr % 2 ^ 32) %
                2 ^ 32 }
            (by show 2 ^ 10 ≤ (e.range + 2 ^ 32 - e.range / 2 ^ 14 * pr %
                  2 ^ 32) % 2 ^ 32
                rw [hsub]
                omega)
            (by show (e.range + 2 ^ 32 - e.range / 2 ^ 14 * pr % 2 ^ 32) %
                  2 ^ 32 < 2 ^ 32
                exact Nat.mod_lt _ (by norm_num))
          have hsh : ({ e with
              low := (e.low + e.range / 2 ^ 14 * pr % 2 ^ 32) % 2 ^ 64
              range := (e.range + 2 ^ 32 - e.range / 2 ^ 14 * pr % 2 ^ 32) %
                2 ^ 32 } : EncSt).range =
              (e.range + 2 ^ 32 - e.range / 2 ^ 14 * pr % 2 ^ 32) % 2 ^ 32 := rfl
          rw [hsh] at her
          rw [← encStep_bit1] at her her24 her32
          have hGR : traceF rest (encStep e (.bit1 pr)) <
              (e.range + 2 ^ 32 - e.range / 2 ^ 14 * pr % 2 ^ 32) % 2 ^ 32 *
                256 ^ (normRShifts ((e.range + 2 ^ 32 - e.range / 2 ^ 14 * pr %
                  2 ^ 32) % 2 ^ 32) +
                  traceM rest (encStep e (.bit1 pr))) := by
            have h0 := traceF_lt rest (encStep e (.bit1 pr)) hv2.2 her24 her32
            rw [her, mul_assoc, ← pow_add] at h0
            exact h0
          simp only [traceM, traceF, opShifts, opAdd] at hinv
          have hMR5 := traceM_ge5 rest (encStep e (.bit1 pr))
          obtain ⟨d', tb', hstep, hinv', hge'⟩ :=
            step_bit1_sync e d tb pr
              (traceM rest (encStep e (.bit1 pr)))
              (traceF rest (encStep e (.bit1 pr)))
              hr24 hp1 hp2 hMR5 hGR hinv
          have hrest := ih (encStep e (.bit1 pr)) d' tb' hv2.2 hge' hinv'
          simp only [decodeMatches]
          rw [hstep]
          dsimp only
          rw [hrest]
          rfl

theorem shift_enc (e : EncSt) (hlt : e.range < 2 ^ 24) (hr1 : 1 ≤ e.range)
    (hcs : 1 ≤ e.cacheSize) (hcache : e.cache < 256)
    (hJ : e.low + e.range ≤ 2 ^ 33)
    (hK : pendV e + e.range ≤ 256 ^ e.cacheSize * 2 ^ 32) :
    ∃ bs, (shiftLow { e with range := e.range * 256 % 2 ^ 32 }).out =
        e.out ++ bs ∧
      bs.length + (shiftLow { e with range := e.range * 256 % 2 ^ 32 }).cacheSize =
        e.cacheSize + 1 ∧
      (∀ b ∈ bs, b < 256) ∧
      numL bs * (256 ^ (shiftLow { e with range := e.range * 256 % 2 ^ 32 }).cacheSize *
          2 ^ 32) +
        pendV (shiftLow { e with range := e.range * 256 % 2 ^ 32 }) =
        256 * pendV e ∧
      1 ≤ (shiftLow { e with range := e.range * 256 % 2 ^ 32 }).cacheSize ∧
      (shiftLow { e with range := e.range * 256 % 2 ^ 32 }).cache < 256 ∧
      (shiftLow { e with range := e.range * 256 % 2 ^ 32 }).low +
        (shiftLow { e with range := e.range * 256 % 2 ^ 32 }).range ≤ 2 ^ 33 ∧
      pendV (shiftLow { e with range := e.range * 256 % 2 ^ 32 }) +
        (shiftLow { e with range := e.range * 256 % 2 ^ 32 }).range ≤
        256 ^ (shiftLow { e with range := e.range * 256 % 2 ^ 32 }).cacheSize *
          2 ^ 32 ∧
      (shiftLow { e with range := e.range * 256 % 2 ^ 32 }).range =
        e.range * 256 := by
  have hrho : e.range * 256 % 2 ^ 32 = e.range * 256 :=
    Nat.mod_eq_of_lt (by omega)
  have hlow : e.low < 2 ^ 33 := by omega
  have hcap : pendV e < 256 ^ e.cacheSize * 2 ^ 32 := by omega
  obtain ⟨bs, hout, hlend, hbd, hvd, hcs1, hcache1, hcap1⟩ :=
    shiftLow_spec { e with range := e.range * 256 % 2 ^ 32 } hcs hcache hlow hcap
  have hvd : numL bs *
        (256 ^ (shiftLow { e with range := e.range * 256 % 2 ^ 32 }).cacheSize *
          2 ^ 32) +
      pendV (shiftLow { e with range := e.range * 256 % 2 ^ 32 }) =
      256 * pendV e := hvd
  have hlend : bs.length +
      (shiftLow { e with range := e.range * 256 % 2 ^ 32 }).cacheSize =
      e.cacheSize + 1 := hlend
  have hout : (shiftLow { e with range := e.range * 256 % 2 ^ 32 }).out =
      e.out ++ bs := hout
  have hKd := shiftLow_cap { e with range := e.range * 256 % 2 ^ 32 } e.range
    hlt hr1 hcs hJ hK
  have hrange1 : (shiftLow { e with range := e.range * 256 % 2 ^ 32 }).range =
      e.range * 256 := by
    rw [shiftLow_range]
    exact hrho
  have hlow1 : (shiftLow { e with range := e.range * 256 % 2 ^ 32 }).low =
      e.low % 2 ^ 24 * 256 := shiftLow_low _
  refine ⟨bs, hout, hlend, hbd, hvd, hcs1, hcache1, ?_, ?_, hrange1⟩
  · rw [hlow1, hrange1]
    have := Nat.mod_lt e.low (show 0 < 2 ^ 24 by norm_num)
    omega
  · rw [hrange1]
    exact hKd

theorem norm1_enc (e : EncSt) (hr16 : 2 ^ 16 ≤ e.range) (h32 : e.range < 2 ^ 32)
    (hcs : 1 ≤ e.cacheSize) (hcache : e.cache < 256)
    (hJ : e.low + e.range ≤ 2 ^ 33)
    (hK : pendV e + e.range ≤ 256 ^ e.cacheSize * 2 ^ 32) :
    ∃ bs, (encNorm1 e).out = e.out ++ bs ∧
      bs.length + (encNorm1 e).cacheSize =
        e.cacheSize + norm1Shifts e.range ∧
      (∀ b ∈ bs, b < 256) ∧
      numL bs * (256 ^ (encNorm1 e).cacheSize * 2 ^ 32) + pendV (encNorm1 e) =
        256 ^ norm1Shifts e.range * pendV e ∧
      1 ≤ (encNorm1 e).cacheSize ∧ (encNorm1 e).cache < 256 ∧
      (encNorm1 e).low + (encNorm1 e).range ≤ 2 ^ 33 ∧
      pendV (encNorm1 e) + (encNorm1 e).range ≤
        256 ^ (encNorm1 e).cacheSize * 2 ^ 32 := by
  by_cases h : e.range < 2 ^ 24
  · have hs : norm1Shifts e.range = 1 := by
      unfold norm1Shifts
      rw [if_pos h]
    have henc : encNorm1 e = shiftLow { e with range := e.range * 256 % 2 ^ 32 } := by
      unfold encNorm1
      rw [if_pos h]
    obtain ⟨bs, hout, hlend, hbd, hvd, hcs1, hcache1, hJ1, hK1, hr1⟩ :=
      shift_enc e h (by omega) hcs hcache hJ hK
    rw [henc, hs]
    exact ⟨bs, hout, hlend, hbd, by rw [pow_one]; exact hvd, hcs1, hcache1,
      hJ1, hK1⟩
  · have hs : norm1Shifts e.range = 0 := by
      unfold norm1Shifts
      rw [if_neg h]
    have henc : encNorm1 e = e := by
      unfold encNorm1
      rw [if_neg h]
    rw [henc, hs]
    refine ⟨[], by simp, by simp, ?_, by simp [numL], hcs, hcache, hJ, hK⟩
    intro b hb
    cases hb

theorem normR_enc (e : EncSt) (hr10 : 2 ^ 10 ≤ e.range) (h32 : e.range < 2 ^ 32)
    (hcs : 1 ≤ e.cacheSize) (hcache : e.cache < 256)
    (hJ : e.low + e.range ≤ 2 ^ 33)
    (hK : pendV e + e.range ≤ 256 ^ e.cacheSize * 2 ^ 32) :
    ∃ bs, (encNormR e).out = e.out ++ bs ∧
      bs.length + (encNormR e).cacheSize =
        e.cacheSize + normRShifts e.range ∧
      (∀ b ∈ bs, b < 256) ∧
      numL bs * (256 ^ (encNormR e).cacheSize * 2 ^ 32) + pendV (encNormR e) =
        256 ^ normRShifts e.range * pendV e ∧
      1 ≤ (encNormR e).cacheSize ∧ (encNormR e).cache < 256 ∧
      (encNormR e).low + (encNormR e).range ≤ 2 ^ 33 ∧
      pendV (encNormR e) + (encNormR e).range ≤
        256 ^ (encNormR e).cacheSize * 2 ^ 32 := by
  by_cases h : e.range < 2 ^ 24
  · have hrho : e.range * 256 % 2 ^ 32 = e.range * 256 :=
      Nat.mod_eq_of_lt (by omega)
    have he1r : (shiftLow { e with range := e.range * 256 % 2 ^ 32 }).range =
        e.range * 256 := by
      rw [shiftLow_range]
      exact hrho
    obtain ⟨bs1, hout1, hlend1, hbd1, hvd1, hcs1, hcache1, hJ1, hK1, hr1⟩ :=
      shift_enc e h (by omega) hcs hcache hJ hK
    by_cases h2 : e.range * 256 < 2 ^ 24
    · have hs : normRShifts e.range = 2 := by
        unfold normRShifts
        rw [if_pos h, if_pos h2]
      have hlt1 : (shiftLow { e with range := e.range * 256 % 2 ^ 32 }).range <
          2 ^ 24 := by
        rw [he1r]
        exact h2
      have henc : encNormR e =
          shiftLow { shiftLow { e with range := e.range * 256 % 2 ^ 32 } with
            range := (shiftLow { e with range := e.range * 256 % 2 ^ 32 }).range *
              256 % 2 ^ 32 } := by
        unfold encNormR
        rw [if_pos h]
        dsimp only
        rw [if_pos hlt1]
      obtain ⟨bs2, hout2, hlend2, hbd2, hvd2, hcs2, hcache2, hJ2, hK2, hr2⟩ :=
        shift_enc (shiftLow { e with range := e.range * 256 % 2 ^ 32 })
          hlt1 (by rw [he1r]; omega) hcs1 hcache1 hJ1 hK1
      rw [henc, hs]
      have hlend2' : bs2.length +
          (shiftLow { shiftLow { e with range := e.range * 256 % 2 ^ 32 } with
            range := (shiftLow { e with range := e.range * 256 % 2 ^ 32 }).range *
              256 % 2 ^ 32 }).cacheSize =
          (shiftLow { e with range := e.range * 256 % 2 ^ 32 }).cacheSize + 1 :=
        hlend2
      refine ⟨bs1 ++ bs2, ?_, ?_, ?_, ?_, hcs2, hcache2, hJ2, hK2⟩
      · rw [hout2, hout1, List.append_assoc]
      · rw [List.length_append]
        omega
      · intro b hb
        rcases List.mem_append.mp hb with h0 | h0
        · exact hbd1 b h0
        · exact hbd2 b h0
      · have hsum : bs2.length +
            (shiftLow { shiftLow { e with range := e.range * 256 % 2 ^ 32 } with
              range := (shiftLow { e with range := e.range * 256 % 2 ^ 32 }).range *
                256 % 2 ^ 32 }).cacheSize =
            (shiftLow { e with range := e.range * 256 % 2 ^ 32 }).cacheSize + 1 :=
          hlend2
        calc numL (bs1 ++ bs2) *
              (256 ^ (shiftLow { shiftLow { e with range := e.range * 256 % 2 ^ 32 } with
                range := (shiftLow { e with range := e.range * 256 % 2 ^ 32 }).range *
                  256 % 2 ^ 32 }).cacheSize * 2 ^ 32) +
              pendV (shiftLow { shiftLow { e with range := e.range * 256 % 2 ^ 32 } with
                range := (shiftLow { e with range := e.range * 256 % 2 ^ 32 }).range *
                  256 % 2 ^ 32 })
            = numL bs1 * 256 ^ (bs2.length +
                (shiftLow { shiftLow { e with range := e.range * 256 % 2 ^ 32 } with
                  range := (shiftLow { e with range := e.range * 256 % 2 ^ 32 }).range *
                    256 % 2 ^ 32 }).cacheSize) * 2 ^ 32 +
              (numL bs2 *
                (256 ^ (shiftLow { shiftLow { e with range := e.range * 256 % 2 ^ 32 } with
                  range := (shiftLow { e with range := e.range * 256 % 2 ^ 32 }).range *
                    256 % 2 ^ 32 }).cacheSize * 2 ^ 32) +
                pendV (shiftLow { shiftLow { e with range := e.range * 256 % 2 ^ 32 } with
                  range := (shiftLow { e with range := e.range * 256 % 2 ^ 32 }).range *
                    256 % 2 ^ 32 })) := by
              rw [numL_append, pow_add]
              ring
          _ = numL bs1 * 256 ^
                ((shiftLow { e with range := e.range * 256 % 2 ^ 32 }).cacheSize + 1) *
                2 ^ 32 +
              256 * pendV (shiftLow { e with range := e.range * 256 % 2 ^ 32 }) := by
              rw [hsum, hvd2]
          _ = 256 * (numL bs1 *
                (256 ^ (shiftLow { e with range := e.range * 256 % 2 ^ 32 }).cacheSize *
                  2 ^ 32) +
                pendV (shiftLow { e with range := e.range * 256 % 2 ^ 32 })) := by
              rw [pow_succ]
              ring
          _ = 256 * (256 * pendV e) := by rw [hvd1]
          _ = 256 ^ 2 * pendV e := by ring
    · have hs : normRShifts e.range = 1 := by
        unfold normRShifts
        rw [if_pos h, if_neg h2]
      have hge1 : ¬ (shiftLow { e with range := e.range * 256 % 2 ^ 32 }).range <
          2 ^ 24 := by
        rw [he1r]
        exact h2
      have henc : encNormR e =
          shiftLow { e with range := e.range * 256 % 2 ^ 32 } := by
        unfold encNormR
        rw [if_pos h]
        dsimp only
        rw [if_neg hge1]
      rw [henc, hs]
      exact ⟨bs1, hout1, hlend1, hbd1, by rw [pow_one]; exact hvd1, hcs1,
        hcache1, hJ1, hK1⟩
  · have hs : normRShifts e.range = 0 := by
      unfold normRShifts
      rw [if_neg h]
    have henc : encNormR e = e := by
      unfold encNormR
      rw [if_neg h]
    rw [henc, hs]
    refine ⟨[], by simp, by simp, ?_, by simp [numL], hcs, hcache, hJ, hK⟩
    intro b hb
    cases hb

theorem glue_step (csE pvE x s Mr Fr : Nat) (bsOp bsRest : List Nat)
    (cs' pvE' : Nat) (hcs' : 1 ≤ cs')
    (hlenOp : bsOp.length + cs' = csE + s)
    (hvOp : numL bsOp * (256 ^ cs' * 2 ^ 32) + pvE' = 256 ^ s * (pvE + x))
    (hlenRest : bsRest.length + 1 = Mr + cs')
    (hvRest : numL bsRest * 2 ^ 40 = pvE' * 256 ^ Mr + Fr) :
    (bsOp ++ bsRest).length + 1 = s + Mr + csE ∧
      numL (bsOp ++ bsRest) * 2 ^ 40 =
        pvE * 256 ^ (s + Mr) + (x * 256 ^ (s + Mr) + Fr) := by
  obtain ⟨k, rfl⟩ : ∃ k, cs' = k + 1 := ⟨cs' - 1, by omega⟩
  constructor
  · rw [List.length_append]
    omega
  · have hlR : bsRest.length = Mr + k := by omega
    calc numL (bsOp ++ bsRest) * 2 ^ 40
        = numL bsOp * 256 ^ bsRest.length * 2 ^ 40 + numL bsRest * 2 ^ 40 := by
          rw [numL_append]
          ring
      _ = numL bsOp * 256 ^ (Mr + k) * 2 ^ 40 + (pvE' * 256 ^ Mr + Fr) := by
          rw [hlR, hvRest]
      _ = (numL bsOp * (256 ^ (k + 1) * 2 ^ 32) + pvE') * 256 ^ Mr + Fr := by
          have h40 : (2 : Nat) ^ 40 = 256 * 2 ^ 32 := by norm_num
          rw [h40, pow_add, pow_succ]
          ring
      _ = 256 ^ s * (pvE + x) * 256 ^ Mr + Fr := by rw [hvOp]
      _ = pvE * 256 ^ (s + Mr) + (x * 256 ^ (s + Mr) + Fr) := by
          rw [pow_add]
          ring

theorem enc_global : ∀ (ops : List RcOp) (e : EncSt), validOps ops = true →
    2 ^ 24 ≤ e.range → e.range < 2 ^ 32 →
    1 ≤ e.cacheSize → e.cache < 256 → e.low + e.range ≤ 2 ^ 33 →
    pendV e + e.range ≤ 256 ^ e.cacheSize * 2 ^ 32 →
    ∃ bs, (flushLoop 5 (encodeOps ops e)).out = e.out ++ bs ∧
      bs.length + 1 = traceM ops e + e.cacheSize ∧
      (∀ b ∈ bs, b < 256) ∧
      numL bs * 2 ^ 40 = pendV e * 256 ^ traceM ops e + traceF ops e := by
  intro ops
  induction ops with
  | nil =>
      intro e _ hr24 h32 hcs hcache hJ hK
      obtain ⟨bs, hout, hlen, hbs, hval, _, _, _⟩ :=
        flushLoop_spec 5 e hcs hcache (by omega) (by omega)
      obtain ⟨hcsF, hpF⟩ := flushLoop5_final e
      rw [hcsF] at hlen hval
      rw [hpF] at hval
      rw [show ((256 : Nat) ^ 1 * 2 ^ 32) = 2 ^ 40 from by norm_num] at hval
      refine ⟨bs, hout, ?_, hbs, ?_⟩
      · simp only [traceM]
        omega
      · simp only [traceM, traceF]
        omega
  | cons op rest ih =>
      intro e hv hr24 h32 hcs hcache hJ hK
      have hv2 : validOp op = true ∧ validOps rest = true := by
        simp only [validOps, List.all_cons, Bool.and_eq_true] at hv
        exact hv
      cases op with
      | fin start freq total =>
          obtain ⟨hf, hsf, ht⟩ : 1 ≤ freq ∧ start + freq ≤ total ∧
              total ≤ 2 ^ 14 := by
            have h0 := hv2.1
            simp only [validOp, decide_eq_true_eq] at h0
            exact h0
          obtain ⟨hr10, hboth, hx32, hρ32, hρ10⟩ :=
            fin_arith e start freq total hr24 h32 hf hsf ht
          have hm64 : (e.low + start * (e.range / total) % 2 ^ 32) % 2 ^ 64 =
              e.low + start * (e.range / total) := by
            rw [hx32]
            exact Nat.mod_eq_of_lt (by omega)
          have hpm : pendV { e with
              low := (e.low + start * (e.range / total) % 2 ^ 32) % 2 ^ 64
              range := e.range / total * freq % 2 ^ 32 } =
              pendV e + start * (e.range / total) % 2 ^ 32 := by
            unfold pendV pending
            dsimp only
            rw [hm64, hx32]
            omega
          obtain ⟨bsOp, houtOp, hlenOp, hbOp, hvOp, hcs', hcache', hJ', hK'⟩ :=
            normR_enc
              { e with
                low := (e.low + start * (e.range / total) % 2 ^ 32) % 2 ^ 64
                range := e.range / total * freq % 2 ^ 32 }
              (by show 2 ^ 10 ≤ e.range / total * freq % 2 ^ 32
                  rw [hρ32]
                  omega)
              (by show e.range / total * freq % 2 ^ 32 < 2 ^ 32
                  exact Nat.mod_lt _ (by norm_num))
              hcs hcache
              (by show (e.low + start * (e.range / total) % 2 ^ 32) % 2 ^ 64 +
                    e.range / total * freq % 2 ^ 32 ≤ 2 ^ 33
                  rw [hm64, hρ32]
                  omega)
              (by show pendV { e with
                    low := (e.low + start * (e.range / total) % 2 ^ 32) % 2 ^ 64
                    range := e.range / total * freq % 2 ^ 32 } +
                    e.range / total * freq % 2 ^ 32 ≤
                    256 ^ e.cacheSize * 2 ^ 32
                  rw [hpm, hρ32, hx32]
                  omega)
          obtain ⟨her, her24, her32⟩ := encNormR_range
            { e with
              low := (e.low + start * (e.range / total) % 2 ^ 32) % 2 ^ 64
              range := e.range / total * freq % 2 ^ 32 }
            (by show 2 ^ 10 ≤ e.range / total * freq % 2 ^ 32
                rw [hρ32]
                omega)
            (by show e.range / total * freq % 2 ^ 32 < 2 ^ 32
                exact Nat.mod_lt _ (by norm_num))
          obtain ⟨bsRest, houtR, hlenR, hbR, hvR⟩ :=
            ih (encNormR
              { e with
                low := (e.low + start * (e.range / total) % 2 ^ 32) % 2 ^ 64
                range := e.range / total * freq % 2 ^ 32 })
              hv2.2 her24 her32 hcs' hcache' hJ' hK'
          have hglue := glue_step e.cacheSize (pendV e)
            (start * (e.range / total) % 2 ^ 32)
            (normRShifts (e.range / total * freq % 2 ^ 32))
            (traceM rest (encNormR
              { e with
                low := (e.low + start * (e.range / total) % 2 ^ 32) % 2 ^ 64
                range := e.range / total * freq % 2 ^ 32 }))
            (traceF rest (encNormR
              { e with
                low := (e.low + start * (e.range / total) % 2 ^ 32) % 2 ^ 64
                range := e.range / total * freq % 2 ^ 32 }))
            bsOp bsRest
            (encNormR
              { e with
                low := (e.low + start * (e.range / total) % 2 ^ 32) % 2 ^ 64
                range := e.range / total * freq % 2 ^ 32 }).cacheSize
            (pendV (encNormR
              { e with
                low := (e.low + start * (e.range / total) % 2 ^ 32) % 2 ^ 64
                range := e.range / total * freq % 2 ^ 32 }))
            hcs' hlenOp (by rw [hvOp, hpm]) hlenR hvR
          refine ⟨bsOp ++ bsRest, ?_, ?_, ?_, ?_⟩
          · show (flushLoop 5 (encodeOps rest (encStep e
                (.fin start freq total)))).out = e.out ++ (bsOp ++ bsRest)
            rw [encStep_fin, houtR, houtOp]
            rw [List.append_assoc]
          · simp only [traceM, opShifts]
            rw [encStep_fin]
            exact hglue.1
          · intro b hb
            rcases List.mem_append.mp hb with h0 | h0
            · exact hbOp b h0
            · exact hbR b h0
          · simp only [traceM, traceF, opShifts, opAdd]
            rw [encStep_fin]
            exact hglue.2
      | bit0 pr =>
          obtain ⟨hp1, hp2⟩ : 2 ^ 6 ≤ pr ∧ pr ≤ 2 ^ 14 := by
            have h0 := hv2.1
            simp only [validOp, decide_eq_true_eq] at h0
            exact h0
          obtain ⟨hle, hb32, hb16⟩ := bit0_arith e pr hr24 h32 hp1 hp2
          obtain ⟨bsOp, houtOp, hlenOp, hbOp, hvOp, hcs', hcache', hJ', hK'⟩ :=
            norm1_enc { e with range := e.range / 2 ^ 14 * pr % 2 ^ 32 }
              (by show 2 ^ 16 ≤ e.range / 2 ^ 14 * pr % 2 ^ 32
                  rw [hb32]
                  omega)
              (by show e.range / 2 ^ 14 * pr % 2 ^ 32 < 2 ^ 32
                  exact Nat.mod_lt _ (by norm_num))
              hcs hcache
              (by show e.low + e.range / 2 ^ 14 * pr % 2 ^ 32 ≤ 2 ^ 33
                  rw [hb32]
                  omega)
              (by show pendV { e with range := e.range / 2 ^ 14 * pr % 2 ^ 32 } +
                    e.range / 2 ^ 14 * pr % 2 ^ 32 ≤ 256 ^ e.cacheSize * 2 ^ 32
                  have hpv : pendV { e with
                      range := e.range / 2 ^ 14 * pr % 2 ^ 32 } = pendV e := rfl
                  rw [hpv, hb32]
                  omega)
          obtain ⟨her, her24, her32⟩ := encNorm1_range
            { e with range := e.range / 2 ^ 14 * pr % 2 ^ 32 }
            (by show 2 ^ 16 ≤ e.range / 2 ^ 14 * pr % 2 ^ 32
                rw [hb32]
                omega)
            (by show e.range / 2 ^ 14 * pr % 2 ^ 32 < 2 ^ 32
                exact Nat.mod_lt _ (by norm_num))
          obtain ⟨bsRest, houtR, hlenR, hbR, hvR⟩ :=
            ih (encNorm1 { e with range := e.range / 2 ^ 14 * pr % 2 ^ 32 })
              hv2.2 her24 her32 hcs' hcache' hJ' hK'
          have hglue := glue_step e.cacheSize (pendV e) 0
            (norm1Shifts (e.range / 2 ^ 14 * pr % 2 ^ 32))
            (traceM rest (encNorm1
              { e with range := e.range / 2 ^ 14 * pr % 2 ^ 32 }))
            (traceF rest (encNorm1
              { e with range := e.range / 2 ^ 14 * pr % 2 ^ 32 }))
            bsOp bsRest
            (encNorm1 { e with range := e.range / 2 ^ 14 * pr % 2 ^ 32 }).cacheSize
            (pendV (encNorm1 { e with range := e.range / 2 ^ 14 * pr % 2 ^ 32 }))
            hcs' hlenOp
            (by rw [hvOp,
                  show ({ e with range := e.range / 2 ^ 14 * pr % 2 ^ 32 } :
                    EncSt).range = e.range / 2 ^ 14 * pr % 2 ^ 32 from rfl,
                  show pendV { e with range := e.range / 2 ^ 14 * pr % 2 ^ 32 } =
                    pendV e from rfl, Nat.add_zero])
            hlenR hvR
          refine ⟨bsOp ++ bsRest, ?_, ?_, ?_, ?_⟩
          · show (flushLoop 5 (encodeOps rest (encStep e (.bit0 pr)))).out =
              e.out ++ (bsOp ++ bsRest)
            rw [encStep_bit0, houtR, houtOp]
            rw [List.append_assoc]
          · simp only [traceM, opShifts]
            rw [encStep_bit0]
            exact hglue.1
          · intro b hb
            rcases List.mem_append.mp hb with h0 | h0
            · exact hbOp b h0
            · exact hbR b h0
          · simp only [traceM, traceF, opShifts, opAdd]
            rw [encStep_bit0]
            have h2 := hglue.2
            rw [Nat.zero_mul, Nat.zero_add] at h2
            simp only [Nat.zero_mul, Nat.zero_add]
            exact h2
      | bit1 pr =>
          obtain ⟨hp1, hp2⟩ : 1 ≤ pr ∧ pr < 2 ^ 14 := by
            have h0 := hv2.1
            simp only [validOp, decide_eq_true_eq] at h0
            exact h0
          obtain ⟨hb32, hble, hb1⟩ := bit1_arith e pr hr24 h32 hp1 hp2
          have hsub : (e.range + 2 ^ 32 - e.range / 2 ^ 14 * pr % 2 ^ 32) %
              2 ^ 32 = e.range - e.range / 2 ^ 14 * pr := by
            rw [hb32]
            omega
          have hm64 : (e.low + e.range / 2 ^ 14 * pr % 2 ^ 32) % 2 ^ 64 =
              e.low + e.range / 2 ^ 14 * pr := by
            rw [hb32]
            exact Nat.mod_eq_of_lt (by omega)
          have hpm : pendV { e with
              low := (e.low + e.range / 2 ^ 14 * pr % 2 ^ 32) % 2 ^ 64
              range := (e.range + 2 ^ 32 - e.range / 2 ^ 14 * pr % 2 ^ 32) %
                2 ^ 32 } = pendV e + e.range / 2 ^ 14 * pr % 2 ^ 32 := by
            unfold pendV pending
            dsimp only
            rw [hm64, hb32]
            omega
          obtain ⟨bsOp, houtOp, hlenOp, hbOp, hvOp, hcs', hcache', hJ', hK'⟩ :=
            normR_enc
              { e with
                low := (e.low + e.range / 2 ^ 14 * pr % 2 ^ 32) % 2 ^ 64
                range := (e.range + 2 ^ 32 - e.range / 2 ^ 14 * pr % 2 ^ 32) %
                  2 ^ 32 }
              (by show 2 ^ 10 ≤ (e.range + 2 ^ 32 - e.range / 2 ^ 14 * pr %
                    2 ^ 32) % 2 ^ 32
                  rw [hsub]
                  omega)
              (by show (e.range + 2 ^ 32 - e.range / 2 ^ 14 * pr % 2 ^ 32) %
                    2 ^ 32 < 2 ^ 32
                  exact Nat.mod_lt _ (by norm_num))
              hcs hcache
              (by show (e.low + e.range / 2 ^ 14 * pr % 2 ^ 32) % 2 ^ 64 +
                    (e.range + 2 ^ 32 - e.range / 2 ^ 14 * pr % 2 ^ 32) %
                      2 ^ 32 ≤ 2 ^ 33
                  rw [hm64, hsub]
                  omega)
              (by show pendV { e with
                    low := (e.low + e.range / 2 ^ 14 * pr % 2 ^ 32) % 2 ^ 64
                    range := (e.range + 2 ^ 32 - e.range / 2 ^ 14 * pr %
                      2 ^ 32) % 2 ^ 32 } +
                    (e.range + 2 ^ 32 - e.range / 2 ^ 14 * pr % 2 ^ 32) %
                      2 ^ 32 ≤ 256 ^ e.cacheSize * 2 ^ 32
                  rw [hpm, hsub, hb32]
                  omega)
          obtain ⟨her, her24, her32⟩ := encNormR_range
            { e with
              low := (e.low + e.range / 2 ^ 14 * pr % 2 ^ 32) % 2 ^ 64
              range := (e.range + 2 ^ 32 - e.range / 2 ^ 14 * pr % 2 ^ 32) %
                2 ^ 32 }
            (by show 2 ^ 10 ≤ (e.range + 2 ^ 32 - e.range / 2 ^ 14 * pr %
                  2 ^ 32) % 2 ^ 32
                rw [hsub]
                omega)
            (by show (e.range + 2 ^ 32 - e.range / 2 ^ 14 * pr % 2 ^ 32) %
                  2 ^ 32 < 2 ^ 32
                exact Nat.mod_lt _ (by norm_num))
          obtain ⟨bsRest, houtR, hlenR, hbR, hvR⟩ :=
            ih (encNormR
              { e with
                low := (e.low + e.range / 2 ^ 14 * pr % 2 ^ 32) % 2 ^ 64
                range := (e.range + 2 ^ 32 - e.range / 2 ^ 14 * pr % 2 ^ 32) %
                  2 ^ 32 })
              hv2.2 her24 her32 hcs' hcache' hJ' hK'
          have hglue := glue_step e.cacheSize (pendV e)
            (e.range / 2 ^ 14 * pr % 2 ^ 32)
            (normRShifts ((e.range + 2 ^ 32 - e.range / 2 ^ 14 * pr % 2 ^ 32) %
              2 ^ 32))
            (traceM rest (encNormR
              { e with
                low := (e.low + e.range / 2 ^ 14 * pr % 2 ^ 32) % 2 ^ 64
                range := (e.range + 2 ^ 32 - e.range / 2 ^ 14 * pr % 2 ^ 32) %
                  2 ^ 32 }))
            (traceF rest (encNormR
              { e with
                low := (e.low + e.range / 2 ^ 14 * pr % 2 ^ 32) % 2 ^ 64
                range := (e.range + 2 ^ 32 - e.range / 2 ^ 14 * pr % 2 ^ 32) %
                  2 ^ 32 }))
            bsOp bsRest
            (encNormR
              { e with
                low := (e.low + e.range / 2 ^ 14 * pr % 2 ^ 32) % 2 ^ 64
                range := (e.range + 2 ^ 32 - e.range / 2 ^ 14 * pr % 2 ^ 32) %
                  2 ^ 32 }).cacheSize
            (pendV (encNormR
              { e with
                low := (e.low + e.range / 2 ^ 14 * pr % 2 ^ 32) % 2 ^ 64
                range := (e.range + 2 ^ 32 - e.range / 2 ^ 14 * pr % 2 ^ 32) %
                  2 ^ 32 }))
            hcs' hlenOp (by rw [hvOp, hpm]) hlenR hvR
          refine ⟨bsOp ++ bsRest, ?_, ?_, ?_, ?_⟩
          · show (flushLoop 5 (encodeOps rest (encStep e (.bit1 pr)))).out =
              e.out ++ (bsOp ++ bsRest)
            rw [encStep_bit1, houtR, houtOp]
            rw [List.append_assoc]
          · simp only [traceM, opShifts]
            rw [encStep_bit1]
            exact hglue.1
          · intro b hb
            rcases List.mem_append.mp hb with h0 | h0
            · exact hbOp b h0
            · exact hbR b h0
          · simp only [traceM, traceF, opShifts, opAdd]
            rw [encStep_bit1]
            exact hglue.2

theorem readCodeLoop4 (b1 b2 b3 b4 : Nat) (t : List Nat)
    (h1 : b1 < 256) (h2 : b2 < 256) (h3 : b3 < 256) (h4 : b4 < 256) :
    readCodeLoop 4 0 (b1 :: b2 :: b3 :: b4 :: t) =
      some (((b1 * 256 + b2) * 256 + b3) * 256 + b4, t) := by
  have e0 : Nat.lor (0 * 256 % 2 ^ 32) b1 = b1 := by
    have h := lor256_eq_add 0 b1 h1
    simpa using h
  have m1 : b1 * 256 % 2 ^ 32 = b1 * 256 := Nat.mod_eq_of_lt (by omega)
  have e1 : Nat.lor (b1 * 256 % 2 ^ 32) b2 = b1 * 256 + b2 := by
    rw [m1]
    exact lor256_eq_add b1 b2 h2
  have m2 : (b1 * 256 + b2) * 256 % 2 ^ 32 = (b1 * 256 + b2) * 256 :=
    Nat.mod_eq_of_lt (by omega)
  have e2 : Nat.lor ((b1 * 256 + b2) * 256 % 2 ^ 32) b3 =
      (b1 * 256 + b2) * 256 + b3 := by
    rw [m2]
    exact lor256_eq_add _ b3 h3
  have m3 : ((b1 * 256 + b2) * 256 + b3) * 256 % 2 ^ 32 =
      ((b1 * 256 + b2) * 256 + b3) * 256 :=
    Nat.mod_eq_of_lt (by omega)
  have e3 : Nat.lor (((b1 * 256 + b2) * 256 + b3) * 256 % 2 ^ 32) b4 =
      ((b1 * 256 + b2) * 256 + b3) * 256 + b4 := by
    rw [m3]
    exact lor256_eq_add _ b4 h4
  show readCodeLoop 4 0 (b1 :: b2 :: b3 :: b4 :: t) = _
  rw [readCodeLoop, e0, readCodeLoop, e1, readCodeLoop, e2, readCodeLoop, e3,
    readCodeLoop]

theorem decInit_spec (b1 b2 b3 b4 : Nat) (t : List Nat)
    (h1 : b1 < 256) (h2 : b2 < 256) (h3 : b3 < 256) (h4 : b4 < 256)
    (hne : ((b1 * 256 + b2) * 256 + b3) * 256 + b4 ≠ 0xFFFFFFFF) :
    decInit (0 :: b1 :: b2 :: b3 :: b4 :: t) =
      some ⟨0xFFFFFFFF, ((b1 * 256 + b2) * 256 + b3) * 256 + b4, t⟩ := by
  unfold decInit
  dsimp only
  rw [if_neg (show ¬ ((0 : Nat) ≠ 0) by simp)]
  rw [readCodeLoop4 b1 b2 b3 b4 t h1 h2 h3 h4]
  dsimp only
  rw [if_neg hne]

/-- C2: PPMd7 range-coder round trip.  For every valid sequence of
symbol-coding operations (a nonempty interval inside a frequency total of at
most `1 <<< 14` for multi-symbol contexts; bin probabilities within the
`1 <<< 14` scale), encoding with `RangeEncoder` (`encode_final` /
`encode_bit_0` / `encode_bit_1` following the ppmd7 call-site protocol) and
flushing, then decoding the produced byte stream with `RangeDecoder::new`
and the matching `get_threshold` / `decode_final` / `decode_bit_0` /
`decode_bit_1` over the same frequency intervals, recovers every encoded
symbol. -/
theorem range_coder_roundtrip (ops : List RcOp) (h : validOps ops = true) :
    roundTrip ops = true := by
  have hr24 : (2 : Nat) ^ 24 ≤ encInit.range := by decide
  have h32 : encInit.range < 2 ^ 32 := by decide
  obtain ⟨bs, hout, hlen, hbs, hval⟩ :=
    enc_global ops encInit h hr24 h32 (by decide) (by decide) (by decide)
      (by decide)
  have hM5 := traceM_ge5 ops encInit
  obtain ⟨M5, hM⟩ : ∃ M5, traceM ops encInit = M5 + 5 :=
    ⟨traceM ops encInit - 5, by omega⟩
  have hpv0 : pendV encInit = 0 := by decide
  have hval2 : numL bs * 2 ^ 40 = traceF ops encInit := by
    rw [hpv0, Nat.zero_mul, Nat.zero_add] at hval
    exact hval
  have hF := traceF_lt ops encInit h hr24 h32
  have hrangeInit : encInit.range = 2 ^ 32 - 1 := by decide
  have hlenbs : bs.length = M5 + 5 := by
    have hcs1 : encInit.cacheSize = 1 := rfl
    omega
  have h256M : (256 : Nat) ^ traceM ops encInit = 256 ^ M5 * 2 ^ 40 := by
    rw [hM, pow_add]
    norm_num
  have hP1 : 1 ≤ (256 : Nat) ^ M5 := Nat.one_le_pow _ _ (by norm_num)
  have hnumlt : numL bs < (2 ^ 32 - 1) * 256 ^ M5 := by
    have h0 : numL bs * 2 ^ 40 < (2 ^ 32 - 1) * 256 ^ M5 * 2 ^ 40 := by
      rw [hval2]
      calc traceF ops encInit < encInit.range * 256 ^ traceM ops encInit := hF
        _ = (2 ^ 32 - 1) * 256 ^ M5 * 2 ^ 40 := by
            rw [hrangeInit, h256M]
            ring
    exact lt_of_mul_lt_mul_right h0 (Nat.zero_le _)
  obtain ⟨b0, b1, b2, b3, b4, t, rfl⟩ :
      ∃ b0 b1 b2 b3 b4 t, bs = b0 :: b1 :: b2 :: b3 :: b4 :: t := by
    rcases bs with _ | ⟨b0, bs1⟩
    · exfalso
      simp only [List.length_nil] at hlenbs
      omega
    rcases bs1 with _ | ⟨b1, bs2⟩
    · exfalso
      simp only [List.length_cons, List.length_nil] at hlenbs
      omega
    rcases bs2 with _ | ⟨b2, bs3⟩
    · exfalso
      simp only [List.length_cons, List.length_nil] at hlenbs
      omega
    rcases bs3 with _ | ⟨b3, bs4⟩
    · exfalso
      simp only [List.length_cons, List.length_nil] at hlenbs
      omega
    rcases bs4 with _ | ⟨b4, t⟩
    · exfalso
      simp only [List.length_cons, List.length_nil] at hlenbs
      omega
    exact ⟨b0, b1, b2, b3, b4, t, rfl⟩
  have hlent : t.length = M5 := by
    simp only [List.length_cons] at hlenbs
    omega
  have hlen4 : (b1 :: b2 :: b3 :: b4 :: t).length = M5 + 4 := by
    simp only [List.length_cons, hlent]
  have hnumsplit : numL (b0 :: b1 :: b2 :: b3 :: b4 :: t) =
      b0 * 256 ^ (M5 + 4) + numL (b1 :: b2 :: b3 :: b4 :: t) := by
    conv_lhs => rw [numL]
    rw [hlen4]
  have hpow32 : (256 : Nat) ^ (M5 + 4) = 256 ^ M5 * 2 ^ 32 := by
    rw [pow_add]
    norm_num
  have hb0 : b0 = 0 := by
    by_contra hb0ne
    have h1 : 256 ^ (M5 + 4) ≤ b0 * 256 ^ (M5 + 4) :=
      Nat.le_mul_of_pos_left _ (by omega)
    have h2 : b0 * 256 ^ (M5 + 4) ≤ numL (b0 :: b1 :: b2 :: b3 :: b4 :: t) := by
      rw [hnumsplit]
      omega
    omega
  subst hb0
  have hb1 : b1 < 256 := hbs b1 (by simp)
  have hb2 : b2 < 256 := hbs b2 (by simp)
  have hb3 : b3 < 256 := hbs b3 (by simp)
  have hb4 : b4 < 256 := hbs b4 (by simp)
  have hbt : ∀ b ∈ t, b < 256 := fun b hb => hbs b (by simp [hb])
  have hntlt : numL t < 256 ^ M5 := by
    have := numL_lt t hbt
    rw [hlent] at this
    exact this
  have hsplit5 : numL (0 :: b1 :: b2 :: b3 :: b4 :: t) =
      (((b1 * 256 + b2) * 256 + b3) * 256 + b4) * 256 ^ M5 + numL t := by
    simp only [numL, List.length_cons, hlent]
    ring
  have hcode : traceF ops encInit / 256 ^ traceM ops encInit =
      ((b1 * 256 + b2) * 256 + b3) * 256 + b4 := by
    rw [← hval2, hsplit5, h256M]
    have hr : numL t * 2 ^ 40 < 256 ^ M5 * 2 ^ 40 :=
      (Nat.mul_lt_mul_right (by norm_num)).mpr hntlt
    calc ((((b1 * 256 + b2) * 256 + b3) * 256 + b4) * 256 ^ M5 + numL t) *
          2 ^ 40 / (256 ^ M5 * 2 ^ 40)
        = ((((b1 * 256 + b2) * 256 + b3) * 256 + b4) * (256 ^ M5 * 2 ^ 40) +
            numL t * 2 ^ 40) / (256 ^ M5 * 2 ^ 40) := by
          ring_nf
      _ = ((b1 * 256 + b2) * 256 + b3) * 256 + b4 :=
          div_helper1 _ _ _ hr
  have hcodelt : ((b1 * 256 + b2) * 256 + b3) * 256 + b4 < 2 ^ 32 - 1 := by
    rw [← hcode, ← hrangeInit]
    exact (Nat.div_lt_iff_lt_mul (pow_pos (by norm_num) _)).mpr hF
  have hinv0 : SyncInv encInit ⟨0xFFFFFFFF,
      ((b1 * 256 + b2) * 256 + b3) * 256 + b4, t⟩
      (0 :: b1 :: b2 :: b3 :: b4 :: t) (traceM ops encInit)
      (traceF ops encInit) := by
    refine ⟨by decide, by decide, by decide, by decide, by decide, hbs, ?_,
      ?_, ?_, rfl, ?_, ?_⟩
    · show (0 :: b1 :: b2 :: b3 :: b4 :: t).length + 1 =
        traceM ops encInit + encInit.cacheSize
      simp only [List.length_cons, hlent]
      have hcs1 : encInit.cacheSize = 1 := rfl
      omega
    · show numL (0 :: b1 :: b2 :: b3 :: b4 :: t) * 2 ^ 40 =
        pendV encInit * 256 ^ traceM ops encInit + traceF ops encInit
      rw [hpv0, Nat.zero_mul, Nat.zero_add]
      exact hval2
    · exact hF
    · show ((b1 * 256 + b2) * 256 + b3) * 256 + b4 =
        traceF ops encInit / 256 ^ traceM ops encInit
      exact hcode.symm
    · rfl
  have hdm := decode_sync ops encInit
    ⟨0xFFFFFFFF, ((b1 * 256 + b2) * 256 + b3) * 256 + b4, t⟩
    (0 :: b1 :: b2 :: b3 :: b4 :: t) h hr24 hinv0
  have hea : encodeAll ops = 0 :: b1 :: b2 :: b3 :: b4 :: t := by
    show (flushLoop 5 (encodeOps ops encInit)).out = _
    rw [hout]
    rfl
  unfold roundTrip
  rw [hea, decInit_spec b1 b2 b3 b4 t hb1 hb2 hb3 hb4 (by omega)]
  exact hdm

/-- Witness for `range_coder_roundtrip` on a concrete six-symbol operation
sequence exercising all three operation kinds. -/
theorem range_coder_roundtrip_witness :
    validOps [RcOp.fin 3 4 10, RcOp.bit0 100, RcOp.bit1 5000,
      RcOp.fin 0 1 16384, RcOp.bit1 1, RcOp.bit0 16384] = true ∧
    roundTrip [RcOp.fin 3 4 10, RcOp.bit0 100, RcOp.bit1 5000,
      RcOp.fin 0 1 16384, RcOp.bit1 1, RcOp.bit0 16384] = true :=
  ⟨by decide,
    range_coder_roundtrip [RcOp.fin 3 4 10, RcOp.bit0 100, RcOp.bit1 5000,
      RcOp.fin 0 1 16384, RcOp.bit1 1, RcOp.bit0 16384] (by decide)⟩

end SevenZ
